import Mathlib

/-
  Verification development for the phi.network memory-stream core.

  The TypeScript source is shallowly embedded: JS strings are `List Char`
  (Unicode scalar values; lone surrogates are outside the model), machine
  integers / bigints are `Int` or `Nat` with explicit wrapping where the
  source wraps, fallible operations return `Option`, and the handful of
  platform builtins the source calls (`btoa`/`atob`, `TextEncoder`/
  `TextDecoder`, `JSON.stringify`/`JSON.parse`, `URL`, `URLSearchParams`,
  `localStorage`) are modelled by their standard semantics.  Finite JS
  numbers are represented by their canonical decimal rendering (the string
  `String(x)` produces), which identifies a double uniquely; non-finite
  numbers are explicit constructors.  The embedding models a
  browser environment whose page origin is the source's own parse
  fallback `https://x.invalid` (so `originForParse()` and the
  window-present branches agree), and `localStorage` is passed around as
  explicit state.
-/

/- ═══════════════ Part 1: definitions ═══════════════ -/

/- ───────── basic string machinery ───────── -/

/-- JS strings are modelled as lists of Unicode scalar values. -/
abbrev Str := List Char

/-- Coerce a Lean string literal into the model's string type. -/
def strOf (s : String) : Str := s.data

/- ───────── TimeEngine (KKS-1.0 D/M/Y derivation, src/unnamed/part_002) ───────── -/

/-- JS `bigint` remainder `%` truncates toward zero; embedded as `Int.tmod`. -/
def jsBigRem (a m : Int) : Int := Int.tmod a m

/-- JS `bigint` quotient `/` truncates toward zero; embedded as `Int.tdiv`. -/
def jsBigQuot (a m : Int) : Int := Int.tdiv a m

/-- `modE` from the source: non-negative remainder. -/
def modE (a m : Int) : Int :=
  let r := jsBigRem a m
  if r ≥ 0 then r else r + m

/-- `floorDivE` from the source.  The source throws on a zero divisor;
that branch is modelled as 0 (never reached: all divisors are fixed
non-zero constants). -/
def floorDivE (a d : Int) : Int :=
  if d = 0 then 0
  else
    let q := jsBigQuot a d
    let r := jsBigRem a d
    if r = 0 then q else if a ≥ 0 then q else q - 1

/-- `Number.MAX_SAFE_INTEGER`. -/
def MAX_SAFE : Int := 9007199254740991

/-- `toSafeNumber` from the source: clamp a bigint into the safe-integer
range (the values flowing through the D/M/Y derivation are integral, so
the resulting JS number is modelled as `Int`). -/
def toSafeNumber (x : Int) : Int :=
  if x > MAX_SAFE then MAX_SAFE else if x < -MAX_SAFE then -MAX_SAFE else x

/-- Modelled from the spec: the module `src/utils/kai_pulse` (imported by
the source files but not present in the provided tree) fixes one pulse =
1,000,000 μpulses, and `epochMsFromPulse` is the exact integer inverse of
`microPulsesSinceGenesis` ("computes an exact count of micro-pulses since
a fixed genesis instant using integer (not floating-point) arithmetic",
"exact inverse using the same integer scale"), so the composition used by
`kaiDMYFromPulseKKS` is `pulse ↦ pulse * MICRO_PER_PULSE`. -/
def MICRO_PER_PULSE : Int := 1000000

/-- Modelled from the spec: μpulses elapsed at a given pulse (composition
`microPulsesSinceGenesis ∘ epochMsFromPulse` of the missing
`src/utils/kai_pulse` module). -/
def microPulsesOfPulse (pulse : Int) : Int := pulse * MICRO_PER_PULSE

/-- Modelled from the spec: μpulses per harmonic day (17,491.270421
pulses per day on the μpulse grid), from the missing `src/utils/kai_pulse`
module.  Only positivity and the genesis value 0 matter for the claims. -/
def N_DAY_MICRO : Int := 17491270421

/-- Modelled from the spec: days per month (dayOfMonth spans 1..42). -/
def DAYS_PER_MONTH : Int := 42

/-- Modelled from the spec: months per year (month spans 1..8). -/
def MONTHS_PER_YEAR : Int := 8

/-- Modelled from the spec: days per year (8 months of 42 days). -/
def DAYS_PER_YEAR : Int := 336

/-- Result record of `kaiDMYFromPulseKKS`. -/
structure KaiDMY where
  day : Int
  month : Int
  year : Int
deriving Repr, DecidableEq

/-- `kaiDMYFromPulseKKS` from the source (src/unnamed/part_002 lines
614-627): exact D/M/Y from μpulses. -/
def kaiDMYFromPulseKKS (pulse : Int) : KaiDMY :=
  let pm := microPulsesOfPulse pulse
  let dayIdx := floorDivE pm N_DAY_MICRO
  let monthIdx := floorDivE dayIdx DAYS_PER_MONTH
  let yearIdx := floorDivE dayIdx DAYS_PER_YEAR
  let dayOfMonth := toSafeNumber (modE dayIdx DAYS_PER_MONTH) + 1
  let month := toSafeNumber (modE monthIdx MONTHS_PER_YEAR) + 1
  let year := toSafeNumber yearIdx
  ⟨dayOfMonth, month, year⟩

/- ───────── number rendering (JS `toString`) ───────── -/

/-- Decimal rendering of a natural number, as JS `String(n)` for
integral values below 10^21. -/
def natToDec (n : Nat) : Str :=
  if h : n < 10 then [Nat.digitChar n]
  else natToDec (n / 10) ++ [Nat.digitChar (n % 10)]
decreasing_by exact Nat.div_lt_self (by omega) (by omega)

/-- Decimal rendering of an integer (JS `BigInt.prototype.toString`). -/
def intToDec (i : Int) : Str :=
  if i < 0 then '-' :: natToDec i.natAbs else natToDec i.natAbs

/-- Lowercase hexadecimal rendering (JS `toString(16)` on a bigint). -/
def natToHex (n : Nat) : Str :=
  if h : n < 16 then [Nat.digitChar n]
  else natToHex (n / 16) ++ [Nat.digitChar (n % 16)]
decreasing_by exact Nat.div_lt_self (by omega) (by omega)

/-- `String.prototype.padStart(len, c)`. -/
def padStart (s : Str) (len : Nat) (c : Char) : Str :=
  List.replicate (len - s.length) c ++ s

/- ───────── UTF-16 / UTF-8 (TextEncoder, TextDecoder, charCodeAt) ───────── -/

/-- UTF-16 code units of one scalar value (JS `charCodeAt` view). -/
def utf16Units (c : Char) : List Nat :=
  let n := c.toNat
  if n < 0x10000 then [n]
  else
    let v := n - 0x10000
    [0xD800 + v / 0x400, 0xDC00 + v % 0x400]

/-- The UTF-16 code-unit sequence of a string. -/
def utf16Of (s : Str) : List Nat := s.flatMap utf16Units

/-- UTF-8 bytes of one scalar value. -/
def utf8Bytes (c : Char) : List Nat :=
  let n := c.toNat
  if n < 0x80 then [n]
  else if n < 0x800 then [0xC0 + n / 0x40, 0x80 + n % 0x40]
  else if n < 0x10000 then
    [0xE0 + n / 0x1000, 0x80 + (n / 0x40) % 0x40, 0x80 + n % 0x40]
  else
    [0xF0 + n / 0x40000, 0x80 + (n / 0x1000) % 0x40, 0x80 + (n / 0x40) % 0x40,
      0x80 + n % 0x40]

/-- `TextEncoder.encode`. -/
def utf8Encode (s : Str) : List Nat := s.flatMap utf8Bytes

/-- Continuation byte test (0x80..0xBF). -/
def isCont (b : Nat) : Bool := 0x80 ≤ b ∧ b < 0xC0

/-- Read one multi-byte UTF-8 sequence: given the lead byte and the
remaining bytes, return the scalar value and the number of continuation
bytes consumed, or `none` when malformed (overlong forms, surrogates and
out-of-range lead bytes rejected, per the WHATWG decoder). -/
def utf8Seq (b : Nat) (rest : List Nat) : Option (Nat × Nat) :=
  if 0xC2 ≤ b ∧ b ≤ 0xDF then
    match rest with
    | b1 :: _ =>
      if isCont b1 then some ((b - 0xC0) * 0x40 + (b1 - 0x80), 1) else none
    | _ => none
  else if 0xE0 ≤ b ∧ b ≤ 0xEF then
    match rest with
    | b1 :: b2 :: _ =>
      let lo1 : Nat := if b = 0xE0 then 0xA0 else 0x80
      let hi1 : Nat := if b = 0xED then 0x9F else 0xBF
      if lo1 ≤ b1 ∧ b1 ≤ hi1 ∧ isCont b2 then
        some ((b - 0xE0) * 0x1000 + (b1 - 0x80) * 0x40 + (b2 - 0x80), 2)
      else none
    | _ => none
  else if 0xF0 ≤ b ∧ b ≤ 0xF4 then
    match rest with
    | b1 :: b2 :: b3 :: _ =>
      let lo1 : Nat := if b = 0xF0 then 0x90 else 0x80
      let hi1 : Nat := if b = 0xF4 then 0x8F else 0xBF
      if lo1 ≤ b1 ∧ b1 ≤ hi1 ∧ isCont b2 ∧ isCont b3 then
        some ((b - 0xF0) * 0x40000 + (b1 - 0x80) * 0x1000 + (b2 - 0x80) * 0x40
          + (b3 - 0x80), 3)
      else none
    | _ => none
  else none

/-- UTF-8 decoder.  `strict := true` models `decodeURIComponent`'s
decoder (malformed input throws, i.e. `none`); `strict := false` models
`TextDecoder` in its default non-fatal mode (malformed bytes yield
U+FFFD; the model consumes one byte per error, an inessential
simplification of the replacement schedule — every claim only evaluates
the decoder on well-formed encodings). -/
def utf8DecodeCore (strict : Bool) (bs : List Nat) : Option Str :=
  match bs with
  | [] => some []
  | b :: rest =>
    if b < 0x80 then
      (utf8DecodeCore strict rest).map (Char.ofNat b :: ·)
    else
      match utf8Seq b rest with
      | some (code, k) =>
        (utf8DecodeCore strict (rest.drop k)).map (Char.ofNat code :: ·)
      | none =>
        if strict then none
        else (utf8DecodeCore strict rest).map (Char.ofNat 0xFFFD :: ·)
termination_by bs.length
decreasing_by all_goals (simp; try omega)

/-- Fuel-indexed lenient UTF-8 decoder (structurally recursive twin of
`utf8DecodeCore false`, for kernel evaluation; the fuel is an upper
bound on the byte count plus one). -/
def utf8DecodeGoL (fuel : Nat) (bs : List Nat) : Str :=
  match fuel, bs with
  | 0, _ => []
  | _ + 1, [] => []
  | f + 1, b :: rest =>
    if b < 0x80 then Char.ofNat b :: utf8DecodeGoL f rest
    else
      match utf8Seq b rest with
      | some (code, k) => Char.ofNat code :: utf8DecodeGoL f (rest.drop k)
      | none => Char.ofNat 0xFFFD :: utf8DecodeGoL f rest

/-- `TextDecoder().decode` (default non-fatal mode, total). -/
def utf8DecodeLenient (bs : List Nat) : Str :=
  utf8DecodeGoL (bs.length + 1) bs

/- ───────── base64 / base64url (btoa, atob) ───────── -/

/-- The standard base64 alphabet. -/
def B64_CHARS : Str :=
  strOf "ABCDEFGHIJKLMNOPQRSTUVWXYZabcdefghijklmnopqrstuvwxyz0123456789+/"

/-- Character for one sextet. -/
def b64CharOf (n : Nat) : Char := B64_CHARS.getD n 'A'

/-- Sextet of one base64 character. -/
def b64IndexOf (c : Char) : Option Nat :=
  B64_CHARS.indexOf? c

/-- `bytesToBase64` from the source (`btoa` over a byte-per-char binary
string): standard alphabet with `=` padding. -/
def bytesToBase64 (bs : List Nat) : Str :=
  match bs with
  | [] => []
  | [a] => [b64CharOf (a / 4), b64CharOf (a % 4 * 16), '=', '=']
  | [a, b] => [b64CharOf (a / 4), b64CharOf (a % 4 * 16 + b / 16), b64CharOf (b % 16 * 4), '=']
  | a :: b :: c :: rest =>
    b64CharOf (a / 4) :: b64CharOf (a % 4 * 16 + b / 16) :: b64CharOf (b % 16 * 4 + c / 64)
      :: b64CharOf (c % 64) :: bytesToBase64 rest

/-- base64 → base64url character substitution (`replaceAll` in source). -/
def b64ToUrlChar (c : Char) : Char :=
  if c = '+' then '-' else if c = '/' then '_' else c

/-- base64url → base64 character substitution. -/
def b64UrlToStdChar (c : Char) : Char :=
  if c = '-' then '+' else if c = '_' then '/' else c

/-- Strip the trailing `=` padding (`replace(/=+$/g, "")`). -/
def stripTrailingEq (s : Str) : Str := (s.reverse.dropWhile (· = '=')).reverse

/-- `toBase64UrlFromUtf8` from the source: UTF-8 bytes → base64 →
base64url without padding. -/
def toBase64UrlFromUtf8 (s : Str) : Str :=
  stripTrailingEq ((bytesToBase64 (utf8Encode s)).map b64ToUrlChar)

/-- Is `c` in the base64 alphabet (excluding `=`)? -/
def isB64Char (c : Char) : Bool := B64_CHARS.contains c

/-- Decode a sextet list into bytes (final group of 2 or 3 sextets yields
1 or 2 bytes; excess bits are discarded as in forgiving-base64). -/
def b64SextetsToBytes (ss : List Nat) : List Nat :=
  match ss with
  | s1 :: s2 :: s3 :: s4 :: rest =>
    (s1 * 4 + s2 / 16) :: (s2 % 16 * 16 + s3 / 4) :: (s3 % 4 * 64 + s4)
      :: b64SextetsToBytes rest
  | [s1, s2] => [s1 * 4 + s2 / 16]
  | [s1, s2, s3] => [s1 * 4 + s2 / 16, s2 % 16 * 16 + s3 / 4]
  | _ => []

/-- `atob`, per the forgiving-base64 decode (whitespace tolerance is not
modelled; no input in this development carries whitespace): strip up to
two trailing `=` when the length is a multiple of four, reject length
1 mod 4 and any character outside the alphabet, then decode. -/
def atobStrip (s : Str) : Str :=
  if s.length % 4 = 0 then
    if s.reverse.take 2 = ['=', '='] then s.dropLast.dropLast
    else if s.reverse.take 1 = ['='] then s.dropLast
    else s
  else s

/-- Body of `atob` after padding removal: reject bad length or any
character outside the alphabet, then regroup sextets into bytes. -/
def atobBytes (s : Str) : Option (List Nat) :=
  let body := atobStrip s
  if body.length % 4 = 1 then none
  else
    match body.mapM b64IndexOf with
    | none => none
    | some ss => some (b64SextetsToBytes ss)

/-- `fromBase64UrlToUtf8` from the source: base64url → base64 with the
`"===".slice((len+3)%4)` re-padding, `atob`, then `TextDecoder`.  The
`atob` failure (which the callers catch) is the `none` case. -/
def fromBase64UrlToUtf8 (b64url : Str) : Option Str :=
  let b64 := b64url.map b64UrlToStdChar
    ++ List.replicate (3 - (b64url.length + 3) % 4) '='
  (atobBytes b64).map utf8DecodeLenient

/- ───────── JS value universe ───────── -/

/-- A JS number: the three non-finite values, or a finite double
identified by its canonical decimal rendering (the output of JS
`String(x)`, which determines a finite double uniquely). -/
inductive JNum where
  | nan
  | inf
  | ninf
  | fin (render : Str)
deriving Repr, DecidableEq

/-- The JS value universe reachable by the canonicalization code:
`null`, booleans, numbers, strings, bigints, arrays, plain objects
(field lists in insertion order; JS guarantees the keys are pairwise
distinct), and `undefined` (standing in for every remaining `typeof`:
undefined, function, symbol — all of which the codec maps to null). -/
inductive JsVal where
  | jnull
  | jbool (b : Bool)
  | jnum (n : JNum)
  | jstr (s : Str)
  | jbig (i : Int)
  | jarr (xs : List JsVal)
  | jobj (fields : List (Str × JsVal))
  | jundef
deriving Repr, Inhabited

/- ───────── CanonicalCodec: deepSortForJson ───────── -/

/-- Three-way code-point comparison of strings.  This is the model of
`String.prototype.localeCompare` used by the key sort: a deterministic
strict total order on strings.  (ICU collation ties between distinct
canonically-equivalent keys are outside the model.) -/
def localeCompareModel : Str → Str → Int
  | [], [] => 0
  | [], _ :: _ => -1
  | _ :: _, [] => 1
  | a :: as, b :: bs =>
    if a < b then -1 else if b < a then 1 else localeCompareModel as bs

/-- Comparator-induced order on object fields (`(a, b) => a.localeCompare(b)`
on the keys); `Array.prototype.sort` is modelled by the stable
`List.mergeSort` under this order. -/
def fieldLe (a b : Str × JsVal) : Bool := localeCompareModel a.1 b.1 ≤ 0

/-- `deepSortForJson` from the source: `null` passes through, finite
numbers pass through and non-finite ones become null, strings and
booleans pass through, bigints become decimal strings, arrays map
recursively in order, objects are rebuilt with lexically sorted keys,
everything else (undefined/function/symbol) becomes null.  Sorting the
field list stably by key is the same as the source's
sort-keys-then-index for JS objects, whose keys are pairwise distinct. -/
def deepSortForJson (v : JsVal) : JsVal :=
  match v with
  | .jnull => .jnull
  | .jnum n => match n with | .fin r => .jnum (.fin r) | _ => .jnull
  | .jstr s => .jstr s
  | .jbool b => .jbool b
  | .jbig i => .jstr (intToDec i)
  | .jarr xs => .jarr (xs.attach.map fun x => deepSortForJson x.1)
  | .jobj fs =>
    .jobj ((fs.mergeSort fieldLe).attach.map fun f => (f.1.1, deepSortForJson f.1.2))
  | .jundef => .jnull
termination_by sizeOf v
decreasing_by
  · have := List.sizeOf_lt_of_mem x.2
    simp; omega
  · have h1 : f.1 ∈ fs.mergeSort fieldLe := f.2
    have h2 : f.1 ∈ fs := (List.mergeSort_perm fs fieldLe).mem_iff.mp h1
    have := List.sizeOf_lt_of_mem h2
    rcases f with ⟨⟨k, v⟩, hf⟩
    simp at *; omega

/- ───────── CanonicalCodec: JSON.stringify ───────── -/

/-- Left brace / right brace as characters (JSON object delimiters). -/
def lbrace : Char := '\x7b'

/-- Right brace character. -/
def rbrace : Char := '\x7d'

/-- JSON escaping of one character, as `JSON.stringify` performs on
string contents. -/
def jsonEscapeChar (c : Char) : Str :=
  if c = '"' then ['\\', '"']
  else if c = '\\' then ['\\', '\\']
  else if c = '\x08' then ['\\', 'b']
  else if c = '\x0c' then ['\\', 'f']
  else if c = '\n' then ['\\', 'n']
  else if c = '\r' then ['\\', 'r']
  else if c = '\t' then ['\\', 't']
  else if c.toNat < 0x20 then '\\' :: 'u' :: padStart (natToHex c.toNat) 4 '0'
  else [c]

/-- A JSON string literal: quote and escape. -/
def jsonQuote (s : Str) : Str := '"' :: s.flatMap jsonEscapeChar ++ ['"']

/-- `JSON.stringify` on the values produced by `deepSortForJson`.
`jbig` makes the real `JSON.stringify` throw and a top-level `jundef`
makes it return `undefined`; both are unreachable after
`deepSortForJson`, and are mapped to `"null"` to keep the model total. -/
def jsonStringify (v : JsVal) : Str :=
  match v with
  | .jnull => strOf "null"
  | .jbool true => strOf "true"
  | .jbool false => strOf "false"
  | .jnum (.fin r) => r
  | .jnum _ => strOf "null"
  | .jstr s => jsonQuote s
  | .jbig _ => strOf "null"
  | .jundef => strOf "null"
  | .jarr xs =>
    '[' :: (List.intercalate [','] (xs.attach.map fun x => jsonStringify x.1)) ++ [']']
  | .jobj fs =>
    lbrace ::
      (List.intercalate [',']
        (fs.attach.map fun f => jsonQuote f.1.1 ++ ':' :: jsonStringify f.1.2))
      ++ [rbrace]
termination_by sizeOf v
decreasing_by
  · have := List.sizeOf_lt_of_mem x.2
    simp; omega
  · have := List.sizeOf_lt_of_mem f.2
    rcases f with ⟨⟨k, v⟩, hf⟩
    simp at *; omega

/- ───────── CanonicalCodec: JSON.parse ───────── -/

/-- JSON insignificant whitespace. -/
def isJsonWs (c : Char) : Bool := c = ' ' ∨ c = '\t' ∨ c = '\n' ∨ c = '\r'

/-- Skip insignificant whitespace. -/
def jpSkipWs (s : Str) : Str := s.dropWhile isJsonWs

/-- Numeric value of a hex digit. -/
def hexVal (c : Char) : Option Nat :=
  if '0' ≤ c ∧ c ≤ '9' then some (c.toNat - '0'.toNat)
  else if 'a' ≤ c ∧ c ≤ 'f' then some (c.toNat - 'a'.toNat + 10)
  else if 'A' ≤ c ∧ c ≤ 'F' then some (c.toNat - 'A'.toNat + 10)
  else none

/-- Parse exactly four hex digits. -/
def jpHex4 (s : Str) : Option (Nat × Str) :=
  match s with
  | c1 :: c2 :: c3 :: c4 :: rest =>
    match hexVal c1, hexVal c2, hexVal c3, hexVal c4 with
    | some h1, some h2, some h3, some h4 =>
      some (h1 * 0x1000 + h2 * 0x100 + h3 * 0x10 + h4, rest)
    | _, _, _, _ => none
  | _ => none

/-- Lookahead for the low half of a surrogate-pair escape following a
high-surrogate `\uXXXX` escape with value `n`. -/
def jpStrTokLow (n : Nat) (rest2 : Str) : Option (Option Char × Nat) :=
  match rest2 with
  | e2 :: u2 :: d1 :: d2 :: d3 :: d4 :: _ =>
    if e2 = '\\' ∧ u2 = 'u' then
      match hexVal d1, hexVal d2, hexVal d3, hexVal d4 with
      | some g1, some g2, some g3, some g4 =>
        let m := g1 * 0x1000 + g2 * 0x100 + g3 * 0x10 + g4
        if 0xDC00 ≤ m ∧ m ≤ 0xDFFF then
          some (some (Char.ofNat (0x10000 + (n - 0xD800) * 0x400 + (m - 0xDC00))), 11)
        else some (some (Char.ofNat 0xFFFD), 5)
      | _, _, _, _ => some (some (Char.ofNat 0xFFFD), 5)
    else some (some (Char.ofNat 0xFFFD), 5)
  | _ => some (some (Char.ofNat 0xFFFD), 5)

/-- The `\uXXXX` case of `jpStrTok`, applied to the four hex digits and
the remaining input. -/
def jpStrTokU (rest1 : Str) : Option (Option Char × Nat) :=
  match rest1 with
  | c1 :: c2 :: c3 :: c4 :: rest2 =>
    match hexVal c1, hexVal c2, hexVal c3, hexVal c4 with
    | some h1, some h2, some h3, some h4 =>
      let n := h1 * 0x1000 + h2 * 0x100 + h3 * 0x10 + h4
      if 0xD800 ≤ n ∧ n ≤ 0xDBFF then jpStrTokLow n rest2
      else if 0xDC00 ≤ n ∧ n ≤ 0xDFFF then some (some (Char.ofNat 0xFFFD), 5)
      else some (some (Char.ofNat n), 5)
    | _, _, _, _ => none
  | _ => none

/-- Read one unit of a JSON string body: `some (none, 0)` for the
closing quote, `some (some c, k)` for a produced character consuming
`k + 1` input characters, `none` for a malformed body.  Handles the
short escapes and `\uXXXX` (pairing surrogate escapes into one scalar;
an unpaired surrogate escape denotes a lone surrogate, which the
`List Char` model replaces with U+FFFD — no claim exercises that case).
Raw control characters are rejected, as in `JSON.parse`. -/
def jpStrTok (s : Str) : Option (Option Char × Nat) :=
  match s with
  | [] => none
  | c0 :: rest =>
    if c0 = '"' then some (none, 0)
    else if c0 = '\\' then
      match rest with
      | [] => none
      | e :: rest1 =>
        if e = '"' then some (some '"', 1)
        else if e = '\\' then some (some '\\', 1)
        else if e = '/' then some (some '/', 1)
        else if e = 'b' then some (some '\x08', 1)
        else if e = 'f' then some (some '\x0c', 1)
        else if e = 'n' then some (some '\n', 1)
        else if e = 'r' then some (some '\r', 1)
        else if e = 't' then some (some '\t', 1)
        else if e = 'u' then jpStrTokU rest1
        else none
    else if c0.toNat < 0x20 then none else some (some c0, 0)

/-- Body of a JSON string literal after the opening quote, fuel-indexed
(the fuel is an upper bound on the input length plus one): iterate
`jpStrTok` until the closing quote. -/
def jpStringBodyGo (fuel : Nat) (s : Str) : Option (Str × Str) :=
  match fuel with
  | 0 => none
  | fuel + 1 =>
    match s with
    | [] => none
    | c0 :: s1 =>
      match jpStrTok (c0 :: s1) with
      | none => none
      | some (none, _) => some ([], s1)
      | some (some c, k) =>
        (jpStringBodyGo fuel (s1.drop k)).map fun (cs, r) => (c :: cs, r)

/-- Body of a JSON string literal after the opening quote: iterate
`jpStrTok` until the closing quote. -/
def jpStringBody (s : Str) : Option (Str × Str) :=
  jpStringBodyGo (s.length + 1) s

/-- Decimal digit test. -/
def isDigitCh (c : Char) : Bool := '0' ≤ c ∧ c ≤ '9'

/-- Parse the integer-part digits of a JSON number (`0` or a nonzero
digit followed by digits). -/
def jpIntDigits (s : Str) : Option (Str × Str) :=
  match s with
  | '0' :: rest => some (['0'], rest)
  | c :: rest =>
    if isDigitCh c then
      some (c :: rest.takeWhile isDigitCh, rest.dropWhile isDigitCh)
    else none
  | [] => none

/-- Optional leading minus sign of a number token. -/
def jpNumSign (s : Str) : Str × Str :=
  match s with
  | '-' :: r => (['-'], r)
  | _ => (([] : Str), s)

/-- Optional fraction part `.digits`. -/
def jpNumFrac (s2 : Str) : Str × Str :=
  match s2 with
  | '.' :: r =>
    let ds := r.takeWhile isDigitCh
    if ds = [] then (([] : Str), s2)
    else ('.' :: ds, r.dropWhile isDigitCh)
  | _ => (([] : Str), s2)

/-- Optional exponent sign. -/
def jpExpSign (r : Str) : Str × Str :=
  match r with
  | '+' :: r2 => (['+'], r2)
  | '-' :: r2 => (['-'], r2)
  | _ => (([] : Str), r)

/-- Optional exponent part `[eE][+-]?digits`. -/
def jpNumExp (s3 : Str) : Str × Str :=
  match s3 with
  | e :: r =>
    if e = 'e' ∨ e = 'E' then
      let (sg, r1) := jpExpSign r
      let ds := r1.takeWhile isDigitCh
      if ds = [] then (([] : Str), s3)
      else (e :: sg ++ ds, r1.dropWhile isDigitCh)
    else (([] : Str), s3)
  | [] => (([] : Str), s3)

/-- Parse a JSON number token (sign, integer part, optional fraction,
optional exponent); returns the raw token, which stands for the parsed
double in the render model. -/
def jpNumber (s : Str) : Option (Str × Str) :=
  let (neg, s1) := jpNumSign s
  match jpIntDigits s1 with
  | none => none
  | some (ip, s2) =>
    let (fp, s3) := jpNumFrac s2
    let (ep, s4) := jpNumExp s3
    some (neg ++ ip ++ fp ++ ep, s4)

/-- Duplicate-key resolution for object literals, as in `JSON.parse`:
the first occurrence of a key keeps its position, the last occurrence
supplies the value.  `fs` is the (already resolved) tail of the member
list; `v` is the value of the earlier occurrence being prepended. -/
def jpInsertField (k : Str) (v : JsVal) (fs : List (Str × JsVal)) : List (Str × JsVal) :=
  match fs.find? (fun f => f.1 = k) with
  | some f => (k, f.2) :: fs.filter (fun f => ¬ f.1 = k)
  | none => (k, v) :: fs

mutual

/-- Recursive-descent JSON value parser (`JSON.parse`), fuel-indexed. -/
def jpVal (fuel : Nat) (s : Str) : Option (JsVal × Str) :=
  match fuel with
  | 0 => none
  | fuel + 1 =>
    let s := jpSkipWs s
    match s with
    | 'n' :: 'u' :: 'l' :: 'l' :: rest => some (.jnull, rest)
    | 't' :: 'r' :: 'u' :: 'e' :: rest => some (.jbool true, rest)
    | 'f' :: 'a' :: 'l' :: 's' :: 'e' :: rest => some (.jbool false, rest)
    | '"' :: rest => (jpStringBody rest).map fun (cs, r) => (.jstr cs, r)
    | '[' :: rest =>
      (match jpSkipWs rest with
      | ']' :: r2 => some (.jarr [], r2)
      | _ => (jpElems fuel rest).map fun (xs, r) => (.jarr xs, r))
    | c :: rest =>
      if c = lbrace then
        match jpSkipWs rest with
        | c2 :: r2 =>
          if c2 = rbrace then some (.jobj [], r2)
          else (jpFields fuel rest).map fun (fs, r) => (.jobj fs, r)
        | [] => none
      else if c = '-' ∨ isDigitCh c then
        (jpNumber (c :: rest)).map fun (tok, r) => (.jnum (.fin tok), r)
      else none
    | [] => none

/-- Array elements: value, then `,` and more elements or `]`. -/
def jpElems (fuel : Nat) (s : Str) : Option (List JsVal × Str) :=
  match fuel with
  | 0 => none
  | fuel + 1 =>
    match jpVal fuel s with
    | none => none
    | some (v, r) =>
      match jpSkipWs r with
      | ',' :: r2 => (jpElems fuel r2).map fun (xs, rr) => (v :: xs, rr)
      | ']' :: r2 => some ([v], r2)
      | _ => none

/-- Object members: `"key" : value`, then `,` and more members or the
closing brace.  A duplicate key keeps its first position and takes the
last value, as `JSON.parse` does. -/
def jpFields (fuel : Nat) (s : Str) : Option (List (Str × JsVal) × Str) :=
  match fuel with
  | 0 => none
  | fuel + 1 =>
    match jpSkipWs s with
    | '"' :: rest =>
      match jpStringBody rest with
      | none => none
      | some (k, r1) =>
        match jpSkipWs r1 with
        | ':' :: r2 =>
          match jpVal fuel r2 with
          | none => none
          | some (v, r3) =>
            match jpSkipWs r3 with
            | ',' :: r4 =>
              (jpFields fuel r4).map fun (fs, rr) => (jpInsertField k v fs, rr)
            | c :: r4 =>
              if c = rbrace then some ([(k, v)], r4) else none
            | [] => none
        | _ => none
    | _ => none

end

/-- `JSON.parse`: parse one value, allow only trailing whitespace. -/
def jsonParse (s : Str) : Option JsVal :=
  match jpVal (s.length + 1) s with
  | some (v, rest) => if jpSkipWs rest = [] then some v else none
  | none => none

/- ───────── string trimming / edge punctuation (part_002) ───────── -/

/-- JS whitespace for `String.prototype.trim` (the code points any input
in this development can carry). -/
def isJsSpace (c : Char) : Bool :=
  c = ' ' ∨ c = '\t' ∨ c = '\n' ∨ c = '\r' ∨ c = '\x0b' ∨ c = '\x0c'
    ∨ c.toNat = 0xA0 ∨ c.toNat = 0xFEFF

/-- `String.prototype.trim`. -/
def jsTrim (s : Str) : Str :=
  ((s.dropWhile isJsSpace).reverse.dropWhile isJsSpace).reverse

/-- Characters of the trailing-punctuation class `[)\].,;:!?]`. -/
def isTrailPunct (c : Char) : Bool :=
  c = ')' ∨ c = ']' ∨ c = '.' ∨ c = ',' ∨ c = ';' ∨ c = ':' ∨ c = '!' ∨ c = '?'

/-- Backquote character (code point 96). -/
def backquote : Char := Char.ofNat 96

/-- Characters of the leading-punctuation class. -/
def isLeadPunct (c : Char) : Bool :=
  c = '(' ∨ c = '[' ∨ c = lbrace ∨ c = '"' ∨ c = '\'' ∨ c = backquote

/-- `stripEdgePunct` from the source: trim, strip trailing punctuation,
strip leading brackets/quotes, trim again. -/
def stripEdgePunct (s : Str) : Str :=
  let t := jsTrim s
  let t := (t.reverse.dropWhile isTrailPunct).reverse
  let t := t.dropWhile isLeadPunct
  jsTrim t

/- ───────── FNV-1a 64 fingerprint + Merkle root (part_002) ───────── -/

/-- 2^64. -/
def U64 : Nat := 18446744073709551616

/-- One FNV-1a step: xor in a code unit, multiply by the prime, mask to
64 bits. -/
def fnv1a64Step (h unit : Nat) : Nat := Nat.xor h unit * 0x100000001b3 % U64

/-- FNV-1a 64 over UTF-16 code units (`charCodeAt`). -/
def fnv1a64 (units : List Nat) : Nat := units.foldl fnv1a64Step 0xcbf29ce484222325

/-- `fnv1a64Hex` from the source: 16 lowercase hex chars, zero padded. -/
def fnv1a64Hex (s : Str) : Str := padStart (natToHex (fnv1a64 (utf16Of s))) 16 '0'

/-- One pairwise-combination level of the Merkle fold: adjacent pairs are
hashed with the `node:` prefix, duplicating a trailing odd element. -/
def merkleCombine (level : List Str) : List Str :=
  match level with
  | [] => []
  | [l] => [fnv1a64Hex (strOf "node:" ++ l ++ l)]
  | l :: r :: rest => fnv1a64Hex (strOf "node:" ++ l ++ r) :: merkleCombine rest

/-- The source's `while (level.length > 1)` loop, fuelled (any fuel at
least the level length suffices, which the callers establish). -/
def merkleLoop (fuel : Nat) (level : List Str) : Str :=
  match fuel with
  | 0 => level.headD []
  | fuel + 1 =>
    if level.length ≤ 1 then level.headD []
    else merkleLoop fuel (merkleCombine level)

/-- `merkleRootFNV64Hex` from the source: leaf-hash with the `leaf:`
prefix, then combine levels to a single root; empty input yields the
fixed sentinel hash of `"merkle:empty"`. -/
def merkleRootFNV64Hex (leaves : List Str) : Str :=
  if leaves = [] then fnv1a64Hex (strOf "merkle:empty")
  else merkleLoop leaves.length (leaves.map fun x => fnv1a64Hex (strOf "leaf:" ++ x))

/- ───────── payloadKey (part_002) ───────── -/

/-- First field with the given key of an object field list (JS property
lookup; field lists carry the unique-key invariant). -/
def objGet (fs : List (Str × JsVal)) (k : Str) : Option JsVal :=
  (fs.find? fun f => f.1 = k).map (·.2)

/-- Property read `v[k]`, `none` when the property is missing (objects
only carry own properties in the model; any other value has none). -/
def jget (v : JsVal) (k : String) : Option JsVal :=
  match v with
  | .jobj fs => objGet fs (strOf k)
  | _ => none

/-- Hex-digit character test. -/
def isHexCh (c : Char) : Bool :=
  isDigitCh c ∨ ('a' ≤ c ∧ c ≤ 'f') ∨ ('A' ≤ c ∧ c ≤ 'F')

/-- The `^[0-9a-fA-F]{64}$` test. -/
def isHex64 (s : Str) : Bool := s.length = 64 ∧ s.all isHexCh

/-- ASCII lowercasing (`toLowerCase` restricted to the hex strings it is
applied to). -/
def toLowerCh (c : Char) : Char :=
  if 'A' ≤ c ∧ c ≤ 'Z' then Char.ofNat (c.toNat + 32) else c

/-- Value of a digit string. -/
def digitsToNat (ds : Str) : Nat := ds.foldl (fun a c => a * 10 + (c.toNat - '0'.toNat)) 0

/-- Digits of a JSON number token interpreted as a rational (the value of
the finite double the token renders). -/
def renderRat (r : Str) : Option ℚ :=
  match jpNumber r with
  | some (tok, []) =>
    let (sgn, t1) : ℚ × Str := match tok with
      | '-' :: t => (-1, t)
      | t => (1, t)
    let ip := t1.takeWhile isDigitCh
    let t2 := t1.dropWhile isDigitCh
    let (fp, t3) : Str × Str := match t2 with
      | '.' :: t => (t.takeWhile isDigitCh, t.dropWhile isDigitCh)
      | t => ([], t)
    let ex : Int := match t3 with
      | e :: t =>
        if e = 'e' ∨ e = 'E' then
          match t with
          | '-' :: ds => -(digitsToNat ds : Int)
          | '+' :: ds => (digitsToNat ds : Int)
          | ds => (digitsToNat ds : Int)
        else 0
      | [] => 0
    some (sgn * (digitsToNat (ip ++ fp) : ℚ) * 10 ^ (ex - fp.length) )
  | _ => none

/-- JS rendering of an integral double: plain decimal below 10^21,
exponent notation at or above it (exact for exactly representable
values; only reachable through absurdly large `pulse` fields). -/
def jsRenderInt (i : Int) : Str :=
  if i.natAbs < 10 ^ 21 then intToDec i
  else
    let ds := (natToDec i.natAbs).reverse.dropWhile (· = '0') |>.reverse
    let ex := natToDec ((natToDec i.natAbs).length - 1)
    let mant : Str := match ds with
      | [d] => [d]
      | d :: rest => d :: '.' :: rest
      | [] => ['0']
    (if i < 0 then ['-'] else []) ++ mant ++ 'e' :: '+' :: ex

/-- `payloadKey` from the source: explicit 64-hex `id`/`contentId`/`cid`
(lowercased) → positive finite `pulse` (floored) → non-empty
`kaiSignature` → FNV fingerprint of the canonical JSON. -/
def payloadKey (payload : JsVal) : Str :=
  let hexBranch : Option JsVal → Option Str := fun v =>
    match v with
    | some (.jstr s) =>
      if isHex64 (jsTrim s) then some (strOf "cid:" ++ (jsTrim s).map toLowerCh) else none
    | _ => none
  match hexBranch (jget payload "id") with
  | some k => k
  | none =>
  match hexBranch (jget payload "contentId") with
  | some k => k
  | none =>
  match hexBranch (jget payload "cid") with
  | some k => k
  | none =>
  let pulseBranch : Option Str :=
    match jget payload "pulse" with
    | some (.jnum (.fin r)) =>
      match renderRat r with
      | some q => if 0 < q then some (strOf "p:" ++ jsRenderInt ⌊q⌋) else none
      | none => none
    | _ => none
  match pulseBranch with
  | some k => k
  | none =>
  match jget payload "kaiSignature" with
  | some (.jstr s) =>
    if jsTrim s ≠ [] then strOf "ks:" ++ jsTrim s
    else strOf "h:" ++ fnv1a64Hex (jsonStringify (deepSortForJson payload))
  | _ => strOf "h:" ++ fnv1a64Hex (jsonStringify (deepSortForJson payload))

/- ───────── encodePayloadRef / decodePayloadRef (part_002) ───────── -/

/-- The `"j:"` payload-embedding marker (`PAYLOAD_PREFIX` in the source). -/
def PAYLOAD_PFX : Str := strOf "j:"

/-- The `"s:"` segment-header marker (`SEG_PREFIX` in the source). -/
def SEG_PFX : Str := strOf "s:"

/-- base64url-token character class `[A-Za-z0-9_-]`. -/
def isTokChar (c : Char) : Bool :=
  ('A' ≤ c ∧ c ≤ 'Z') ∨ ('a' ≤ c ∧ c ≤ 'z') ∨ isDigitCh c ∨ c = '_' ∨ c = '-'

/-- The `^[A-Za-z0-9_-]{16,}$` test (also `isLikelyToken` in the source). -/
def isLikelyToken (s : Str) : Bool := 16 ≤ s.length ∧ s.all isTokChar

/-- `encodePayloadRef` from the source: `"j:"` + base64url of the UTF-8
canonical JSON. -/
def encodePayloadRef (payload : JsVal) : Str :=
  PAYLOAD_PFX ++ toBase64UrlFromUtf8 (jsonStringify (deepSortForJson payload))

/-- `decodePayloadRef` from the source: strip edge punctuation and the
`"j:"` marker, validate the base64url token shape, decode and
`JSON.parse`; every failure is `none` (the source catches). -/
def decodePayloadRef (refRaw : Str) : Option JsVal :=
  let t := stripEdgePunct refRaw
  let v := if PAYLOAD_PFX.isPrefixOf t then t.drop PAYLOAD_PFX.length else t
  if isLikelyToken v then
    match fromBase64UrlToUtf8 v with
    | some json => jsonParse json
    | none => none
  else none

/- ───────── feedPayload.ts (strict v=1 schema guard, decodeFeedPayload) ───────── -/

/-- Is the (possibly missing) property value `undefined`? -/
def isUndefProp (v : Option JsVal) : Bool :=
  match v with
  | none => true
  | some .jundef => true
  | _ => false

/-- `isObject` from feedPayload.ts (`typeof x === "object" && x !== null`;
JS arrays satisfy it too, and property reads on them miss). -/
def isObjectLike (v : JsVal) : Bool :=
  match v with
  | .jobj _ => true
  | .jarr _ => true
  | _ => false

/-- `isString`. -/
def isStringProp (v : Option JsVal) : Bool :=
  match v with
  | some (.jstr _) => true
  | _ => false

/-- `isNumber` (`typeof number` and finite). -/
def isNumberProp (v : Option JsVal) : Bool :=
  match v with
  | some (.jnum (.fin _)) => true
  | _ => false

/-- `isOptionalString`. -/
def isOptStringProp (v : Option JsVal) : Bool := isUndefProp v ∨ isStringProp v

/-- `isOptionalNumber`. -/
def isOptNumberProp (v : Option JsVal) : Bool := isUndefProp v ∨ isNumberProp v

/-- Is the property exactly the given string literal (`===`)? -/
def isStrLit (v : Option JsVal) (lit : String) : Bool :=
  match v with
  | some (.jstr s) => s = strOf lit
  | _ => false

/-- `isValidSource` (`undefined`, `"x"` or `"manual"`). -/
def isValidSource (v : Option JsVal) : Bool :=
  isUndefProp v ∨ isStrLit v "x" ∨ isStrLit v "manual"

/-- Is the property the JS number 1 (`=== ATTACHMENTS_VERSION`, in the
render model the canonical render `"1"`)? -/
def isNumLit1 (v : Option JsVal) : Bool :=
  match v with
  | some (.jnum (.fin r)) => r = ['1']
  | _ => false

/-- Lowercase-hex sha256 test `^[0-9a-f]{64}$`. -/
def isSha256Hex (s : Str) : Bool :=
  s.length = 64 ∧ s.all fun c => isDigitCh c ∨ ('a' ≤ c ∧ c ≤ 'f')

/-- `isAttachmentUrl`. -/
def isAttachmentUrl (x : JsVal) : Bool :=
  isObjectLike x ∧ isStrLit (jget x "kind") "url" ∧ isStringProp (jget x "url")
    ∧ isOptStringProp (jget x "title")

/-- `isAttachmentFileRef`. -/
def isAttachmentFileRef (x : JsVal) : Bool :=
  isObjectLike x && isStrLit (jget x "kind") "file-ref"
    && (match jget x "sha256" with
      | some (.jstr s) => isSha256Hex s
      | _ => false)
    && isOptStringProp (jget x "name") && isOptStringProp (jget x "type")
    && isOptNumberProp (jget x "size")
    && (isUndefProp (jget x "url") || isStringProp (jget x "url"))

/-- `isAttachmentFileInline`. -/
def isAttachmentFileInline (x : JsVal) : Bool :=
  isObjectLike x ∧ isStrLit (jget x "kind") "file-inline"
    ∧ isOptStringProp (jget x "name") ∧ isOptStringProp (jget x "type")
    ∧ isOptNumberProp (jget x "size") ∧ isStringProp (jget x "data_b64url")
    ∧ (isUndefProp (jget x "thumbnail_b64") ∨ isStringProp (jget x "thumbnail_b64"))

/-- `isAttachmentItem`. -/
def isAttachmentItem (x : JsVal) : Bool :=
  isAttachmentUrl x ∨ isAttachmentFileRef x ∨ isAttachmentFileInline x

/-- `isAttachments` from feedPayload.ts. -/
def isAttachments (x : JsVal) : Bool :=
  isObjectLike x && isNumLit1 (jget x "version")
    && (match jget x "items" with
      | some (.jarr items) => items.all isAttachmentItem
      | _ => false)
    && isOptNumberProp (jget x "totalBytes") && isOptNumberProp (jget x "inlinedBytes")

/-- `isFeedPostPayload` from feedPayload.ts: the strict v=1 schema guard. -/
def isFeedPostPayload (x : JsVal) : Bool :=
  isObjectLike x && isNumLit1 (jget x "v") && isStringProp (jget x "url")
    && isNumberProp (jget x "pulse") && isValidSource (jget x "source")
    && isOptStringProp (jget x "caption") && isOptStringProp (jget x "author")
    && isOptStringProp (jget x "sigilId") && isOptStringProp (jget x "phiKey")
    && isOptStringProp (jget x "kaiSignature") && isOptStringProp (jget x "parent")
    && isOptStringProp (jget x "parentUrl") && isOptStringProp (jget x "originUrl")
    && isOptNumberProp (jget x "ts")
    && (isUndefProp (jget x "attachments")
        || (match jget x "attachments" with
          | some a => isAttachments a
          | none => false))

/-- `fromBase64Url` from feedPayload.ts: base64url → base64 with
`"=".repeat((4 - len % 4) % 4)` padding, then `atob`. -/
def fromBase64UrlFeed (token : Str) : Option (List Nat) :=
  atobBytes (token.map b64UrlToStdChar ++ List.replicate ((4 - token.length % 4) % 4) '=')

/-- `decodeFeedPayload` from feedPayload.ts: reject the empty and the
absurdly long token, decode base64url bytes, reject zero bytes, UTF-8
decode, `JSON.parse`, and apply the schema guard; every failure path is
`none`. -/
def decodeFeedPayload (token : Str) : Option JsVal :=
  if token = [] ∨ token.length > 1000000 then none
  else
    match fromBase64UrlFeed token with
    | none => none
    | some bytes =>
      if bytes.length = 0 then none
      else
        match jsonParse (utf8DecodeLenient bytes) with
        | none => none
        | some parsed => if isFeedPostPayload parsed then some parsed else none

/- ───────── specification-side predicates and measures ───────── -/

/-- Unpadded sextet stream of a byte list (the 6-bit regrouping that
`btoa` performs before character mapping; proof-side restatement). -/
def b64SextetsOf (bs : List Nat) : List Nat :=
  match bs with
  | [] => []
  | [a] => [a / 4, a % 4 * 16]
  | [a, b] => [a / 4, a % 4 * 16 + b / 16, b % 16 * 4]
  | a :: b :: c :: rest =>
    (a / 4) :: (a % 4 * 16 + b / 16) :: (b % 16 * 4 + c / 64) :: (c % 64)
      :: b64SextetsOf rest

/-- Length of the unpadded base64url encoding of `B` bytes. -/
def b64urlLen (B : Nat) : Nat :=
  4 * (B / 3) + (if B % 3 = 0 then 0 else if B % 3 = 1 then 2 else 3)

/-- Recognizer for a complete JSON number token: `jpNumber` consumes all
of it and returns it verbatim. -/
def numTokB (r : Str) : Bool := jpNumber r = some (r, [])

/-- A continuation that cannot extend any JSON token: empty, or starting
with a separator/closer. -/
def delimB (rest : Str) : Bool :=
  match rest with
  | [] => true
  | c :: _ => c = ',' ∨ c = ']' ∨ c = rbrace

/-- Values that `JSON.parse` maps back onto themselves from their
serialization: no non-finite numbers, bigints or undefined; every finite
number carries a complete number-token render; object keys are pairwise
distinct (the JS object invariant). -/
def parseSafeB (v : JsVal) : Bool :=
  match v with
  | .jnull => true
  | .jbool _ => true
  | .jstr _ => true
  | .jnum (.fin r) => numTokB r
  | .jnum _ => false
  | .jbig _ => false
  | .jundef => false
  | .jarr xs => xs.attach.all fun x => parseSafeB x.1
  | .jobj fs =>
    decide (fs.map (fun f => f.1)).Nodup && fs.attach.all fun f => parseSafeB f.1.2
termination_by sizeOf v
decreasing_by
  · have := List.sizeOf_lt_of_mem x.2
    simp; omega
  · have := List.sizeOf_lt_of_mem f.2
    rcases f with ⟨⟨k, v⟩, hf⟩
    simp at *; omega

/-- Well-formedness of an input JS value: finite-number renders are
complete tokens and object keys are pairwise distinct.  Non-finite
numbers, bigints and undefined are allowed — `deepSortForJson`
eliminates them. -/
def wfInputB (v : JsVal) : Bool :=
  match v with
  | .jnum (.fin r) => numTokB r
  | .jarr xs => xs.attach.all fun x => wfInputB x.1
  | .jobj fs =>
    decide (fs.map (fun f => f.1)).Nodup && fs.attach.all fun f => wfInputB f.1.2
  | _ => true
termination_by sizeOf v
decreasing_by
  · have := List.sizeOf_lt_of_mem x.2
    simp; omega
  · have := List.sizeOf_lt_of_mem f.2
    rcases f with ⟨⟨k, v⟩, hf⟩
    simp at *; omega

/-- Fuel budget sufficient for `jpVal` to parse the serialization of a
value. -/
def jcost (v : JsVal) : Nat :=
  match v with
  | .jarr xs => 1 + (xs.attach.map fun x => jcost x.1 + 1).sum
  | .jobj fs => 1 + (fs.attach.map fun f => jcost f.1.2 + 1).sum
  | _ => 1
termination_by sizeOf v
decreasing_by
  · have := List.sizeOf_lt_of_mem x.2
    simp; omega
  · have := List.sizeOf_lt_of_mem f.2
    rcases f with ⟨⟨k, v⟩, hf⟩
    simp at *; omega


/- ───────── URL / URLSearchParams platform model ───────── -/

/-- Alphabetic character. -/
def isAlphaCh (c : Char) : Bool := ('A' ≤ c ∧ c ≤ 'Z') ∨ ('a' ≤ c ∧ c ≤ 'z')

/-- Characters allowed in a URL scheme after the first. -/
def isSchemeCh (c : Char) : Bool :=
  isAlphaCh c ∨ isDigitCh c ∨ c = '+' ∨ c = '-' ∨ c = '.'

/-- Component-delimiter test used when splitting a URL. -/
def isUrlDelim (c : Char) : Bool := c = '/' ∨ c = '?' ∨ c = '#'

/-- The parsed `URL` object: scheme, host (empty and `special := false`
for opaque-path URLs such as `j:...`), path, query (without `?`) and
fragment (without `#`). -/
structure UrlModel where
  scheme : Str
  host : Str
  special : Bool
  path : Str
  search : Str
  hash : Str
deriving Repr, DecidableEq

/-- `URL.prototype.toString`. -/
def urlToString (u : UrlModel) : Str :=
  u.scheme ++ ':' :: (if u.special then '/' :: '/' :: u.host else []) ++ u.path
    ++ (if u.search = [] then [] else '?' :: u.search)
    ++ (if u.hash = [] then [] else '#' :: u.hash)

/-- Split `path[?search][#hash]`. -/
def splitPathSearchHash (after : Str) : Str × Str × Str :=
  let path := after.takeWhile (fun c => ¬(c = '?' ∨ c = '#'))
  let rest := after.drop path.length
  match rest with
  | '?' :: r2 =>
    let search := r2.takeWhile (fun c => ¬ c = '#')
    let rest2 := r2.drop search.length
    (path, search, match rest2 with | '#' :: h => h | _ => [])
  | '#' :: h => (path, [], h)
  | _ => (path, [], [])

/-- Parse an absolute URL (`new URL(t)`): a scheme followed by either an
authority (`//host`) or an opaque path.  The model covers the URL shapes
this code base constructs and consumes; exotic inputs (userinfo, ports,
IPv6 hosts, dot-segment paths) are outside the model. -/
def parseAbsUrl (t : Str) : Option UrlModel :=
  let sch := t.takeWhile isSchemeCh
  match sch with
  | [] => none
  | c0 :: _ =>
    if ¬ isAlphaCh c0 then none
    else match t.drop sch.length with
    | ':' :: rest =>
      (match rest with
      | '/' :: '/' :: rest2 =>
        let host := rest2.takeWhile (fun c => ¬ isUrlDelim c)
        if host = [] then none
        else
          let (p, q, h) := splitPathSearchHash (rest2.drop host.length)
          some { scheme := sch.map toLowerCh, host := host.map toLowerCh,
                 special := true, path := if p = [] then strOf "/" else p,
                 search := q, hash := h }
      | _ =>
        let (p, q, h) := splitPathSearchHash rest
        some { scheme := sch.map toLowerCh, host := [], special := false,
               path := p, search := q, hash := h })
    | _ => none

/-- The modelled page origin (`window.location.origin`, equal to the
source's parse fallback). -/
def ORIGIN : Str := strOf "https://x.invalid"

/-- Resolve a string against the page origin (`new URL(t, originForParse())`).
Relative references resolve against the origin's root path. -/
def parseWithBase (t : Str) : Option UrlModel :=
  match parseAbsUrl t with
  | some u => some u
  | none =>
    let t2 := match t with
      | '/' :: _ => t
      | _ => '/' :: t
    let (p, q, h) := splitPathSearchHash t2
    some { scheme := strOf "https", host := strOf "x.invalid", special := true,
           path := if p = [] then strOf "/" else p, search := q, hash := h }

/-- `tryParseUrl` from the source: trim, `new URL(t)`, then
`new URL(t, originForParse())`. -/
def tryParseUrl (raw : Str) : Option UrlModel :=
  let t := jsTrim raw
  match parseAbsUrl t with
  | some u => some u
  | none => parseWithBase t

/-- Percent-decode plus `+`-to-space, to bytes
(`application/x-www-form-urlencoded` value decoding). -/
def formDecBytes (s : Str) : List Nat :=
  match s with
  | [] => []
  | '%' :: h1 :: h2 :: rest =>
    match hexVal h1, hexVal h2 with
    | some a, some b => (a * 16 + b) :: formDecBytes rest
    | _, _ => 37 :: formDecBytes (h1 :: h2 :: rest)
  | '+' :: rest => 32 :: formDecBytes rest
  | c :: rest => utf8Bytes c ++ formDecBytes rest

/-- Decode one form-urlencoded component. -/
def formDecode (s : Str) : Str := utf8DecodeLenient (formDecBytes s)

/-- One `key[=value]` piece of a query string. -/
def spParsePiece (p : Str) : Option (Str × Str) :=
  if p = [] then none
  else
    let k := p.takeWhile (fun c => ¬ c = '=')
    let rest := p.drop k.length
    some (formDecode k, formDecode (match rest with | '=' :: v => v | _ => []))

/-- `new URLSearchParams(string)`: split on `&`, skip empty pieces. -/
def parseParams (s : Str) : List (Str × Str) :=
  (s.splitOn '&').filterMap spParsePiece

/-- `URLSearchParams.getAll`. -/
def spGetAll (ps : List (Str × Str)) (k : Str) : List Str :=
  (ps.filter (fun p => p.1 = k)).map (fun p => p.2)

/-- `URLSearchParams.get` (`none` models `null`). -/
def spGet (ps : List (Str × Str)) (k : Str) : Option Str :=
  (ps.find? (fun p => p.1 = k)).map (fun p => p.2)

/-- Is an optional string JS-truthy (present and non-empty)? -/
def truthyS (o : Option Str) : Bool :=
  match o with
  | some (_ :: _) => true
  | _ => false

/-- Upper-case hex digit. -/
def hexUpper (n : Nat) : Char := if n < 10 then Nat.digitChar n else Char.ofNat (55 + n)

/-- Percent-escape of one byte. -/
def pctByte (b : Nat) : Str := ['%', hexUpper (b / 16), hexUpper (b % 16)]

/-- form-urlencoded safe set `[A-Za-z0-9*\-._]`. -/
def isFormSafe (c : Char) : Bool :=
  isAlphaCh c ∨ isDigitCh c ∨ c = '*' ∨ c = '-' ∨ c = '.' ∨ c = '_'

/-- form-urlencoded serialization of one character. -/
def formEncChar (c : Char) : Str :=
  if c = ' ' then ['+']
  else if isFormSafe c then [c]
  else (utf8Bytes c).flatMap pctByte

/-- form-urlencoded serialization of a string. -/
def formEnc (s : Str) : Str := s.flatMap formEncChar

/-- One serialized `key=value` pair. -/
def serializePair (p : Str × Str) : Str := formEnc p.1 ++ '=' :: formEnc p.2

/-- `URLSearchParams.toString`. -/
def serializeParams (ps : List (Str × Str)) : Str :=
  List.intercalate ['&'] (ps.map serializePair)

/-- `encodeURIComponent` safe set. -/
def isUriSafe (c : Char) : Bool :=
  isAlphaCh c ∨ isDigitCh c ∨ c = '-' ∨ c = '_' ∨ c = '.' ∨ c = '!' ∨ c = '~'
    ∨ c = '*' ∨ c = '\'' ∨ c = '(' ∨ c = ')'

/-- `encodeURIComponent`. -/
def uriEncode (s : Str) : Str :=
  s.flatMap fun c => if isUriSafe c then [c] else (utf8Bytes c).flatMap pctByte

/-- Does the string contain a `%hh` escape (`/%[0-9A-Fa-f]{2}/.test`)? -/
def hasPctTriple (s : Str) : Bool :=
  match s with
  | '%' :: h1 :: h2 :: rest =>
    match hexVal h1, hexVal h2 with
    | some _, some _ => true
    | _, _ => hasPctTriple (h1 :: h2 :: rest)
  | _ :: rest => hasPctTriple rest
  | [] => false

/-- Up to three percent-escaped bytes at the front of the string (the
continuation bytes `decodeURIComponent` may consume). -/
def pctPeekBytes (s : Str) : List Nat :=
  match s with
  | '%' :: h1 :: h2 :: rest =>
    match hexVal h1, hexVal h2 with
    | some a, some b =>
      (a * 16 + b) ::
        (match rest with
        | '%' :: g1 :: g2 :: rest2 =>
          match hexVal g1, hexVal g2 with
          | some a2, some b2 =>
            (a2 * 16 + b2) ::
              (match rest2 with
              | '%' :: f1 :: f2 :: _ =>
                match hexVal f1, hexVal f2 with
                | some a3, some b3 => [a3 * 16 + b3]
                | _, _ => []
              | _ => [])
          | _, _ => []
        | _ => [])
    | _, _ => []
  | _ => []

/-- Fuel-indexed body of `decodeURIComponent` (strict: malformed input
is `none`, modelling the thrown `URIError`). -/
def pctDecodeGo (fuel : Nat) (s : Str) : Option Str :=
  match fuel with
  | 0 => none
  | fuel + 1 =>
    match s with
    | [] => some []
    | '%' :: h1 :: h2 :: rest =>
      (match hexVal h1, hexVal h2 with
      | some a, some b =>
        let byte := a * 16 + b
        if byte < 0x80 then (pctDecodeGo fuel rest).map (Char.ofNat byte :: ·)
        else
          match utf8Seq byte (pctPeekBytes rest) with
          | some (code, k) =>
            (pctDecodeGo fuel (rest.drop (3 * k))).map (Char.ofNat code :: ·)
          | none => none
      | _, _ => none)
    | '%' :: _ => none
    | c :: rest => (pctDecodeGo fuel rest).map (c :: ·)

/-- `decodeURIComponent`. -/
def decodeURIComponentM (s : Str) : Option Str := pctDecodeGo (s.length + 1) s

/-- `decodeURIComponent` with the source's catch-and-keep pattern. -/
def pctDecodeOrKeep (s : Str) : Str :=
  if hasPctTriple s then
    match decodeURIComponentM s with
    | some d => d
    | none => s
  else s

/- ───────── Memory-stream URL builder (part_002) ───────── -/

/-- `MEM_V` from the source. -/
def MEM_V : Str := strOf "2"

/-- `URL_HARD_CAP` from the source. -/
def URL_HARD_CAP : Nat := 120000

/-- `THREAD_MAX_DEPTH` from the source. -/
def THREAD_MAX_DEPTH : Nat := 256

/-- The `short` string shortener from the source. -/
def shortStr (s : Str) (head tail : Nat) : Str :=
  if s.length ≤ head + tail then s
  else s.take head ++ '…' :: s.drop (s.length - tail)

/-- The `SegMeta` object literal built by `buildMemoryStreamUrl`
(insertion order `v,id,m,n,a,r`). -/
def segMetaObj (rootRef : Str) (adds : List Str) : JsVal :=
  let leaves := rootRef :: adds
  let merkle := merkleRootFNV64Hex leaves
  .jobj [
    (strOf "v", .jstr MEM_V),
    (strOf "id", .jstr (strOf "seg:" ++ merkle ++ ':' :: natToDec leaves.length)),
    (strOf "m", .jstr merkle),
    (strOf "n", .jnum (.fin (natToDec leaves.length))),
    (strOf "a", .jnum (.fin (natToDec adds.length))),
    (strOf "r", .jstr (shortStr rootRef 8 6))]

/-- `encodeSegMeta` from the source. -/
def encodeSegMeta (meta : JsVal) : Str :=
  SEG_PFX ++ toBase64UrlFromUtf8 (jsonStringify (deepSortForJson meta))

/-- `BuiltSegment` from the source. -/
structure BuiltSegment where
  url : Str
  rootRef : Str
  adds : List Str
  meta : JsVal
deriving Repr

/-- `buildMemoryStreamUrl` from the source: hash-only URL on the stream
base carrying `v`, `root`, `seg` and one `add` per ancestor. -/
def buildMemoryStreamUrl (rootRef : Str) (adds : List Str) : BuiltSegment :=
  let meta := segMetaObj rootRef adds
  let params := (strOf "v", MEM_V) :: (strOf "root", rootRef)
      :: (strOf "seg", encodeSegMeta meta) :: adds.map (fun a => (strOf "add", a))
  { url := strOf "https://x.invalid/stream#" ++ serializeParams params,
    rootRef := rootRef, adds := adds, meta := meta }

/-- The φ/Fibonacci snap loop (`fibFloor`'s `while`), fuel-indexed; the
fuel bounds the iteration count (`b` grows strictly each step). -/
def fibFloorGo (fuel a b x : Nat) : Nat :=
  match fuel with
  | 0 => b
  | fuel + 1 => if a + b > x then b else fibFloorGo fuel b (a + b) x

/-- `fibFloor` from the source (inputs here are naturals). -/
def fibFloor (x : Nat) : Nat :=
  if x ≤ 2 then x else fibFloorGo x 1 2 x

/-- The binary search inside `segmentTailToFit`, fuel-indexed (the
interval shrinks strictly, so `adds.length + 1` fuel is exact). -/
def segSearchGo (fuel : Nat) (rootRef : Str) (adds : List Str) (lo hi : Nat) : Nat :=
  match fuel with
  | 0 => lo
  | fuel + 1 =>
    if lo < hi then
      let mid := (lo + hi) / 2
      if (buildMemoryStreamUrl rootRef (adds.drop mid)).url.length ≤ URL_HARD_CAP then
        segSearchGo fuel rootRef adds lo mid
      else segSearchGo fuel rootRef adds (mid + 1) hi
    else lo

/-- `segmentTailToFit` from the source: binary-search the longest
fitting tail, then snap its size down to a Fibonacci number. -/
def segmentTailToFit (rootRef : Str) (adds : List Str) : Nat × List Str :=
  let lo := segSearchGo (adds.length + 1) rootRef adds 0 adds.length
  let maxKept := adds.length - lo
  let snap := fibFloor maxKept
  let keptCount := min maxKept (if snap > 0 then snap else maxKept)
  let keepFrom := adds.length - keptCount
  (keepFrom, adds.drop keepFrom)

/-- Result of `buildSegmentedPack`. -/
structure SegPack where
  primary : BuiltSegment
  archives : List BuiltSegment

/-- `buildSegmentedPack` from the source: keep a fitting tail in the
primary segment and recurse on the dropped prefix (guard-bounded). -/
def buildSegmentedPack (rootRef : Str) (adds : List Str) (guard : Nat) : SegPack :=
  if _hg : guard > 64 then ⟨buildMemoryStreamUrl rootRef [], []⟩
  else
    let full := buildMemoryStreamUrl rootRef adds
    if full.url.length ≤ URL_HARD_CAP then ⟨full, []⟩
    else
      let kf := segmentTailToFit rootRef adds
      let primary := buildMemoryStreamUrl rootRef kf.2
      if primary.url.length > URL_HARD_CAP then ⟨buildMemoryStreamUrl rootRef [], []⟩
      else if kf.1 = 0 then ⟨primary, []⟩
      else
        match kf.2 with
        | [] => ⟨primary, []⟩
        | boundaryRoot :: _ =>
          if boundaryRoot = [] then ⟨primary, []⟩
          else
            let ap := buildSegmentedPack boundaryRoot (adds.take kf.1) (guard + 1)
            ⟨primary, ap.primary :: ap.archives⟩
termination_by 65 - guard
decreasing_by omega


/- ───────── token extraction / URL normalization (part_002) ───────── -/

/-- Is the value a JS record (object, not array, not null)? -/
def isRecordB (v : JsVal) : Bool :=
  match v with
  | .jobj _ => true
  | _ => false

/-- JS truthiness of a value. -/
def jsTruthy (v : JsVal) : Bool :=
  match v with
  | .jnull => false
  | .jundef => false
  | .jbool b => b
  | .jstr s => ¬ s = []
  | .jnum .nan => false
  | .jnum (.fin r) => ¬ r = strOf "0"
  | .jnum _ => true
  | .jbig i => ¬ i = 0
  | .jarr _ => true
  | .jobj _ => true

/-- `normalizeToken` from the source: strip edges, percent-decode,
restore `+`, base64 → base64url, strip padding, strip edges again. -/
def normalizeToken (raw : Str) : Str :=
  let t := stripEdgePunct raw
  let t := pctDecodeOrKeep t
  let t := if ' ' ∈ t then t.map (fun c => if c = ' ' then '+' else c) else t
  let t :=
    if t.any (fun c => c = '+' ∨ c = '/' ∨ c = '=') then
      stripTrailingEq (t.map (fun c => if c = '+' then '-' else if c = '/' then '_' else c))
    else t
  stripEdgePunct t

/-- `makeStreamOpenUrlFromToken` from the source (browser base). -/
def makeStreamOpenUrlFromToken (tokenRaw : Str) : Str :=
  strOf "https://x.invalid/stream#t=" ++ uriEncode (normalizeToken tokenRaw)

/-- `isSPayloadUrl` from the source: does the path match `^\/s(\/|$)`? -/
def isSPayloadUrl (raw : Str) : Bool :=
  let t := stripEdgePunct raw
  let path := match tryParseUrl t with
    | some u => u.path
    | none => t
  path = strOf "/s" ∨ (strOf "/s/").isPrefixOf path

/-- Scan for the first position where one of the pattern strings is
followed (after an optional `/` when `optSlash`) by a non-empty run of
characters outside `/?#` — the capture-group semantics of the path
regexes in `extractFromPath`. -/
def scanCapP (pats : List Str) (optSlash : Bool) (s : Str) : Option Str :=
  match s with
  | [] => none
  | _ :: t =>
    match pats.findSome? (fun p =>
        if p.isPrefixOf s then some (s.drop p.length) else none) with
    | some r =>
      let r := if optSlash then (match r with | '/' :: r2 => r2 | _ => r) else r
      let cap := r.takeWhile (fun c => ¬ isUrlDelim c)
      if cap = [] then scanCapP pats optSlash t else some cap
    | none => scanCapP pats optSlash t

/-- `extractFromPath` from the source: `/s/<id>`, legacy `/p~`,
`/stream/p/`·`/feed/p/`, then `/p/`. -/
def extractFromPath (pathname : Str) : Option Str :=
  match scanCapP [strOf "/s/"] false pathname with
  | some m => some m
  | none =>
  match scanCapP [strOf "/p~", strOf "/p%7E", strOf "/p%7e"] true pathname with
  | some m => some m
  | none =>
  match scanCapP [strOf "/stream/p/", strOf "/feed/p/"] false pathname with
  | some m => some m
  | none => scanCapP [strOf "/p/"] false pathname

/-- The `push` accumulator of `extractTokenCandidates`: normalize,
validate, dedup-append. -/
def pushTok (out : List Str) (v : Option Str) : List Str :=
  match v with
  | none => out
  | some v0 =>
    let tok := normalizeToken v0
    if tok = [] then out
    else if ¬ isLikelyToken tok then out
    else if tok ∈ out then out
    else out ++ [tok]

/-- Body of `extractTokenCandidates`; the source's `depth < 1` recursion
guard is inlined as the `doNested`/`nested` parameters (depth 0 performs
the nested pass with the depth-1 body, depth 1 does not recurse). -/
def etcCore (rawUrl : Str) (doNested : Bool) (nested : Str → List Str) : List Str :=
  let raw := stripEdgePunct rawUrl
  let out := if isLikelyToken raw then pushTok [] (some raw) else []
  match tryParseUrl raw with
  | none => out
  | some u =>
    let hash := parseParams u.hash
    let search := parseParams u.search
    let out := [strOf "t", strOf "p", strOf "token", strOf "capsule"].foldl
      (fun o k => pushTok (pushTok o (spGet hash k)) (spGet search k)) out
    let out := pushTok out (extractFromPath u.path)
    if doNested then
      (spGetAll search (strOf "add") ++ spGetAll hash (strOf "add")).foldl
        (fun o a =>
          let maybeUrl := stripEdgePunct a
          if maybeUrl = [] then o
          else (nested (pctDecodeOrKeep maybeUrl)).foldl
            (fun o2 tok => pushTok o2 (some tok)) o) out
    else out

/-- `extractTokenCandidates` at recursion depth 1 (no nested pass). -/
def extractTokenCandidatesL1 (rawUrl : Str) : List Str :=
  etcCore rawUrl false (fun _ => [])

/-- `extractTokenCandidates` from the source (depth 0). -/
def extractTokenCandidates (rawUrl : Str) : List Str :=
  etcCore rawUrl true extractTokenCandidatesL1

/-- `normalizeResolvedUrlForBrowser` from the source. -/
def normalizeResolvedUrlForBrowser (rawUrl : Str) : Str :=
  let raw := stripEdgePunct rawUrl
  let viaRoot : Option Str :=
    match tryParseUrl raw with
    | none => none
    | some u =>
      let hp := parseParams u.hash
      let sp := parseParams u.search
      if truthyS (spGet hp (strOf "root")) ∨ truthyS (spGet sp (strOf "root")) then
        let ps := hp ++ sp
        some (strOf "https://x.invalid/stream"
          ++ (if serializeParams ps = [] then [] else '#' :: serializeParams ps))
      else none
  match viaRoot with
  | some r => r
  | none =>
    if isSPayloadUrl raw then raw
    else
      match (extractTokenCandidates raw).head? with
      | some tok => makeStreamOpenUrlFromToken tok
      | none => raw

/-- `extractRootRef` from the source: the `root` param as a payload
reference. -/
def extractRootRef (rawUrl : Str) : Option Str :=
  match tryParseUrl (stripEdgePunct rawUrl) with
  | none => none
  | some u =>
    let hp := parseParams u.hash
    let sp := parseParams u.search
    match (match spGet hp (strOf "root") with
           | some v => some v
           | none => spGet sp (strOf "root")) with
    | none => none
    | some r0 =>
      if r0 = [] then none
      else
        let r := pctDecodeOrKeep (stripEdgePunct r0)
        if PAYLOAD_PFX.isPrefixOf r then some r
        else
          match decodePayloadRef r with
          | some p =>
            if isRecordB p then some (PAYLOAD_PFX ++ stripEdgePunct r) else none
          | none => none

/-- Fallback arm of the `extractAddChain` loop (token, `/s/` URL, or
browser-normalized URL). -/
def addChainFallback (out : List Str) (v : Str) : List Str :=
  match (extractTokenCandidates v).head? with
  | some tok => out ++ [makeStreamOpenUrlFromToken tok]
  | none =>
    if isSPayloadUrl v then out ++ [v]
    else out ++ [normalizeResolvedUrlForBrowser v]

/-- `extractAddChain` from the source: collect and normalize the `add`
params (hash then search), keeping the final `THREAD_MAX_DEPTH` entries.
(`readCapsuleLoose` returns a record exactly when its argument is one,
so the guard it feeds reduces to record-ness.) -/
def extractAddChain (rawUrl : Str) : List Str :=
  match tryParseUrl (stripEdgePunct rawUrl) with
  | none => []
  | some u =>
    let addsRaw := spGetAll (parseParams u.hash) (strOf "add")
        ++ spGetAll (parseParams u.search) (strOf "add")
    let out := addsRaw.foldl (fun out a =>
      let v := stripEdgePunct a
      if v = [] then out
      else
        let v := pctDecodeOrKeep v
        if PAYLOAD_PFX.isPrefixOf v ∧ v.length > PAYLOAD_PFX.length + 8 then out ++ [v]
        else
          match decodePayloadRef v with
          | some p =>
            if isRecordB p then
              out ++ [PAYLOAD_PFX ++ stripEdgePunct
                (if PAYLOAD_PFX.isPrefixOf v then v.drop PAYLOAD_PFX.length else v)]
            else addChainFallback out v
          | none => addChainFallback out v) []
    out.drop (out.length - THREAD_MAX_DEPTH)

/-- `dedupPreserveOrder` from the source. -/
def dedupPreserveOrder (l : List Str) : List Str :=
  l.foldl (fun out it =>
    let s := jsTrim it
    if s = [] then out else if s ∈ out then out else out ++ [s]) []

/- ───────── registry scoring and keys (part_002) ───────── -/

/-- `countAddsInUrl` from the source. -/
def countAddsInUrl (raw : Str) : Nat :=
  match tryParseUrl raw with
  | none => 0
  | some u =>
    (spGetAll (parseParams u.hash) (strOf "add")).length
      + (spGetAll (parseParams u.search) (strOf "add")).length

/-- `registryScore` from the source: witness depth first, length second. -/
def registryScore (raw : Str) : Nat :=
  countAddsInUrl raw * 100000 + raw.length

/-- `keyForRegistryUrl` from the source. -/
def keyForRegistryUrl (raw : Str) : Str :=
  match (extractTokenCandidates raw).head? with
  | some tok => strOf "t:" ++ normalizeToken tok
  | none =>
    match extractRootRef raw with
    | some rr =>
      (match decodePayloadRef rr with
       | some p => if jsTruthy p then strOf "r:" ++ payloadKey p
                   else strOf "r:" ++ fnv1a64Hex rr
       | none => strOf "r:" ++ fnv1a64Hex rr)
    | none => strOf "u:" ++ normalizeResolvedUrlForBrowser raw

/-- `canonicalizeForStorage` from the source. -/
def canonicalizeForStorage (raw : Str) : Str :=
  let t := jsTrim raw
  if t = [] then []
  else
    match parseWithBase t with
    | some u => urlToString u
    | none => t

/-- The dedup-best prepass of `upsertUrlList` over the stored list: an
ordered association of registry key to best-scored canonical URL, keys
in first-occurrence order. -/
def upsertScan (acc : List (Str × Str × Nat)) (l : List Str) : List (Str × Str × Nat) :=
  match l with
  | [] => acc
  | v :: rest =>
    let c := canonicalizeForStorage v
    if c = [] then upsertScan acc rest
    else
      let k := keyForRegistryUrl c
      let sc := registryScore c
      match acc.find? (fun e => e.1 = k) with
      | none => upsertScan (acc ++ [(k, c, sc)]) rest
      | some e =>
        if sc > e.2.2 then
          upsertScan (acc.map (fun e2 => if e2.1 = k then (k, c, sc) else e2)) rest
        else upsertScan acc rest

/-- Result record of `upsertUrlList`. -/
structure UpsertResult where
  changed : Bool
  added : Bool
  updated : Bool
  value : Str
deriving Repr, DecidableEq

/-- Proof-side: the registry entry a canonical stored URL denotes
(registry key, canonical URL, score). -/
def regEntry (u : Str) : Str × Str × Nat :=
  (keyForRegistryUrl u, u, registryScore u)

/-- The insert/replace/no-op decision step of `upsertUrlList`: the new
entry list plus the `added` and `updated` flags. -/
def uStep (existing : List Str) (rawUrl : Str) : List (Str × Str × Nat) × Bool × Bool :=
  let canonical := canonicalizeForStorage rawUrl
  let acc := upsertScan [] existing
  let newKey := keyForRegistryUrl canonical
  let newScore := registryScore canonical
  match acc.find? (fun e => e.1 = newKey) with
  | none => (acc ++ [(newKey, canonical, newScore)], true, false)
  | some e =>
    if newScore > e.2.2 then
      (acc.map (fun e2 => if e2.1 = newKey then (newKey, canonical, newScore) else e2),
        false, true)
    else (acc, false, false)

/-- `upsertUrlList` from the source, with the `localStorage` cell passed
as explicit state (`existing` is the stored string list; the JSON
round-trip on a list of strings is the identity, and the source's
string comparison of the two JSON serializations is list equality).
Returns the result record and the resulting stored list. -/
def upsertUrlList (existing : List Str) (rawUrl : Str) : UpsertResult × List Str :=
  let canonical := canonicalizeForStorage rawUrl
  if canonical = [] then (⟨false, false, false, rawUrl⟩, existing)
  else
    let step := uStep existing rawUrl
    let next := step.1.map (fun e => e.2.1)
    (⟨decide (¬ next = existing), step.2.1, step.2.2, canonical⟩, next)

/- ───────── sigil decode (src/utils/sigilDecode.ts) ───────── -/

/-- `normalizeBase64` + `atob` + `TextDecoder` (`base64DecodeUtf8` in
sigilDecode.ts); `none` models the thrown decode error. -/
def base64DecodeUtf8M (b64 : Str) : Option Str :=
  let payload := if (strOf "c:").isPrefixOf b64 then b64.drop 2 else b64
  let st := if payload.any (fun c => c = '-' ∨ c = '_')
    then payload.map b64UrlToStdChar else payload
  let st := st ++ (if st.length % 4 = 2 then ['=', '=']
    else if st.length % 4 = 3 then ['='] else [])
  (atobBytes st).map utf8DecodeLenient

/-- Pick the first finite-number property of the two candidates, else
`undefined` (the short/long key resolution in `decodeSigilUrl`). -/
def pickNum (a b : Option JsVal) : JsVal :=
  match a with
  | some (.jnum (.fin r)) => .jnum (.fin r)
  | _ =>
    match b with
    | some (.jnum (.fin r)) => .jnum (.fin r)
    | _ => JsVal.jundef

/-- Pick the first string property of the two candidates, else
`undefined`. -/
def pickStr (a b : Option JsVal) : JsVal :=
  match a with
  | some (.jstr s) => .jstr s
  | _ =>
    match b with
    | some (.jstr s) => .jstr s
    | _ => JsVal.jundef

/-- String-or-finite-number property filter. -/
def strOrNum (a : Option JsVal) : Option JsVal :=
  match a with
  | some (.jstr s) => some (.jstr s)
  | some (.jnum (.fin r)) => some (.jnum (.fin r))
  | _ => none

/-- Set a key on an object field list (update in place, else append) —
the object-literal spread-then-override of `decodeSigilUrl`. -/
def objSet (fs : List (Str × JsVal)) (k : Str) (v : JsVal) : List (Str × JsVal) :=
  if fs.any (fun f => f.1 = k) then fs.map (fun f => if f.1 = k then (k, v) else f)
  else fs ++ [(k, v)]

/-- `decodeSigilUrl` from sigilDecode.ts, returning the `data` record of
the `ok` case (`none` models every error result).  Arrays — which the
source's `isObject` admits — are modelled with no string-keyed
properties. -/
def decodeSigilUrlData (url : Str) : Option JsVal :=
  match parseWithBase url with
  | none => none
  | some u =>
    match spGet (parseParams u.search) (strOf "p") with
    | none => none
    | some pParam =>
      if pParam = [] then none
      else
        match base64DecodeUtf8M pParam with
        | none => none
        | some jsonText =>
          match jsonParse jsonText with
          | none => none
          | some parsed =>
            match parsed with
            | .jobj pfs =>
              let g := fun (k : String) => objGet pfs (strOf k)
              let pulseV := pickNum (g "pulse") (g "u")
              let beatV := pickNum (g "beat") (g "b")
              let stepV := pickNum (g "stepIndex") (g "s")
              let chakraV := match strOrNum (g "chakraDay") with
                | some v => v
                | none => match strOrNum (g "c") with
                  | some v => v
                  | none => .jundef
              let path := (u.path.splitOn '/').filter (fun seg => ¬ seg = [])
              let appIdV : JsVal :=
                if path.head? = some (strOf "s") ∧ 2 ≤ path.length then
                  match path.get? 1 with
                  | some seg => .jstr seg
                  | none => .jundef
                else .jundef
              let userIdV := pickStr (g "userId") (g "userPhiKey")
              let kindPayload : JsVal :=
                match g "kind" with
                | some (.jstr s) => .jstr s
                | _ =>
                  if (g "post").any jsTruthy then .jstr (strOf "post")
                  else if (g "message").any jsTruthy then .jstr (strOf "message")
                  else if (g "share").any jsTruthy then .jstr (strOf "share")
                  else if (g "reaction").any jsTruthy then .jstr (strOf "reaction")
                  else .jundef
              let kindV : JsVal :=
                match kindPayload with
                | .jundef =>
                  (if 8 ≤ path.length then
                    match path.get? 6 with
                    | some seg => .jstr seg
                    | none => .jundef
                  else .jundef)
                | k => k
              let capsule := objSet (objSet (objSet (objSet pfs
                  (strOf "pulse") pulseV) (strOf "beat") beatV)
                  (strOf "stepIndex") stepV) (strOf "chakraDay") chakraV
              some (.jobj [
                (strOf "url", .jstr url),
                (strOf "appId", appIdV),
                (strOf "userId", userIdV),
                (strOf "kind", kindV),
                (strOf "pulse", pulseV),
                (strOf "beat", beatV),
                (strOf "stepIndex", stepV),
                (strOf "chakraDay", chakraV),
                (strOf "capsule", .jobj capsule),
                (strOf "path", .jarr (path.map .jstr))])
            | .jarr _ =>
              let path := (u.path.splitOn '/').filter (fun seg => ¬ seg = [])
              let appIdV : JsVal :=
                if path.head? = some (strOf "s") ∧ 2 ≤ path.length then
                  match path.get? 1 with
                  | some seg => .jstr seg
                  | none => .jundef
                else .jundef
              let kindV : JsVal :=
                if 8 ≤ path.length then
                  match path.get? 6 with
                  | some seg => .jstr seg
                  | none => .jundef
                else .jundef
              some (.jobj [
                (strOf "url", .jstr url),
                (strOf "appId", appIdV),
                (strOf "userId", .jundef),
                (strOf "kind", kindV),
                (strOf "pulse", .jundef),
                (strOf "beat", .jundef),
                (strOf "stepIndex", .jundef),
                (strOf "chakraDay", .jundef),
                (strOf "capsule", .jobj []),
                (strOf "path", .jarr (path.map .jstr))])
            | _ => none

/-- `buildDecodeUrlCandidates` from the source. -/
def buildDecodeUrlCandidates (token : Str) : List Str :=
  let base := strOf "https://x.invalid"
  let t := normalizeToken token
  [t,
   base ++ strOf "/stream/p/" ++ t,
   base ++ strOf "/stream#t=" ++ t,
   base ++ strOf "/p#t=" ++ t,
   base ++ strOf "/p?t=" ++ t,
   base ++ strOf "/p#p=" ++ t,
   base ++ strOf "/p?p=" ++ t,
   base ++ strOf "/p#token=" ++ t,
   base ++ strOf "/p?token=" ++ t]

/-- `decodeSigilUrlSmart` from the source, reduced to the decoded data
of the first successful attempt (the `tried` set only suppresses
attempts that already failed, so it does not change this value). -/
def decodeSigilUrlSmartData (rawUrl : Str) : Option JsVal :=
  let att : Str → Option JsVal := fun cand =>
    let c := jsTrim cand
    if c = [] then none else decodeSigilUrlData c
  let rawTrim := stripEdgePunct rawUrl
  match att rawTrim with
  | some d => some d
  | none =>
    ((extractTokenCandidates rawTrim).flatMap buildDecodeUrlCandidates).findSome? att

/-- `loadPayloadFromRef` from the source. -/
def loadPayloadFromRef (ref : Str) : Option JsVal :=
  let r := stripEdgePunct ref
  if r = [] then none
  else if PAYLOAD_PFX.isPrefixOf r then decodePayloadRef r
  else decodeSigilUrlSmartData r

/- ───────── previous-pointer resolution + thread walk (part_002) ───────── -/

/-- `normalizeInternalRefString` from the source. -/
def normalizeInternalRefString (raw : Str) : Option Str :=
  let s := stripEdgePunct raw
  if s = [] then none
  else if PAYLOAD_PFX.isPrefixOf s then some s
  else if isSPayloadUrl s then some s
  else
    let hasRoot :=
      match tryParseUrl s with
      | none => false
      | some u =>
        truthyS (spGet (parseParams u.hash) (strOf "root"))
          ∨ truthyS (spGet (parseParams u.search) (strOf "root"))
    if hasRoot then some (normalizeResolvedUrlForBrowser s)
    else
      match (extractTokenCandidates s).head? with
      | some tok => some (makeStreamOpenUrlFromToken tok)
      | none => none

/-- `normalizeInternalRefLoose` from the source. -/
def normalizeInternalRefLoose (v : JsVal) : Option Str :=
  match v with
  | .jstr s => normalizeInternalRefString s
  | .jobj fs =>
    (match objGet fs (strOf "url") with
     | some (.jstr s) => normalizeInternalRefString s
     | _ =>
       match objGet fs (strOf "href") with
       | some (.jstr s) => normalizeInternalRefString s
       | _ => none)
  | _ => none

/-- The previous-pointer alias table of `extractPrevRefFromPayload`. -/
def PREV_KEYS : List Str :=
  [strOf "prevUrl", strOf "prevURL", strOf "prev", strOf "prevId", strOf "prev_id",
   strOf "previousUrl", strOf "previousURL", strOf "previous", strOf "previousId",
   strOf "previous_id", strOf "parentUrl", strOf "parentURL", strOf "parent",
   strOf "parentId", strOf "parent_id", strOf "replyToUrl", strOf "replyToURL",
   strOf "replyTo", strOf "replyToId", strOf "replyTo_id", strOf "inReplyToUrl",
   strOf "inReplyToURL", strOf "inReplyTo", strOf "inReplyToId", strOf "inReplyTo_id",
   strOf "refUrl", strOf "ref_url", strOf "ref"]

/-- Non-empty result filter (JS truthiness of the returned string). -/
def truthyRef (o : Option Str) : Option Str :=
  match o with
  | some (c :: t) => some (c :: t)
  | _ => none

/-- `extractPrevRefFromPayload`, fuel-indexed: the fuel is `5 - depth`
(the source rejects `depth > 4`). -/
def extractPrevGo (fuel : Nat) (payload : JsVal) : Option Str :=
  match fuel with
  | 0 => none
  | fuel + 1 =>
    match payload with
    | .jobj fs =>
      let skipHit : Option Str :=
        match objGet fs (strOf "skip") with
        | some (.jarr arr) =>
          (match arr.get? 1 with
           | some (.jstr s) => truthyRef (normalizeInternalRefString s)
           | _ => none)
        | _ => none
      (match skipHit with
      | some n => some n
      | none =>
        match PREV_KEYS.findSome? (fun k =>
            match objGet fs k with
            | some v => truthyRef (normalizeInternalRefLoose v)
            | none => none) with
        | some n => some n
        | none =>
          [strOf "capsule", strOf "data", strOf "payload"].findSome? (fun w =>
            match objGet fs w with
            | some v => truthyRef (extractPrevGo fuel v)
            | none => none))
    | _ => none

/-- `extractPrevRefFromPayload` from the source (depth 0). -/
def extractPrevRefFromPayload (payload : JsVal) : Option Str :=
  extractPrevGo 5 payload

/-- `threadSeenKey`'s reference-only fallback (no payload available). -/
def threadSeenKeyRef (ref : Str) : Str :=
  if PAYLOAD_PFX.isPrefixOf ref then
    match decodePayloadRef ref with
    | some p => if jsTruthy p then strOf "k:" ++ payloadKey p
                else strOf "k:" ++ fnv1a64Hex ref
    | none => strOf "k:" ++ fnv1a64Hex ref
  else
    match (extractTokenCandidates ref).head? with
    | some tok => strOf "t:" ++ normalizeToken tok
    | none => strOf "u:" ++ normalizeResolvedUrlForBrowser ref

/-- `threadSeenKey` from the source. -/
def threadSeenKey (rawRef : Str) (payloadMaybe : Option JsVal) : Str :=
  let ref := stripEdgePunct rawRef
  match payloadMaybe with
  | some p => if jsTruthy p then strOf "k:" ++ payloadKey p else threadSeenKeyRef ref
  | none => threadSeenKeyRef ref

/-- The 48-iteration previous-pointer walk of
`threadRootRefFromUrlLike`. -/
def threadWalk (fuel : Nat) (seen : List Str) (curRef : Str)
    (payload : Option JsVal) : Str :=
  match fuel with
  | 0 => curRef
  | fuel + 1 =>
    let k := threadSeenKey curRef payload
    if k ∈ seen then curRef
    else
      let prev : Option Str :=
        match payload with
        | some p => if jsTruthy p then extractPrevRefFromPayload p else none
        | none => none
      match truthyRef prev with
      | none => curRef
      | some prevRef => threadWalk fuel (seen ++ [k]) prevRef (loadPayloadFromRef prevRef)

/-- `threadRootRefFromUrlLike` from the source: earliest `add` if a
witness chain exists, else the bounded previous-pointer walk. -/
def threadRootRefFromUrlLike (rawUrl : Str) (startPayload : Option JsVal) : Str :=
  let u := stripEdgePunct rawUrl
  if u = [] then rawUrl
  else
    match dedupPreserveOrder (extractAddChain u) with
    | c0 :: _ => c0
    | [] =>
      let payload0 :=
        match startPayload with
        | some p => if jsTruthy p then some p else loadPayloadFromRef u
        | none => loadPayloadFromRef u
      threadWalk 48 [] u payload0

/-- Proof-side: the resolved previous pointer of one walk iteration
(`truthyRef` of the payload's extracted previous reference). -/
def walkPrev (payload : Option JsVal) : Option Str :=
  truthyRef (match payload with
    | some p => if jsTruthy p then extractPrevRefFromPayload p else none
    | none => none)


/- ───────── proof-side cost measures for the JSON parser ───────── -/

/-- Fuel cost of a list of array elements (one unit per element plus
each element's own cost). -/
def ecost (xs : List JsVal) : Nat := (xs.map fun v => jcost v + 1).sum

/-- Fuel cost of an object member list. -/
def fcost (fs : List (Str × JsVal)) : Nat := (fs.map fun f => jcost f.2 + 1).sum

/-- Serialized form of one object member. -/
def fieldStr (f : Str × JsVal) : Str := jsonQuote f.1 ++ ':' :: jsonStringify f.2

/-- No non-finite number, bigint or undefined survives anywhere in a
value (the invariant `deepSortForJson` establishes). -/
def noBadLeaves (v : JsVal) : Bool :=
  match v with
  | .jnum .nan => false
  | .jnum .inf => false
  | .jnum .ninf => false
  | .jbig _ => false
  | .jundef => false
  | .jarr xs => xs.attach.all fun x => noBadLeaves x.1
  | .jobj fs => fs.attach.all fun f => noBadLeaves f.1.2
  | _ => true
termination_by sizeOf v
decreasing_by
  · have := List.sizeOf_lt_of_mem x.2
    simp; omega
  · have := List.sizeOf_lt_of_mem f.2
    rcases f with ⟨⟨k, v⟩, hf⟩
    simp at *; omega


/-- Strict-or-equal order on object members used to identify sorted
member lists (proof-side). -/
def fieldStrictLe (a b : Str × JsVal) : Prop :=
  localeCompareModel a.1 b.1 < 0 ∨ a = b

mutual

/-- Deep equality of JS values up to object-key insertion order (the
hypothesis of the canonicalization key-order claim): leaves must agree,
arrays must agree pointwise in order, and objects must agree up to a
permutation of their member lists with key-wise related values. -/
inductive JKeyEq : JsVal → JsVal → Prop where
  | jnull : JKeyEq .jnull .jnull
  | jbool (b : Bool) : JKeyEq (.jbool b) (.jbool b)
  | jnum (n : JNum) : JKeyEq (.jnum n) (.jnum n)
  | jstr (s : Str) : JKeyEq (.jstr s) (.jstr s)
  | jbig (i : Int) : JKeyEq (.jbig i) (.jbig i)
  | jundef : JKeyEq .jundef .jundef
  | jarr (xs ys : List JsVal) : JArrEq xs ys → JKeyEq (.jarr xs) (.jarr ys)
  | jobj (fs fs2 gs : List (Str × JsVal)) :
      List.Perm fs fs2 → JFldEq fs2 gs → JKeyEq (.jobj fs) (.jobj gs)

/-- Pointwise `JKeyEq` on array element lists. -/
inductive JArrEq : List JsVal → List JsVal → Prop where
  | nil : JArrEq [] []
  | cons (x y : JsVal) (xs ys : List JsVal) :
      JKeyEq x y → JArrEq xs ys → JArrEq (x :: xs) (y :: ys)

/-- Pointwise key-preserving `JKeyEq` on object member lists. -/
inductive JFldEq : List (Str × JsVal) → List (Str × JsVal) → Prop where
  | nil : JFldEq [] []
  | cons (k : Str) (v w : JsVal) (fs gs : List (Str × JsVal)) :
      JKeyEq v w → JFldEq fs gs → JFldEq ((k, v) :: fs) ((k, w) :: gs)

end

/- ═══════════════ Part 2: theorems ═══════════════ -/

/-- Negating the dividend negates the truncating remainder. -/
theorem tmod_neg_arg (a b : Int) : (-a).tmod b = -(a.tmod b) := by
  rw [Int.tmod_def, Int.tmod_def, Int.neg_tdiv]; ring

/-- Euclidean decomposition of the source's `floorDivE`/`modE` pair for a
positive divisor: the remainder is non-negative and strictly below the
divisor, and quotient/remainder recompose the dividend. -/
theorem floorDivE_modE_euclid (a m : Int) (hm : 0 < m) :
    0 ≤ modE a m ∧ modE a m < m ∧ a = m * floorDivE a m + modE a m := by
  have hm0 : m ≠ 0 := ne_of_gt hm
  have hdecomp : m * Int.tdiv a m + Int.tmod a m = a := Int.tdiv_add_tmod a m
  have hlt : Int.tmod a m < m := Int.tmod_lt_of_pos a hm
  have hs1 : 0 ≤ a → 0 ≤ Int.tmod a m := fun h => Int.tmod_nonneg m h
  have hs2 : a < 0 → Int.tmod a m ≤ 0 := by
    intro h
    have h1 : 0 ≤ (-a).tmod m := Int.tmod_nonneg m (by omega)
    have h2 : (-a).tmod m = -(a.tmod m) := tmod_neg_arg a m
    omega
  have hgt : -m < Int.tmod a m := by
    rcases le_or_lt 0 a with h | h
    · have := hs1 h; omega
    · have h2 : Int.tmod (-a) m < m := Int.tmod_lt_of_pos _ hm
      have h3 : (-a).tmod m = -(a.tmod m) := tmod_neg_arg a m
      omega
  have hmul : m * (Int.tdiv a m - 1) = m * Int.tdiv a m - m := by ring
  unfold modE floorDivE jsBigRem jsBigQuot
  simp only [if_neg hm0]
  split_ifs <;> omega

/-- C4 (amended): for every pulse, the day index arises from the μpulse
count by Euclidean division with non-negative remainder, `dayOfMonth` is
`modE dayIdx daysPerMonth + 1` and lies in 1..42, `month` is
`modE (floorDivE dayIdx daysPerMonth) monthsPerYear + 1` and lies in 1..8,
and `year` is the year index `floorDivE dayIdx daysPerYear` clamped into
the safe-integer range by `toSafeNumber` (the clamp is the one amendment
forced by the counterexample); at genesis (pulse 0) the result is
day 1, month 1, year 0, and pre-genesis years are negative. -/
theorem kaiDMY_euclidean (pulse : Int) :
    microPulsesOfPulse pulse =
        N_DAY_MICRO * floorDivE (microPulsesOfPulse pulse) N_DAY_MICRO
          + modE (microPulsesOfPulse pulse) N_DAY_MICRO ∧
    0 ≤ modE (microPulsesOfPulse pulse) N_DAY_MICRO ∧
    modE (microPulsesOfPulse pulse) N_DAY_MICRO < N_DAY_MICRO ∧
    (kaiDMYFromPulseKKS pulse).day
      = modE (floorDivE (microPulsesOfPulse pulse) N_DAY_MICRO) DAYS_PER_MONTH + 1 ∧
    1 ≤ (kaiDMYFromPulseKKS pulse).day ∧ (kaiDMYFromPulseKKS pulse).day ≤ 42 ∧
    (kaiDMYFromPulseKKS pulse).month
      = modE (floorDivE (floorDivE (microPulsesOfPulse pulse) N_DAY_MICRO) DAYS_PER_MONTH)
          MONTHS_PER_YEAR + 1 ∧
    1 ≤ (kaiDMYFromPulseKKS pulse).month ∧ (kaiDMYFromPulseKKS pulse).month ≤ 8 ∧
    (kaiDMYFromPulseKKS pulse).year
      = toSafeNumber
          (floorDivE (floorDivE (microPulsesOfPulse pulse) N_DAY_MICRO) DAYS_PER_YEAR) ∧
    kaiDMYFromPulseKKS 0 = ⟨1, 1, 0⟩ ∧
    (kaiDMYFromPulseKKS (-17491270421)).year < 0 := by
  obtain ⟨ha1, ha2, ha3⟩ :=
    floorDivE_modE_euclid (microPulsesOfPulse pulse) N_DAY_MICRO (by norm_num [N_DAY_MICRO])
  obtain ⟨hb1, hb2, _⟩ :=
    floorDivE_modE_euclid (floorDivE (microPulsesOfPulse pulse) N_DAY_MICRO) DAYS_PER_MONTH
      (by norm_num [DAYS_PER_MONTH])
  obtain ⟨hc1, hc2, _⟩ :=
    floorDivE_modE_euclid
      (floorDivE (floorDivE (microPulsesOfPulse pulse) N_DAY_MICRO) DAYS_PER_MONTH)
      MONTHS_PER_YEAR (by norm_num [MONTHS_PER_YEAR])
  simp only [DAYS_PER_MONTH, MONTHS_PER_YEAR, MAX_SAFE] at hb1 hb2 hc1 hc2 ⊢
  refine ⟨ha3, ha1, ha2, ?_, ?_, ?_, ?_, ?_, ?_, ?_, by decide, by decide⟩ <;>
    simp only [kaiDMYFromPulseKKS, toSafeNumber, MAX_SAFE, DAYS_PER_MONTH, MONTHS_PER_YEAR] <;>
    split_ifs <;> omega

/-- C4 counterexample: the claim states `year = floorDiv(dayIndex, daysPerYear)`
exactly, but the source clamps the year index through `toSafeNumber`; at the
extreme (but finite) pulse 10^23 the clamp fires and the two differ. -/
theorem kaiDMY_year_clamped_cex :
    (kaiDMYFromPulseKKS (10 ^ 23)).year
      ≠ floorDivE (floorDivE (microPulsesOfPulse (10 ^ 23)) N_DAY_MICRO) DAYS_PER_YEAR := by
  decide

/- ───────── character bounds ───────── -/

/-- Scalar-value bounds of a `Char`: below 0x110000 and outside the
surrogate block. -/
theorem char_toNat_bounds (c : Char) :
    c.toNat < 0x110000 ∧ ¬ (0xd800 ≤ c.toNat ∧ c.toNat ≤ 0xdfff) := by
  have h := c.valid
  rcases h with h | h
  · have : c.toNat < 55296 := by exact_mod_cast h
    omega
  · obtain ⟨h1, h2⟩ := h
    have h1' : 57343 < c.toNat := by exact_mod_cast h1
    have h2' : c.toNat < 1114112 := by exact_mod_cast h2
    omega

/- ───────── base64 round trip ───────── -/

/-- Decoding the character of a sextet recovers the sextet. -/
theorem b64IndexOf_charOf : ∀ n < 64, b64IndexOf (b64CharOf n) = some n := by decide

/-- Every sextet character is distinct from `=`. -/
theorem b64CharOf_ne_eq : ∀ n < 64, b64CharOf n ≠ '=' := by decide

/-- base64url substitution, then back, is the identity on sextet
characters. -/
theorem std_url_charOf : ∀ n < 64, b64UrlToStdChar (b64ToUrlChar (b64CharOf n)) = b64CharOf n := by
  decide

/-- base64url-substituted sextet characters lie in `[A-Za-z0-9_-]`. -/
theorem isTokChar_url_charOf : ∀ n < 64, isTokChar (b64ToUrlChar (b64CharOf n)) = true := by
  decide

/-- base64url substitution never produces `=`. -/
theorem url_charOf_ne_eq : ∀ n < 64, b64ToUrlChar (b64CharOf n) ≠ '=' := by decide

/-- All sextets of a byte list are below 64. -/
theorem b64SextetsOf_lt (bs : List Nat) (h : ∀ b ∈ bs, b < 256) :
    ∀ x ∈ b64SextetsOf bs, x < 64 := by
  induction bs using b64SextetsOf.induct with
  | case1 => simp [b64SextetsOf]
  | case2 a =>
    have := h a (by simp)
    simp [b64SextetsOf]
    omega
  | case3 a b =>
    have ha := h a (by simp)
    have hb := h b (by simp)
    simp [b64SextetsOf]
    omega
  | case4 a b c rest ih =>
    have ha := h a (by simp)
    have hb := h b (by simp)
    have hc := h c (by simp)
    intro x hx
    simp only [b64SextetsOf, List.mem_cons] at hx
    rcases hx with rfl | rfl | rfl | rfl | hx
    · omega
    · omega
    · omega
    · omega
    · exact ih (fun b hb => h b (by simp [hb])) x hx

/-- `btoa` output decomposed into unpadded sextet characters plus
`=`-padding. -/
theorem bytesToBase64_eq (bs : List Nat) :
    bytesToBase64 bs
      = (b64SextetsOf bs).map b64CharOf ++ List.replicate ((3 - bs.length % 3) % 3) '=' := by
  induction bs using b64SextetsOf.induct with
  | case1 => simp [bytesToBase64, b64SextetsOf]
  | case2 a => simp [bytesToBase64, b64SextetsOf]
  | case3 a b => simp [bytesToBase64, b64SextetsOf]
  | case4 a b c rest ih =>
    simp only [bytesToBase64, b64SextetsOf, List.map_cons, List.cons_append, ih]
    have : (a :: b :: c :: rest).length % 3 = rest.length % 3 := by
      simp [List.length_cons]
      omega
    rw [this]

/-- Length of the sextet stream. -/
theorem b64SextetsOf_length (bs : List Nat) :
    (b64SextetsOf bs).length = b64urlLen bs.length := by
  induction bs using b64SextetsOf.induct with
  | case1 => simp [b64SextetsOf, b64urlLen]
  | case2 a => simp [b64SextetsOf, b64urlLen]
  | case3 a b => simp [b64SextetsOf, b64urlLen]
  | case4 a b c rest ih =>
    simp only [b64SextetsOf, List.length_cons, ih, b64urlLen]
    have h3 : (rest.length + 1 + 1 + 1) % 3 = rest.length % 3 := by omega
    have h4 : (rest.length + 1 + 1 + 1) / 3 = rest.length / 3 + 1 := by omega
    simp only [h3, h4]
    split_ifs <;> omega

/-- Dropping `=`-runs from the left of a padded tail. -/
theorem dropWhile_eq_replicate (k : Nat) (y : Str) :
    List.dropWhile (· = '=') (List.replicate k '=' ++ y) = List.dropWhile (· = '=') y := by
  induction k with
  | zero => simp
  | succ k ih => simp [List.replicate_succ, List.dropWhile_cons, ih]

/-- `stripTrailingEq` removes exactly the padding when the body carries
no `=`. -/
theorem stripTrailingEq_append_pad (x : Str) (k : Nat) (h : ∀ c ∈ x, c ≠ '=') :
    stripTrailingEq (x ++ List.replicate k '=') = x := by
  unfold stripTrailingEq
  rw [List.reverse_append, List.reverse_replicate, dropWhile_eq_replicate]
  have : List.dropWhile (· = '=') x.reverse = x.reverse := by
    cases hx : x.reverse with
    | nil => simp
    | cons c t =>
      have hc : c ∈ x := by
        have : c ∈ x.reverse := by rw [hx]; simp
        simpa using this
      rw [List.dropWhile_cons]
      simp [h c hc]
  rw [this, List.reverse_reverse]

/-- Decoding the sextet characters with `b64IndexOf` recovers the
sextets. -/
theorem mapM_b64IndexOf (ss : List Nat) (h : ∀ x ∈ ss, x < 64) :
    (ss.map b64CharOf).mapM b64IndexOf = some ss := by
  induction ss with
  | nil => rfl
  | cons s t ih =>
    have hs := h s (by simp)
    have ht := ih (fun x hx => h x (by simp [hx]))
    simp only [List.map_cons, List.mapM_cons, b64IndexOf_charOf s hs, ht]
    rfl

/-- Regrouping sextets back into bytes. -/
theorem b64SextetsToBytes_of (bs : List Nat) (h : ∀ b ∈ bs, b < 256) :
    b64SextetsToBytes (b64SextetsOf bs) = bs := by
  induction bs using b64SextetsOf.induct with
  | case1 => rfl
  | case2 a =>
    have := h a (by simp)
    simp [b64SextetsOf, b64SextetsToBytes]
    omega
  | case3 a b =>
    have ha := h a (by simp)
    have hb := h b (by simp)
    simp [b64SextetsOf, b64SextetsToBytes]
    omega
  | case4 a b c rest ih =>
    have ha := h a (by simp)
    have hb := h b (by simp)
    have hc := h c (by simp)
    simp only [b64SextetsOf, b64SextetsToBytes, ih (fun x hx => h x (by simp [hx])),
      List.cons.injEq]
    refine ⟨by omega, by omega, by omega, trivial⟩

/-- `atobStrip` removes exactly the padding from a clean body. -/
theorem atobStrip_append_pad (x : Str) (k : Nat) (hk : k ≤ 2) (hx : '=' ∉ x)
    (hlen : (x.length + k) % 4 = 0) :
    atobStrip (x ++ List.replicate k '=') = x := by
  have htake2 : ¬ x.reverse.take 2 = ['=', '='] := by
    intro heq
    have : '=' ∈ x.reverse.take 2 := by rw [heq]; simp
    exact hx (by simpa using List.mem_of_mem_take this)
  have htake1 : ¬ x.reverse.take 1 = ['='] := by
    intro heq
    have : '=' ∈ x.reverse.take 1 := by rw [heq]; simp
    exact hx (by simpa using List.mem_of_mem_take this)
  unfold atobStrip
  interval_cases k
  · simp only [List.replicate_zero, List.append_nil]
    rw [if_pos (by omega), if_neg htake2, if_neg htake1]
  · have hrep : List.replicate 1 '=' = ['='] := rfl
    rw [hrep]
    have hlen4 : (x ++ ['=']).length % 4 = 0 := by simp; omega
    have hrev : (x ++ ['=']).reverse = '=' :: x.reverse := by simp
    rw [if_pos hlen4, hrev]
    have h2 : ('=' :: x.reverse).take 2 = '=' :: x.reverse.take 1 := by simp
    have hne2 : ¬ ('=' :: x.reverse).take 2 = ['=', '='] := by
      rw [h2]
      intro heq
      exact htake1 (by simpa using heq)
    have h1 : ('=' :: x.reverse).take 1 = ['='] := by simp
    rw [if_neg hne2, if_pos h1, List.dropLast_concat]
  · have hrep : List.replicate 2 '=' = ['=', '='] := rfl
    rw [hrep]
    have hlen4 : (x ++ ['=', '=']).length % 4 = 0 := by simp; omega
    have hrev : (x ++ ['=', '=']).reverse = '=' :: '=' :: x.reverse := by simp
    have hsplit : x ++ ['=', '='] = (x ++ ['=']) ++ ['='] := by simp
    rw [if_pos hlen4, hrev, if_pos (by simp), hsplit, List.dropLast_concat,
      List.dropLast_concat]

/-- `atob` on a clean body plus `=`-padding reduces to sextet decoding of
the body. -/
theorem atobBytes_append_pad (x : Str) (k : Nat) (hk : k ≤ 2) (hx : '=' ∉ x)
    (hlen : (x.length + k) % 4 = 0) (hne : x.length % 4 ≠ 1) :
    atobBytes (x ++ List.replicate k '=')
      = match x.mapM b64IndexOf with
        | none => none
        | some ss => some (b64SextetsToBytes ss) := by
  unfold atobBytes
  rw [atobStrip_append_pad x k hk hx hlen, if_neg hne]


/-- UTF-8 bytes are bytes. -/
theorem utf8Bytes_lt (c : Char) : ∀ b ∈ utf8Bytes c, b < 256 := by
  have hb := char_toNat_bounds c
  intro b hbm
  simp only [utf8Bytes] at hbm
  split_ifs at hbm <;> simp at hbm <;> omega

/-- UTF-8 encoded strings consist of bytes. -/
theorem utf8Encode_lt (s : Str) : ∀ b ∈ utf8Encode s, b < 256 := by
  intro b hb
  simp only [utf8Encode, List.mem_flatMap] at hb
  obtain ⟨c, _, hc⟩ := hb
  exact utf8Bytes_lt c b hc

/-- `btoa` then `atob` is the identity on byte lists. -/
theorem atob_bytesToBase64 (bs : List Nat) (h : ∀ b ∈ bs, b < 256) :
    atobBytes (bytesToBase64 bs) = some bs := by
  rw [bytesToBase64_eq]
  have hss := b64SextetsOf_lt bs h
  have hmem : '=' ∉ (b64SextetsOf bs).map b64CharOf := by
    intro hm
    simp only [List.mem_map] at hm
    obtain ⟨n, hn, heq⟩ := hm
    exact b64CharOf_ne_eq n (hss n hn) heq
  have hL := b64SextetsOf_length bs
  have hlen : ((b64SextetsOf bs).map b64CharOf).length = b64urlLen bs.length := by
    simpa using hL
  rw [atobBytes_append_pad _ _ (by omega) hmem
    (by rw [hlen]; unfold b64urlLen; split_ifs <;> omega)
    (by rw [hlen]; unfold b64urlLen; split_ifs <;> omega)]
  rw [mapM_b64IndexOf _ hss]
  simp [b64SextetsToBytes_of bs h]

/-- The base64url token of a string, expressed without padding. -/
theorem toBase64UrlFromUtf8_eq (s : Str) :
    toBase64UrlFromUtf8 s
      = (b64SextetsOf (utf8Encode s)).map fun n => b64ToUrlChar (b64CharOf n) := by
  unfold toBase64UrlFromUtf8
  rw [bytesToBase64_eq]
  have hmapurl : List.map b64ToUrlChar (List.replicate ((3 - (utf8Encode s).length % 3) % 3) '=')
      = List.replicate ((3 - (utf8Encode s).length % 3) % 3) '=' := by
    rw [List.map_replicate]; rfl
  rw [List.map_append, hmapurl, List.map_map]
  apply stripTrailingEq_append_pad
  intro c hc
  simp only [List.mem_map, Function.comp] at hc
  obtain ⟨n, hn, heq⟩ := hc
  exact heq ▸ url_charOf_ne_eq n (b64SextetsOf_lt _ (utf8Encode_lt s) n hn)

/-- Length of the base64url token. -/
theorem toBase64UrlFromUtf8_length (s : Str) :
    (toBase64UrlFromUtf8 s).length = b64urlLen (utf8Encode s).length := by
  rw [toBase64UrlFromUtf8_eq, List.length_map, b64SextetsOf_length]

/-- Every character of the base64url token is in `[A-Za-z0-9_-]`. -/
theorem toBase64UrlFromUtf8_tokChars (s : Str) :
    ∀ c ∈ toBase64UrlFromUtf8 s, isTokChar c = true := by
  rw [toBase64UrlFromUtf8_eq]
  intro c hc
  simp only [List.mem_map] at hc
  obtain ⟨n, hn, heq⟩ := hc
  exact heq ▸ isTokChar_url_charOf n (b64SextetsOf_lt _ (utf8Encode_lt s) n hn)

/-- The lenient decoder never fails: `utf8DecodeCore false` agrees with
its fuel-indexed structural twin. -/
theorem utf8DecodeCore_false_eq : ∀ fuel bs, bs.length < fuel →
    utf8DecodeCore false bs = some (utf8DecodeGoL fuel bs) := by
  intro fuel
  induction fuel with
  | zero =>
      intro bs h
      omega
  | succ f ih =>
      intro bs h
      cases bs with
      | nil =>
          rw [show utf8DecodeCore false [] = some [] from by rw [utf8DecodeCore]]
          rfl
      | cons b rest =>
          simp only [utf8DecodeGoL]
          by_cases hb : b < 0x80
          · rw [show utf8DecodeCore false (b :: rest)
                = (utf8DecodeCore false rest).map (Char.ofNat b :: ·) from by
              rw [utf8DecodeCore]
              simp [hb]]
            rw [ih rest (by simp at h; omega), if_pos hb]
            rfl
          · rw [if_neg hb]
            cases hseq : utf8Seq b rest with
            | some ck =>
                rcases ck with ⟨code, k⟩
                rw [show utf8DecodeCore false (b :: rest)
                    = (utf8DecodeCore false (rest.drop k)).map (Char.ofNat code :: ·) from by
                  rw [utf8DecodeCore]
                  simp [hb, hseq]]
                rw [ih (rest.drop k) (by simp at h ⊢; omega)]
                rfl
            | none =>
                rw [show utf8DecodeCore false (b :: rest)
                    = (utf8DecodeCore false rest).map (Char.ofNat 0xFFFD :: ·) from by
                  rw [utf8DecodeCore]
                  simp [hb, hseq]]
                rw [ih rest (by simp at h; omega)]
                rfl

/-- The structural lenient decoder agrees with `utf8DecodeCore false`. -/
theorem utf8DecodeLenient_eq (bs : List Nat) :
    utf8DecodeLenient bs = (utf8DecodeCore false bs).getD [] := by
  rw [utf8DecodeCore_false_eq (bs.length + 1) bs (by omega)]
  rfl

/-- `fromBase64UrlToUtf8` inverts `toBase64UrlFromUtf8` up to the UTF-8
byte layer. -/
theorem fromBase64Url_to (s : Str) :
    fromBase64UrlToUtf8 (toBase64UrlFromUtf8 s)
      = some (utf8DecodeLenient (utf8Encode s)) := by
  unfold fromBase64UrlToUtf8
  rw [toBase64UrlFromUtf8_eq, List.map_map]
  have hmapstd : (b64SextetsOf (utf8Encode s)).map
      (b64UrlToStdChar ∘ fun n => b64ToUrlChar (b64CharOf n))
      = (b64SextetsOf (utf8Encode s)).map b64CharOf := by
    apply List.map_congr_left
    intro n hn
    exact std_url_charOf n (b64SextetsOf_lt _ (utf8Encode_lt s) n hn)
  rw [hmapstd]
  have hlen : ((b64SextetsOf (utf8Encode s)).map
      (fun n => b64ToUrlChar (b64CharOf n))).length = b64urlLen (utf8Encode s).length := by
    rw [List.length_map, b64SextetsOf_length]
  rw [hlen]
  have hpad : 3 - (b64urlLen (utf8Encode s).length + 3) % 4
      = (3 - (utf8Encode s).length % 3) % 3 := by
    unfold b64urlLen
    split_ifs <;> omega
  rw [hpad, ← bytesToBase64_eq]
  simp [atob_bytesToBase64 _ (utf8Encode_lt s), utf8DecodeLenient_eq]

/-- Decoding one encoded scalar from the front of a byte stream whose
tail decodes successfully. -/
theorem utf8DecodeCore_encChar (strict : Bool) (c : Char) (rest : List Nat) (t : Str)
    (h : utf8DecodeCore strict rest = some t) :
    utf8DecodeCore strict (utf8Bytes c ++ rest) = some (c :: t) := by
  obtain ⟨hub, hsur⟩ := char_toNat_bounds c
  by_cases h1 : c.toNat < 0x80
  · have hbytes : utf8Bytes c = [c.toNat] := by simp [utf8Bytes, h1]
    rw [hbytes, List.cons_append, List.nil_append]
    conv_lhs => rw [utf8DecodeCore.eq_def]
    simp only []
    rw [if_pos h1, h, Char.ofNat_toNat]
    rfl
  · by_cases h2 : c.toNat < 0x800
    · have hbytes : utf8Bytes c = [0xC0 + c.toNat / 0x40, 0x80 + c.toNat % 0x40] := by
        simp [utf8Bytes, h1, h2]
      have hseq : utf8Seq (0xC0 + c.toNat / 0x40) ((0x80 + c.toNat % 0x40) :: rest)
          = some (c.toNat, 1) := by
        simp only [utf8Seq]
        rw [if_pos (show 0xC2 ≤ 0xC0 + c.toNat / 0x40 ∧ 0xC0 + c.toNat / 0x40 ≤ 0xDF by
          constructor <;> omega)]
        rw [if_pos (show isCont (0x80 + c.toNat % 0x40) = true by simp [isCont]; omega)]
        simp only [Option.some.injEq, Prod.mk.injEq]
        exact ⟨by omega, trivial⟩
      rw [hbytes]
      simp only [List.cons_append, List.nil_append]
      conv_lhs => rw [utf8DecodeCore.eq_def]
      simp only []
      rw [if_neg (by omega), hseq]
      simp only [List.drop_succ_cons, List.drop_zero]
      rw [h, Char.ofNat_toNat]
      rfl
    · by_cases h3 : c.toNat < 0x10000
      · have hbytes : utf8Bytes c
            = [0xE0 + c.toNat / 0x1000, 0x80 + c.toNat / 0x40 % 0x40,
                0x80 + c.toNat % 0x40] := by
          simp [utf8Bytes, h1, h2, h3]
        have hseq : utf8Seq (0xE0 + c.toNat / 0x1000)
            ((0x80 + c.toNat / 0x40 % 0x40) :: (0x80 + c.toNat % 0x40) :: rest)
            = some (c.toNat, 2) := by
          simp only [utf8Seq]
          rw [if_neg (show ¬ (0xC2 ≤ 0xE0 + c.toNat / 0x1000
            ∧ 0xE0 + c.toNat / 0x1000 ≤ 0xDF) by omega)]
          rw [if_pos (show 0xE0 ≤ 0xE0 + c.toNat / 0x1000
            ∧ 0xE0 + c.toNat / 0x1000 ≤ 0xEF by constructor <;> omega)]
          rw [if_pos (show
            (if 0xE0 + c.toNat / 0x1000 = 0xE0 then (0xA0 : Nat) else 0x80)
                ≤ 0x80 + c.toNat / 0x40 % 0x40
              ∧ 0x80 + c.toNat / 0x40 % 0x40
                ≤ (if 0xE0 + c.toNat / 0x1000 = 0xED then (0x9F : Nat) else 0xBF)
              ∧ isCont (0x80 + c.toNat % 0x40) = true by
            refine ⟨?_, ?_, by simp [isCont]; omega⟩ <;> split_ifs <;> omega)]
          simp only [Option.some.injEq, Prod.mk.injEq]
          exact ⟨by omega, trivial⟩
        rw [hbytes]
        simp only [List.cons_append, List.nil_append]
        conv_lhs => rw [utf8DecodeCore.eq_def]
        simp only []
        rw [if_neg (by omega), hseq]
        simp only [List.drop_succ_cons, List.drop_zero]
        rw [h, Char.ofNat_toNat]
        rfl
      · have hbytes : utf8Bytes c
            = [0xF0 + c.toNat / 0x40000, 0x80 + c.toNat / 0x1000 % 0x40,
                0x80 + c.toNat / 0x40 % 0x40, 0x80 + c.toNat % 0x40] := by
          simp [utf8Bytes, h1, h2, h3]
        have hseq : utf8Seq (0xF0 + c.toNat / 0x40000)
            ((0x80 + c.toNat / 0x1000 % 0x40) :: (0x80 + c.toNat / 0x40 % 0x40)
              :: (0x80 + c.toNat % 0x40) :: rest)
            = some (c.toNat, 3) := by
          simp only [utf8Seq]
          rw [if_neg (show ¬ (0xC2 ≤ 0xF0 + c.toNat / 0x40000
            ∧ 0xF0 + c.toNat / 0x40000 ≤ 0xDF) by omega)]
          rw [if_neg (show ¬ (0xE0 ≤ 0xF0 + c.toNat / 0x40000
            ∧ 0xF0 + c.toNat / 0x40000 ≤ 0xEF) by omega)]
          rw [if_pos (show 0xF0 ≤ 0xF0 + c.toNat / 0x40000
            ∧ 0xF0 + c.toNat / 0x40000 ≤ 0xF4 by constructor <;> omega)]
          rw [if_pos (show
            (if 0xF0 + c.toNat / 0x40000 = 0xF0 then (0x90 : Nat) else 0x80)
                ≤ 0x80 + c.toNat / 0x1000 % 0x40
              ∧ 0x80 + c.toNat / 0x1000 % 0x40
                ≤ (if 0xF0 + c.toNat / 0x40000 = 0xF4 then (0x8F : Nat) else 0xBF)
              ∧ isCont (0x80 + c.toNat / 0x40 % 0x40) = true
              ∧ isCont (0x80 + c.toNat % 0x40) = true by
            refine ⟨?_, ?_, by simp [isCont]; omega, by simp [isCont]; omega⟩ <;>
              split_ifs <;> omega)]
          simp only [Option.some.injEq, Prod.mk.injEq]
          exact ⟨by omega, trivial⟩
        rw [hbytes]
        simp only [List.cons_append, List.nil_append]
        conv_lhs => rw [utf8DecodeCore.eq_def]
        simp only []
        rw [if_neg (by omega), hseq]
        simp only [List.drop_succ_cons, List.drop_zero]
        rw [h, Char.ofNat_toNat]
        rfl

/-- The UTF-8 decoder inverts the encoder (in both strictness modes). -/
theorem utf8DecodeCore_encode (strict : Bool) (s : Str) :
    utf8DecodeCore strict (utf8Encode s) = some s := by
  induction s with
  | nil =>
    have henc : utf8Encode [] = [] := rfl
    rw [henc]
    conv_lhs => rw [utf8DecodeCore.eq_def]
  | cons c t ih =>
    have henc : utf8Encode (c :: t) = utf8Bytes c ++ utf8Encode t := by
      simp [utf8Encode]
    rw [henc]
    exact utf8DecodeCore_encChar strict c _ t ih

/-- `TextDecoder` inverts `TextEncoder`. -/
theorem utf8DecodeLenient_encode (s : Str) : utf8DecodeLenient (utf8Encode s) = s := by
  rw [utf8DecodeLenient_eq, utf8DecodeCore_encode]
  rfl

/-- `fromBase64UrlToUtf8` inverts `toBase64UrlFromUtf8` exactly. -/
theorem fromBase64Url_roundtrip (s : Str) :
    fromBase64UrlToUtf8 (toBase64UrlFromUtf8 s) = some s := by
  rw [fromBase64Url_to, utf8DecodeLenient_encode]

/- ───────── JSON string literal round trip ───────── -/

/-- Hex digits decode their own value. -/
theorem hexVal_digitChar : ∀ d < 16, hexVal (Nat.digitChar d) = some d := by decide

/-- Evaluation of `jpStrTok` on a `\u00XX` escape. -/
theorem jpStrTok_u00 (c3 c4 : Char) (a3 a4 : Nat) (tail : Str)
    (h3 : hexVal c3 = some a3) (h4 : hexVal c4 = some a4) (hn : a3 * 16 + a4 < 0xD800) :
    jpStrTok ('\\' :: 'u' :: '0' :: '0' :: c3 :: c4 :: tail)
      = some (some (Char.ofNat (a3 * 16 + a4)), 5) := by
  have hstep : jpStrTok ('\\' :: 'u' :: '0' :: '0' :: c3 :: c4 :: tail)
      = jpStrTokU ('0' :: '0' :: c3 :: c4 :: tail) := by
    simp [jpStrTok]
  rw [hstep]
  simp only [jpStrTokU, h3, h4, show hexVal '0' = some 0 from rfl]
  rw [if_neg (by omega), if_neg (by omega)]
  norm_num

/-- `jpStrTok` reads one escaped character and reports its width. -/
theorem jpStrTok_escape (c : Char) (tail : Str) :
    jpStrTok (jsonEscapeChar c ++ tail)
      = some (some c, (jsonEscapeChar c).length - 1)
    ∧ 1 ≤ (jsonEscapeChar c).length := by
  have hb := char_toNat_bounds c
  unfold jsonEscapeChar
  split_ifs with h1 h2 h3 h4 h5 h6 h7 h8
  · subst h1; exact ⟨by simp [jpStrTok], by simp⟩
  · subst h2; exact ⟨by simp [jpStrTok], by simp⟩
  · subst h3; exact ⟨by simp [jpStrTok], by simp⟩
  · subst h4; exact ⟨by simp [jpStrTok], by simp⟩
  · subst h5; exact ⟨by simp [jpStrTok], by simp⟩
  · subst h6; exact ⟨by simp [jpStrTok], by simp⟩
  · subst h7; exact ⟨by simp [jpStrTok], by simp⟩
  · refine ⟨?_, by simp⟩
    by_cases hlow : c.toNat < 16
    · have hhex : natToHex c.toNat = [Nat.digitChar c.toNat] := by
        unfold natToHex
        rw [dif_pos hlow]
      have hpad : padStart [Nat.digitChar c.toNat] 4 '0'
          = ['0', '0', '0', Nat.digitChar c.toNat] := by
        simp [padStart, List.replicate]
      rw [hhex, hpad]
      simp only [List.cons_append, List.nil_append, List.length_cons, List.length_nil]
      rw [jpStrTok_u00 '0' (Nat.digitChar c.toNat) 0 c.toNat tail rfl
        (hexVal_digitChar c.toNat (by omega)) (by omega)]
      have hv : (0 : Nat) * 16 + c.toNat = c.toNat := by omega
      rw [hv, Char.ofNat_toNat]
    · have hdiv : c.toNat / 16 = 1 := by omega
      have hhex : natToHex c.toNat = ['1', Nat.digitChar (c.toNat % 16)] := by
        unfold natToHex
        rw [dif_neg (by omega), hdiv]
        rw [show natToHex 1 = ['1'] by unfold natToHex; rw [dif_pos (by omega)]; rfl]
        rfl
      have hpad : padStart ['1', Nat.digitChar (c.toNat % 16)] 4 '0'
          = ['0', '0', '1', Nat.digitChar (c.toNat % 16)] := by
        simp [padStart, List.replicate]
      rw [hhex, hpad]
      simp only [List.cons_append, List.nil_append, List.length_cons, List.length_nil]
      rw [jpStrTok_u00 '1' (Nat.digitChar (c.toNat % 16)) 1 (c.toNat % 16) tail rfl
        (hexVal_digitChar (c.toNat % 16) (by omega)) (by omega)]
      have hv : (1 : Nat) * 16 + c.toNat % 16 = c.toNat := by omega
      rw [hv, Char.ofNat_toNat]
  · refine ⟨?_, by simp⟩
    simp only [List.cons_append, List.nil_append]
    rw [jpStrTok.eq_def]
    split
    · simp_all
    · rename_i heq
      injection heq with hc htail
      subst hc
      rw [if_neg h1, if_neg h2, if_neg h8]
      simp

/-- The string-body parser inverts JSON escaping. -/
theorem jpStringBodyGo_succ (fuel : Nat) (c0 : Char) (s1 : Str) :
    jpStringBodyGo (fuel + 1) (c0 :: s1)
      = (match jpStrTok (c0 :: s1) with
        | none => none
        | some (none, _) => some ([], s1)
        | some (some c, k) =>
          (jpStringBodyGo fuel (s1.drop k)).map fun (cs, r) => (c :: cs, r)) := rfl

theorem jpStringBodyGo_irrel : ∀ f1 f2 s, s.length < f1 → s.length < f2 →
    jpStringBodyGo f1 s = jpStringBodyGo f2 s := by
  intro f1
  induction f1 with
  | zero =>
      intro f2 s h1 _
      omega
  | succ g ih =>
      intro f2 s h1 h2
      cases f2 with
      | zero => omega
      | succ f3 =>
          cases s with
          | nil => rfl
          | cons c0 s1 =>
              rw [jpStringBodyGo_succ, jpStringBodyGo_succ]
              cases htok : jpStrTok (c0 :: s1) with
              | none => rfl
              | some pr =>
                  obtain ⟨oc, k⟩ := pr
                  cases oc with
                  | none => rfl
                  | some c =>
                      simp only []
                      rw [ih f3 (s1.drop k)
                        (by simp only [List.length_drop]; simp at h1; omega)
                        (by simp only [List.length_drop]; simp at h2; omega)]

theorem jpStringBody_unfold (c0 : Char) (s1 : Str) :
    jpStringBody (c0 :: s1)
      = (match jpStrTok (c0 :: s1) with
        | none => none
        | some (none, _) => some ([], s1)
        | some (some c, k) =>
          (jpStringBody (s1.drop k)).map fun (cs, r) => (c :: cs, r)) := by
  show jpStringBodyGo ((c0 :: s1).length + 1) (c0 :: s1) = _
  rw [show (c0 :: s1).length + 1 = s1.length + 1 + 1 from by simp,
    jpStringBodyGo_succ]
  cases htok : jpStrTok (c0 :: s1) with
  | none => rfl
  | some pr =>
      obtain ⟨oc, k⟩ := pr
      cases oc with
      | none => rfl
      | some c =>
          simp only []
          rw [jpStringBodyGo_irrel (s1.length + 1) ((s1.drop k).length + 1) (s1.drop k)
            (by simp only [List.length_drop]; omega) (by omega)]
          rfl

theorem jpStringBody_enc (s rest : Str) :
    jpStringBody (s.flatMap jsonEscapeChar ++ '"' :: rest) = some (s, rest) := by
  induction s generalizing rest with
  | nil =>
    rw [show ([] : Str).flatMap jsonEscapeChar = [] from rfl, List.nil_append]
    rw [jpStringBody_unfold]
    simp [jpStrTok]
  | cons c t ih =>
    have hesc := jpStrTok_escape c (t.flatMap jsonEscapeChar ++ '"' :: rest)
    obtain ⟨e0, etail, he⟩ : ∃ e0 etail, jsonEscapeChar c = e0 :: etail := by
      rcases h : jsonEscapeChar c with _ | ⟨e0, etail⟩
      · exfalso
        have h2 := hesc.2
        rw [h] at h2
        simp at h2
      · exact ⟨_, _, rfl⟩
    have hinput : (c :: t).flatMap jsonEscapeChar ++ '"' :: rest
        = e0 :: (etail ++ (t.flatMap jsonEscapeChar ++ '"' :: rest)) := by
      rw [List.flatMap_cons, he]
      simp
    rw [hinput, jpStringBody_unfold]
    have hback : e0 :: (etail ++ (t.flatMap jsonEscapeChar ++ '"' :: rest))
        = jsonEscapeChar c ++ (t.flatMap jsonEscapeChar ++ '"' :: rest) := by
      rw [he]; rfl
    rw [hback, hesc.1]
    simp only []
    have hdrop : (etail ++ (t.flatMap jsonEscapeChar ++ '"' :: rest)).drop
        ((jsonEscapeChar c).length - 1) = t.flatMap jsonEscapeChar ++ '"' :: rest := by
      rw [he]
      simp
    rw [hdrop, ih]
    rfl

/- ───────── JSON number token round trip ───────── -/

/-- Take/drop-while distribute over an append whose boundary stops the
predicate. -/
theorem tw_append (p : Char → Bool) (t X : Str)
    (h : t.dropWhile p ≠ [] ∨ ∀ c, X.head? = some c → p c = false) :
    (t ++ X).takeWhile p = t.takeWhile p
    ∧ (t ++ X).dropWhile p = t.dropWhile p ++ X := by
  induction t with
  | nil =>
    simp only [List.dropWhile_nil, List.takeWhile_nil, List.nil_append] at *
    rcases h with h | h
    · exact absurd rfl h
    · cases X with
      | nil => simp
      | cons c X2 =>
        have hc := h c rfl
        simp [List.takeWhile_cons, List.dropWhile_cons, hc]
  | cons c t2 ih =>
    by_cases hp : p c
    · have hdw : (c :: t2).dropWhile p = t2.dropWhile p := by
        simp [List.dropWhile_cons, hp]
      rw [hdw] at h
      obtain ⟨h1, h2⟩ := ih h
      constructor
      · simp [List.cons_append, List.takeWhile_cons, hp, h1]
      · simp [List.cons_append, List.dropWhile_cons, hp, h2]
    · constructor
      · simp [List.cons_append, List.takeWhile_cons, hp]
      · simp [List.cons_append, List.dropWhile_cons, hp]

/-- Evaluation of `jpIntDigits` on a non-zero head. -/
theorem jpIntDigits_cons_ne0 (c : Char) (t : Str) (hc : ¬ c = '0') :
    jpIntDigits (c :: t)
      = if isDigitCh c then
          some (c :: t.takeWhile isDigitCh, t.dropWhile isDigitCh)
        else none := by
  rw [jpIntDigits.eq_def]
  split
  · rename_i heq
    exfalso
    injection heq with h1 _
    exact hc h1
  · rename_i c2 t2 _ heq
    injection heq with h1 h2
    subst h1
    subst h2
    rfl
  · rename_i heq
    exact absurd heq (by simp)

/-- Appending to the input of a successful `jpIntDigits` appends to the
remainder, provided the boundary cannot extend the digits. -/
theorem jpIntDigits_append (s X ip s2 : Str)
    (h : jpIntDigits s = some (ip, s2))
    (hcond : s2 ≠ [] ∨ ∀ c, X.head? = some c → isDigitCh c = false) :
    jpIntDigits (s ++ X) = some (ip, s2 ++ X) ∧ s = ip ++ s2 := by
  rcases s with _ | ⟨c, t⟩
  · exact absurd h (by simp [jpIntDigits])
  · by_cases hc : c = '0'
    · subst hc
      rw [show jpIntDigits ('0' :: t) = some (['0'], t) from rfl] at h
      simp only [Option.some.injEq, Prod.mk.injEq] at h
      obtain ⟨hip, hs2⟩ := h
      subst hip
      subst hs2
      exact ⟨rfl, rfl⟩
    · rw [jpIntDigits_cons_ne0 c t hc] at h
      by_cases hd : isDigitCh c
      · rw [if_pos hd] at h
        simp only [Option.some.injEq, Prod.mk.injEq] at h
        obtain ⟨hip, hs2⟩ := h
        subst hip
        subst hs2
        have hcond2 : t.dropWhile isDigitCh ≠ []
            ∨ ∀ c, X.head? = some c → isDigitCh c = false := hcond
        obtain ⟨htw, hdw⟩ := tw_append isDigitCh t X hcond2
        constructor
        · rw [List.cons_append, jpIntDigits_cons_ne0 c _ hc, if_pos hd, htw, hdw]
        · rw [List.cons_append, List.takeWhile_append_dropWhile]
      · rw [if_neg hd] at h
        exact absurd h (by simp)

/-- Heads of a delimiter continuation extend no numeric token. -/
theorem delim_head_facts (X : Str) (hX : delimB X = true) :
    ∀ c, X.head? = some c →
      isDigitCh c = false ∧ ¬ c = '.' ∧ ¬ c = '-' ∧ ¬ c = '+' ∧ ¬ (c = 'e' ∨ c = 'E') := by
  intro c hc
  cases X with
  | nil => simp at hc
  | cons c0 X2 =>
    simp only [List.head?] at hc
    injection hc with hc
    subst hc
    simp only [delimB, decide_eq_true_eq] at hX
    rcases hX with h | h | h <;> subst h <;> refine ⟨by decide, by decide, by decide,
      by decide, by decide⟩

/-- Evaluation of `jpNumFrac` away from a dot. -/
theorem jpNumFrac_nodot (c : Char) (r : Str) (hc : ¬ c = '.') :
    jpNumFrac (c :: r) = ([], c :: r) := by
  rw [jpNumFrac.eq_def]
  split
  · rename_i heq
    exfalso
    injection heq with h1 _
    exact hc h1
  · rfl

/-- Appending a delimiter continuation to `jpNumFrac`'s input appends to
its remainder. -/
theorem jpNumFrac_append (s2 X fp s3 : Str) (h : jpNumFrac s2 = (fp, s3))
    (hX : delimB X = true) :
    jpNumFrac (s2 ++ X) = (fp, s3 ++ X) := by
  have hfacts := delim_head_facts X hX
  rcases s2 with _ | ⟨c, r⟩
  · rw [show jpNumFrac [] = ([], []) from rfl] at h
    injection h with h1 h2
    subst h1
    subst h2
    simp only [List.nil_append]
    cases X with
    | nil => rfl
    | cons c0 X2 =>
      obtain ⟨_, hdot, _⟩ := hfacts c0 rfl
      exact jpNumFrac_nodot c0 X2 hdot
  · by_cases hc : c = '.'
    · subst hc
      rw [show jpNumFrac ('.' :: r) = (let ds := r.takeWhile isDigitCh;
        if ds = [] then (([] : Str), '.' :: r)
        else ('.' :: ds, r.dropWhile isDigitCh)) from rfl] at h
      simp only [] at h
      by_cases hds : r.takeWhile isDigitCh = []
      · rw [if_pos hds] at h
        injection h with h1 h2
        subst h1
        subst h2
        rw [List.cons_append]
        rw [show jpNumFrac ('.' :: (r ++ X)) = (let ds := (r ++ X).takeWhile isDigitCh;
          if ds = [] then (([] : Str), '.' :: (r ++ X))
          else ('.' :: ds, (r ++ X).dropWhile isDigitCh)) from rfl]
        simp only []
        have hstop : (r ++ X).takeWhile isDigitCh = [] := by
          cases r with
          | nil =>
            simp only [List.nil_append]
            cases X with
            | nil => rfl
            | cons c0 X2 =>
              obtain ⟨hd0, _⟩ := hfacts c0 rfl
              simp [List.takeWhile_cons, hd0]
          | cons r0 r2 =>
            simp only [List.cons_append, List.takeWhile_cons] at hds ⊢
            by_cases hr0 : isDigitCh r0
            · rw [if_pos hr0] at hds
              simp at hds
            · rw [if_neg hr0]
        rw [if_pos hstop]
      · rw [if_neg hds] at h
        injection h with h1 h2
        subst h1
        subst h2
        rw [List.cons_append]
        rw [show jpNumFrac ('.' :: (r ++ X)) = (let ds := (r ++ X).takeWhile isDigitCh;
          if ds = [] then (([] : Str), '.' :: (r ++ X))
          else ('.' :: ds, (r ++ X).dropWhile isDigitCh)) from rfl]
        simp only []
        have hcond : r.dropWhile isDigitCh ≠ [] ∨ ∀ c, X.head? = some c
            → isDigitCh c = false := Or.inr (fun c hc => (hfacts c hc).1)
        obtain ⟨htw, hdw⟩ := tw_append isDigitCh r X hcond
        rw [htw, hdw, if_neg hds]
    · rw [jpNumFrac_nodot c r hc] at h
      injection h with h1 h2
      subst h1
      subst h2
      rw [List.cons_append, jpNumFrac_nodot c (r ++ X) hc]

/-- Evaluation of `jpExpSign` away from a sign character. -/
theorem jpExpSign_nosign (c : Char) (r : Str) (hp : ¬ c = '+') (hm : ¬ c = '-') :
    jpExpSign (c :: r) = ([], c :: r) := by
  rw [jpExpSign.eq_def]
  split
  · rename_i heq
    exfalso
    injection heq with h1 _
    exact hp h1
  · rename_i heq
    exfalso
    injection heq with h1 _
    exact hm h1
  · rfl

/-- Appending a delimiter continuation commutes with `jpExpSign`. -/
theorem jpExpSign_append (r X sg r1 : Str) (h : jpExpSign r = (sg, r1))
    (hX : delimB X = true) :
    jpExpSign (r ++ X) = (sg, r1 ++ X) := by
  have hfacts := delim_head_facts X hX
  rcases r with _ | ⟨c, r2⟩
  · rw [show jpExpSign [] = ([], []) from rfl] at h
    injection h with h1 h2
    subst h1
    subst h2
    simp only [List.nil_append]
    cases X with
    | nil => rfl
    | cons c0 X2 =>
      obtain ⟨_, _, hm, hp, _⟩ := hfacts c0 rfl
      exact jpExpSign_nosign c0 X2 hp hm
  · by_cases hp : c = '+'
    · subst hp
      rw [show jpExpSign ('+' :: r2) = (['+'], r2) from rfl] at h
      injection h with h1 h2
      subst h1
      subst h2
      rfl
    · by_cases hm : c = '-'
      · subst hm
        rw [show jpExpSign ('-' :: r2) = (['-'], r2) from rfl] at h
        injection h with h1 h2
        subst h1
        subst h2
        rfl
      · rw [jpExpSign_nosign c r2 hp hm] at h
        injection h with h1 h2
        subst h1
        subst h2
        rw [List.cons_append, jpExpSign_nosign c (r2 ++ X) hp hm]

/-- Evaluation of `jpNumExp` away from an exponent marker. -/
theorem jpNumExp_noe (c : Char) (r : Str) (hc : ¬ (c = 'e' ∨ c = 'E')) :
    jpNumExp (c :: r) = ([], c :: r) := by
  rw [jpNumExp.eq_def]
  simp only []
  rw [if_neg hc]

/-- Empty take-while survives a delimiter continuation. -/
theorem takeWhile_nil_append (r1 X : Str) (hds : r1.takeWhile isDigitCh = [])
    (hX : delimB X = true) : (r1 ++ X).takeWhile isDigitCh = [] := by
  have hfacts := delim_head_facts X hX
  cases r1 with
  | nil =>
    simp only [List.nil_append]
    cases X with
    | nil => rfl
    | cons c0 X2 =>
      obtain ⟨hd0, _⟩ := hfacts c0 rfl
      simp [List.takeWhile_cons, hd0]
  | cons r0 r2 =>
    simp only [List.cons_append, List.takeWhile_cons] at hds ⊢
    by_cases hr0 : isDigitCh r0
    · rw [if_pos hr0] at hds
      simp at hds
    · rw [if_neg hr0]

/-- Appending a delimiter continuation to `jpNumExp`'s input appends to
its remainder. -/
theorem jpNumExp_append (s3 X ep s4 : Str) (h : jpNumExp s3 = (ep, s4))
    (hX : delimB X = true) :
    jpNumExp (s3 ++ X) = (ep, s4 ++ X) := by
  have hfacts := delim_head_facts X hX
  rcases s3 with _ | ⟨e, r⟩
  · rw [show jpNumExp [] = ([], []) from rfl] at h
    injection h with h1 h2
    subst h1
    subst h2
    simp only [List.nil_append]
    cases X with
    | nil => rfl
    | cons c0 X2 =>
      obtain ⟨_, _, _, _, he⟩ := hfacts c0 rfl
      exact jpNumExp_noe c0 X2 he
  · by_cases he : e = 'e' ∨ e = 'E'
    · obtain ⟨sg, r1, hsign⟩ : ∃ sg r1, jpExpSign r = (sg, r1) := ⟨_, _, rfl⟩
      rw [jpNumExp.eq_def] at h
      simp only [] at h
      rw [if_pos he, hsign] at h
      simp only [] at h
      rw [List.cons_append, jpNumExp.eq_def]
      simp only []
      rw [if_pos he, jpExpSign_append r X sg r1 hsign hX]
      simp only []
      by_cases hds : r1.takeWhile isDigitCh = []
      · rw [if_pos hds] at h
        injection h with h1 h2
        subst h1
        subst h2
        rw [if_pos (takeWhile_nil_append r1 X hds hX)]
        rfl
      · rw [if_neg hds] at h
        injection h with h1 h2
        subst h1
        subst h2
        have hcond : r1.dropWhile isDigitCh ≠ [] ∨ ∀ c, X.head? = some c
            → isDigitCh c = false := Or.inr (fun c hc => (hfacts c hc).1)
        obtain ⟨htw, hdw⟩ := tw_append isDigitCh r1 X hcond
        rw [htw, hdw, if_neg hds]
    · rw [jpNumExp_noe e r he] at h
      injection h with h1 h2
      subst h1
      subst h2
      rw [List.cons_append, jpNumExp_noe e (r ++ X) he]

/-- A complete number token reparses in front of any delimiter
continuation. -/
theorem jpNumber_append (r X : Str) (hr : jpNumber r = some (r, []))
    (hX : delimB X = true) :
    jpNumber (r ++ X) = some (r, X) := by
  have hfacts := delim_head_facts X hX
  obtain ⟨neg, s1, hsg⟩ : ∃ neg s1, jpNumSign r = (neg, s1) := ⟨_, _, rfl⟩
  have hsg2 : jpNumSign (r ++ X) = (neg, s1 ++ X) := by
    rcases r with _ | ⟨c, t⟩
    · exfalso
      rw [show jpNumber [] = none from rfl] at hr
      exact Option.noConfusion hr
    · by_cases hm : c = '-'
      · subst hm
        rw [show jpNumSign ('-' :: t) = (['-'], t) from rfl] at hsg
        injection hsg with h1 h2
        subst h1
        subst h2
        rfl
      · have hgen : jpNumSign (c :: t) = ([], c :: t) := by
          rw [jpNumSign.eq_def]
          split
          · rename_i heq
            exfalso
            injection heq with h1 _
            exact hm h1
          · rfl
        rw [hgen] at hsg
        injection hsg with h1 h2
        subst h1
        subst h2
        rw [List.cons_append]
        rw [show jpNumSign (c :: (t ++ X)) = ([], c :: (t ++ X)) by
          rw [jpNumSign.eq_def]
          split
          · rename_i heq
            exfalso
            injection heq with h1 _
            exact hm h1
          · rfl]
  rw [jpNumber.eq_def, hsg] at hr
  simp only [] at hr
  rw [jpNumber.eq_def, hsg2]
  simp only []
  match hid : jpIntDigits s1 with
  | none =>
    rw [hid] at hr
    exact Option.noConfusion hr
  | some (ip, s2) =>
    rw [hid] at hr
    simp only [] at hr
    obtain ⟨hid2, _⟩ := jpIntDigits_append s1 X ip s2 hid
      (Or.inr fun c hc => (hfacts c hc).1)
    rw [hid2]
    simp only []
    obtain ⟨fp, s3, hfp⟩ : ∃ fp s3, jpNumFrac s2 = (fp, s3) := ⟨_, _, rfl⟩
    rw [hfp] at hr
    simp only [] at hr
    rw [jpNumFrac_append s2 X fp s3 hfp hX]
    simp only []
    obtain ⟨ep, s4, hep⟩ : ∃ ep s4, jpNumExp s3 = (ep, s4) := ⟨_, _, rfl⟩
    rw [hep] at hr
    simp only [] at hr
    rw [jpNumExp_append s3 X ep s4 hep hX]
    simp only []
    injection hr with hr
    injection hr with htok hs4
    rw [htok, hs4]
    simp

/-- Character-class membership in terms of scalar values. -/
theorem isDigitCh_iff (c : Char) : isDigitCh c = true ↔ 48 ≤ c.toNat ∧ c.toNat ≤ 57 := by
  simp only [isDigitCh, decide_eq_true_eq, Char.le_def]
  constructor
  · rintro ⟨h1, h2⟩
    exact ⟨by exact_mod_cast h1, by exact_mod_cast h2⟩
  · rintro ⟨h1, h2⟩
    exact ⟨by exact_mod_cast h1, by exact_mod_cast h2⟩

/-- Digits are not JSON whitespace. -/
theorem digit_not_ws (c : Char) (h : isDigitCh c = true) : isJsonWs c = false := by
  rw [isDigitCh_iff] at h
  simp only [isJsonWs, decide_eq_false_iff_not, not_or]
  refine ⟨?_, ?_, ?_, ?_⟩ <;> rintro rfl <;> simp at h <;> omega

/-- The head of a complete number token is a minus sign or a digit. -/
theorem numTok_head (r : Str) (hr : jpNumber r = some (r, [])) :
    ∃ c t, r = c :: t ∧ (c = '-' ∨ isDigitCh c = true) := by
  rcases r with _ | ⟨c, t⟩
  · exfalso
    rw [show jpNumber [] = none from rfl] at hr
    exact Option.noConfusion hr
  · refine ⟨c, t, rfl, ?_⟩
    by_cases hm : c = '-'
    · exact Or.inl hm
    · refine Or.inr ?_
      have hgen : jpNumSign (c :: t) = ([], c :: t) := by
        rw [jpNumSign.eq_def]
        split
        · rename_i heq
          exfalso
          injection heq with h1 _
          exact hm h1
        · rfl
      rw [jpNumber.eq_def, hgen] at hr
      simp only [] at hr
      by_cases h0 : c = '0'
      · subst h0
        decide
      · rw [jpIntDigits_cons_ne0 c t h0] at hr
        by_cases hd : isDigitCh c
        · exact hd
        · rw [if_neg hd] at hr
          exact Option.noConfusion hr


theorem jcost_arr (xs : List JsVal) : jcost (.jarr xs) = 1 + ecost xs := by
  unfold jcost ecost
  rw [List.attach_map_val xs (fun v => jcost v + 1)]

theorem jcost_obj (fs : List (Str × JsVal)) : jcost (.jobj fs) = 1 + fcost fs := by
  unfold jcost fcost
  rw [List.attach_map_val fs (fun f => jcost f.2 + 1)]

theorem jcost_pos (v : JsVal) : 1 ≤ jcost v := by
  cases v <;> simp [jcost]

theorem stringify_arr (xs : List JsVal) :
    jsonStringify (.jarr xs)
      = '[' :: List.intercalate [','] (xs.map jsonStringify) ++ [']'] := by
  rw [jsonStringify]
  rw [List.attach_map_val xs jsonStringify]

theorem stringify_obj (fs : List (Str × JsVal)) :
    jsonStringify (.jobj fs)
      = lbrace :: List.intercalate [','] (fs.map fieldStr) ++ [rbrace] := by
  rw [jsonStringify]
  rw [List.attach_map_val fs (fun f => jsonQuote f.1 ++ ':' :: jsonStringify f.2)]
  rfl

theorem parseSafe_arr (xs : List JsVal) :
    parseSafeB (.jarr xs) = true ↔ ∀ x ∈ xs, parseSafeB x = true := by
  rw [parseSafeB]
  simp [List.all_eq_true]

theorem parseSafe_obj (fs : List (Str × JsVal)) :
    parseSafeB (.jobj fs) = true
      ↔ (fs.map (fun f => f.1)).Nodup ∧ ∀ f ∈ fs, parseSafeB f.2 = true := by
  rw [parseSafeB]
  simp [List.all_eq_true]

theorem interc_nil : List.intercalate ([','] : Str) [] = [] := by
  simp [List.intercalate]

theorem interc_one (a : Str) : List.intercalate [','] [a] = a := by
  simp [List.intercalate]

theorem interc_cons (a b : Str) (l : List Str) :
    List.intercalate [','] (a :: b :: l) = a ++ ',' :: List.intercalate [','] (b :: l) := by
  simp [List.intercalate, List.intersperse]

theorem wf_arr (xs : List JsVal) :
    wfInputB (.jarr xs) = true ↔ ∀ x ∈ xs, wfInputB x = true := by
  rw [wfInputB]
  simp [List.all_eq_true]

theorem wf_obj (fs : List (Str × JsVal)) :
    wfInputB (.jobj fs) = true
      ↔ (fs.map (fun f => f.1)).Nodup ∧ ∀ f ∈ fs, wfInputB f.2 = true := by
  rw [wfInputB]
  simp [List.all_eq_true]

theorem jpSkipWs_noop (c : Char) (t : Str) (h : isJsonWs c = false) :
    jpSkipWs (c :: t) = c :: t := by
  simp [jpSkipWs, List.dropWhile, h]

theorem jpInsertField_notmem (k : Str) (v : JsVal) (fs : List (Str × JsVal))
    (h : ∀ f ∈ fs, ¬ f.1 = k) : jpInsertField k v fs = (k, v) :: fs := by
  unfold jpInsertField
  have : fs.find? (fun f => f.1 = k) = none := by
    rw [List.find?_eq_none]
    intro f hf
    simp [h f hf]
  rw [this]

theorem stringify_null : jsonStringify .jnull = strOf "null" := by
  rw [jsonStringify]

theorem stringify_true : jsonStringify (.jbool true) = strOf "true" := by
  rw [jsonStringify]

theorem stringify_false : jsonStringify (.jbool false) = strOf "false" := by
  rw [jsonStringify]

theorem stringify_str (s : Str) : jsonStringify (.jstr s) = jsonQuote s := by
  rw [jsonStringify]

theorem stringify_numfin (r : Str) : jsonStringify (.jnum (.fin r)) = r := by
  rw [jsonStringify]

theorem stringify_head (v : JsVal) (hv : parseSafeB v = true) :
    ∃ c t, jsonStringify v = c :: t ∧ isJsonWs c = false ∧ ¬ c = ']' ∧ ¬ c = rbrace := by
  cases v with
  | jnull => exact ⟨'n', _, by rw [stringify_null]; rfl, by decide, by decide, by decide⟩
  | jbool b =>
      cases b with
      | false => exact ⟨'f', _, by rw [stringify_false]; rfl, by decide, by decide, by decide⟩
      | true => exact ⟨'t', _, by rw [stringify_true]; rfl, by decide, by decide, by decide⟩
  | jstr s =>
      exact ⟨'"', s.flatMap jsonEscapeChar ++ ['"'], by rw [stringify_str]; rfl,
        by decide, by decide, by decide⟩
  | jarr xs =>
      exact ⟨'[', List.intercalate [','] (xs.map jsonStringify) ++ [']'],
        by rw [stringify_arr, List.cons_append], by decide, by decide, by decide⟩
  | jobj fs =>
      exact ⟨lbrace, List.intercalate [','] (fs.map fieldStr) ++ [rbrace],
        by rw [stringify_obj, List.cons_append], by decide, by decide, by decide⟩
  | jbig i => exact absurd hv (by simp [parseSafeB])
  | jundef => exact absurd hv (by simp [parseSafeB])
  | jnum n =>
      cases n with
      | fin r =>
          have hr : jpNumber r = some (r, []) := by
            have h2 : numTokB r = true := by
              rw [parseSafeB] at hv
              exact hv
            rw [numTokB, decide_eq_true_eq] at h2
            exact h2
          obtain ⟨c, t, hct, hc⟩ := numTok_head r hr
          rw [stringify_numfin]
          refine ⟨c, t, hct, ?_, ?_, ?_⟩
          · rcases hc with rfl | hd
            · decide
            · exact digit_not_ws c hd
          · rcases hc with rfl | hd
            · decide
            · rintro rfl; exact absurd hd (by decide)
          · rcases hc with rfl | hd
            · decide
            · rintro rfl; exact absurd hd (by decide)
      | nan => exact absurd hv (by simp [parseSafeB, numTokB])
      | inf => exact absurd hv (by simp [parseSafeB, numTokB])
      | ninf => exact absurd hv (by simp [parseSafeB, numTokB])

theorem ecost_nil : ecost [] = 0 := rfl

theorem ecost_cons (x : JsVal) (xs : List JsVal) :
    ecost (x :: xs) = jcost x + 1 + ecost xs := by
  unfold ecost
  simp [List.sum_cons]

theorem fcost_nil : fcost [] = 0 := rfl

theorem fcost_cons (f : Str × JsVal) (fs : List (Str × JsVal)) :
    fcost (f :: fs) = jcost f.2 + 1 + fcost fs := by
  unfold fcost
  simp [List.sum_cons]

theorem jpVal_num_head (fuel : Nat) (c : Char) (t : Str)
    (hc : c = '-' ∨ isDigitCh c = true) :
    jpVal (fuel + 1) (c :: t)
      = (jpNumber (c :: t)).map fun p => (JsVal.jnum (JNum.fin p.1), p.2) := by
  have hws : isJsonWs c = false := by
    rcases hc with rfl | hd
    · decide
    · exact digit_not_ws c hd
  have hlb : ¬ c = lbrace := by
    rcases hc with rfl | hd
    · decide
    · rintro rfl; exact absurd hd (by decide)
  rw [jpVal.eq_def]
  simp only []
  rw [jpSkipWs_noop c t hws]
  split
  · rename_i heq
    exfalso
    injection heq with h1 _
    subst h1
    rcases hc with h | h
    · exact absurd h (by decide)
    · exact absurd h (by decide)
  · rename_i heq
    exfalso
    injection heq with h1 _
    subst h1
    rcases hc with h | h
    · exact absurd h (by decide)
    · exact absurd h (by decide)
  · rename_i heq
    exfalso
    injection heq with h1 _
    subst h1
    rcases hc with h | h
    · exact absurd h (by decide)
    · exact absurd h (by decide)
  · rename_i heq
    exfalso
    injection heq with h1 _
    subst h1
    rcases hc with h | h
    · exact absurd h (by decide)
    · exact absurd h (by decide)
  · rename_i heq
    exfalso
    injection heq with h1 _
    subst h1
    rcases hc with h | h
    · exact absurd h (by decide)
    · exact absurd h (by decide)
  · rename_i c2 t2 heq
    injection heq with h1 h2
    subst h1
    subst h2
    rw [if_neg hlb, if_pos hc]
  · rename_i heq
    exact absurd heq (by simp)

theorem jp_roundtrip (fuel : Nat) :
    (∀ v rest, parseSafeB v = true → delimB rest = true → jcost v ≤ fuel →
        jpVal fuel (jsonStringify v ++ rest) = some (v, rest))
    ∧ (∀ xs rest, ¬ xs = [] → (∀ x ∈ xs, parseSafeB x = true) → delimB rest = true →
        ecost xs ≤ fuel →
        jpElems fuel (List.intercalate [','] (xs.map jsonStringify) ++ ']' :: rest)
          = some (xs, rest))
    ∧ (∀ fs rest, ¬ fs = [] → (fs.map (fun f => f.1)).Nodup →
        (∀ f ∈ fs, parseSafeB f.2 = true) → delimB rest = true → fcost fs ≤ fuel →
        jpFields fuel (List.intercalate [','] (fs.map fieldStr) ++ rbrace :: rest)
          = some (fs, rest)) := by
  induction fuel with
  | zero =>
      refine ⟨?_, ?_, ?_⟩
      · intro v rest _ _ hf
        have := jcost_pos v
        omega
      · intro xs rest hne _ _ hf
        rcases xs with _ | ⟨x, xs⟩
        · exact absurd rfl hne
        · rw [ecost_cons] at hf
          omega
      · intro fs rest hne _ _ _ hf
        rcases fs with _ | ⟨f0, fs⟩
        · exact absurd rfl hne
        · rw [fcost_cons] at hf
          omega
  | succ f ih =>
      obtain ⟨ih1, ih2, ih3⟩ := ih
      refine ⟨?_, ?_, ?_⟩
      · intro v rest hv hrest hf
        cases v with
        | jnull =>
            rw [stringify_null, show strOf "null" = ['n', 'u', 'l', 'l'] from rfl]
            rw [jpVal.eq_def]
            simp [jpSkipWs, List.dropWhile, isJsonWs]
        | jbool b =>
            cases b with
            | true =>
                rw [stringify_true, show strOf "true" = ['t', 'r', 'u', 'e'] from rfl]
                rw [jpVal.eq_def]
                simp [jpSkipWs, List.dropWhile, isJsonWs]
            | false =>
                rw [stringify_false, show strOf "false" = ['f', 'a', 'l', 's', 'e'] from rfl]
                rw [jpVal.eq_def]
                simp [jpSkipWs, List.dropWhile, isJsonWs]
        | jnum n =>
            cases n with
            | fin r =>
                have hr : jpNumber r = some (r, []) := by
                  have h2 : numTokB r = true := by
                    rw [parseSafeB] at hv
                    exact hv
                  rw [numTokB, decide_eq_true_eq] at h2
                  exact h2
                obtain ⟨c, t, hct, hc⟩ := numTok_head r hr
                rw [stringify_numfin, hct, List.cons_append]
                rw [jpVal_num_head f c (t ++ rest) hc]
                rw [show c :: (t ++ rest) = (c :: t) ++ rest from rfl, ← hct]
                rw [jpNumber_append r rest hr hrest]
                rfl
            | nan => exact absurd hv (by simp [parseSafeB, numTokB])
            | inf => exact absurd hv (by simp [parseSafeB, numTokB])
            | ninf => exact absurd hv (by simp [parseSafeB, numTokB])
        | jbig i => exact absurd hv (by simp [parseSafeB])
        | jundef => exact absurd hv (by simp [parseSafeB])
        | jstr s =>
            have hshape : jsonStringify (JsVal.jstr s) ++ rest
                = '"' :: (s.flatMap jsonEscapeChar ++ '"' :: rest) := by
              rw [stringify_str]
              simp [jsonQuote]
            rw [hshape, jpVal.eq_def]
            simp only []
            rw [jpSkipWs_noop _ _ (by decide)]
            simp only []
            rw [jpStringBody_enc s rest]
            rfl
        | jarr xs =>
            rcases xs with _ | ⟨x, xs⟩
            · rw [stringify_arr, List.map_nil, interc_nil]
              rw [show ('[' :: ([] : Str) ++ [']']) ++ rest = '[' :: ']' :: rest by simp]
              rw [jpVal.eq_def]
              simp [jpSkipWs, List.dropWhile, isJsonWs]
            · have hx := (parseSafe_arr (x :: xs)).mp hv
              have hcost : ecost (x :: xs) ≤ f := by
                rw [jcost_arr] at hf
                omega
              have hshape : jsonStringify (JsVal.jarr (x :: xs)) ++ rest
                  = '[' :: (List.intercalate [','] ((x :: xs).map jsonStringify)
                      ++ ']' :: rest) := by
                rw [stringify_arr]
                simp [List.append_assoc]
              obtain ⟨c0, t0, hct, hws0, hne0, _⟩ := stringify_head x (hx x (by simp))
              obtain ⟨Z, hZ⟩ : ∃ Z,
                  List.intercalate [','] ((x :: xs).map jsonStringify) ++ ']' :: rest
                    = jsonStringify x ++ Z := by
                rcases xs with _ | ⟨y, ys⟩
                · exact ⟨']' :: rest, by rw [List.map_cons, List.map_nil, interc_one]⟩
                · refine ⟨',' :: (List.intercalate [','] ((y :: ys).map jsonStringify)
                    ++ ']' :: rest), ?_⟩
                  rw [List.map_cons, List.map_cons, interc_cons]
                  simp [List.append_assoc]
              have hskip : jpSkipWs (List.intercalate [','] ((x :: xs).map jsonStringify)
                  ++ ']' :: rest) = c0 :: (t0 ++ Z) := by
                rw [hZ, hct, List.cons_append]
                exact jpSkipWs_noop _ _ hws0
              rw [hshape, jpVal.eq_def]
              simp only []
              rw [jpSkipWs_noop _ _ (by decide)]
              simp only []
              rw [hskip]
              split
              · rename_i heq
                exfalso
                injection heq with h1 _
                exact hne0 h1
              · rw [ih2 (x :: xs) rest (by simp) hx hrest hcost]
                rfl
        | jobj fs =>
            rcases fs with _ | ⟨f0, fs⟩
            · rw [stringify_obj, List.map_nil, interc_nil]
              rw [show (lbrace :: ([] : Str) ++ [rbrace]) ++ rest
                = lbrace :: rbrace :: rest by simp]
              rw [jpVal.eq_def]
              simp [jpSkipWs, List.dropWhile, isJsonWs, lbrace, rbrace]
            · have hsafe := (parseSafe_obj (f0 :: fs)).mp hv
              have hcost : fcost (f0 :: fs) ≤ f := by
                rw [jcost_obj] at hf
                omega
              have hshape : jsonStringify (JsVal.jobj (f0 :: fs)) ++ rest
                  = lbrace :: (List.intercalate [','] ((f0 :: fs).map fieldStr)
                      ++ rbrace :: rest) := by
                rw [stringify_obj]
                simp [List.append_assoc]
              obtain ⟨Z, hZ⟩ : ∃ Z,
                  List.intercalate [','] ((f0 :: fs).map fieldStr) ++ rbrace :: rest
                    = '"' :: (f0.1.flatMap jsonEscapeChar ++ Z) := by
                rcases fs with _ | ⟨g, gs⟩
                · refine ⟨'"' :: ':' :: (jsonStringify f0.2 ++ rbrace :: rest), ?_⟩
                  rw [List.map_cons, List.map_nil, interc_one]
                  simp [fieldStr, jsonQuote, List.append_assoc]
                · refine ⟨'"' :: ':' :: (jsonStringify f0.2
                    ++ ',' :: (List.intercalate [','] ((g :: gs).map fieldStr)
                      ++ rbrace :: rest)), ?_⟩
                  rw [List.map_cons, List.map_cons, interc_cons]
                  simp [fieldStr, jsonQuote, List.append_assoc]
              have hskip : jpSkipWs (List.intercalate [','] ((f0 :: fs).map fieldStr)
                  ++ rbrace :: rest) = '"' :: (f0.1.flatMap jsonEscapeChar ++ Z) := by
                rw [hZ]
                exact jpSkipWs_noop _ _ (by decide)
              rw [hshape, jpVal.eq_def]
              simp only []
              rw [jpSkipWs_noop _ _ (by decide)]
              split
              · rename_i heq
                exfalso
                injection heq with h1 _
                exact absurd h1 (by decide)
              · rename_i heq
                exfalso
                injection heq with h1 _
                exact absurd h1 (by decide)
              · rename_i heq
                exfalso
                injection heq with h1 _
                exact absurd h1 (by decide)
              · rename_i heq
                exfalso
                injection heq with h1 _
                exact absurd h1 (by decide)
              · rename_i heq
                exfalso
                injection heq with h1 _
                exact absurd h1 (by decide)
              · rename_i c2 t2 heq
                injection heq with h1 h2
                subst h1
                subst h2
                rw [if_pos rfl]
                rw [hskip]
                simp only []
                rw [if_neg (show ¬ ('"' = rbrace) by decide)]
                rw [ih3 (f0 :: fs) rest (by simp) hsafe.1 hsafe.2 hrest hcost]
                rfl
              · rename_i heq
                exact absurd heq (by simp)
      · intro xs rest hne hall hrest hfc
        rcases xs with _ | ⟨x, xs⟩
        · exact absurd rfl hne
        · rw [jpElems.eq_def]
          simp only []
          rcases xs with _ | ⟨y, ys⟩
          · rw [List.map_cons, List.map_nil, interc_one]
            rw [ih1 x (']' :: rest) (hall x (by simp)) rfl
              (by rw [ecost_cons] at hfc; omega)]
            simp only []
            rw [jpSkipWs_noop _ _ (by decide)]
            simp [hrest]
          · have hshape : List.intercalate [','] ((x :: y :: ys).map jsonStringify)
                ++ ']' :: rest
                = jsonStringify x ++ (',' :: (List.intercalate [',']
                    ((y :: ys).map jsonStringify) ++ ']' :: rest)) := by
              rw [List.map_cons, List.map_cons, interc_cons]
              simp [List.append_assoc]
            rw [hshape]
            rw [ih1 x (',' :: (List.intercalate [','] ((y :: ys).map jsonStringify)
              ++ ']' :: rest)) (hall x (by simp)) rfl
              (by rw [ecost_cons] at hfc; omega)]
            simp only []
            rw [jpSkipWs_noop _ _ (by decide)]
            simp only []
            rw [ih2 (y :: ys) rest (by simp)
              (fun z hz => hall z (List.mem_cons_of_mem _ hz))
              hrest (by rw [ecost_cons] at hfc; omega)]
            rfl
      · intro fs rest hne hnodup hall hrest hfc
        rcases fs with _ | ⟨⟨k, v⟩, fs⟩
        · exact absurd rfl hne
        · rw [jpFields.eq_def]
          simp only []
          rcases fs with _ | ⟨g, gs⟩
          · have hshape : List.intercalate [','] ([((k, v) : Str × JsVal)].map fieldStr)
                ++ rbrace :: rest
                = '"' :: (k.flatMap jsonEscapeChar
                    ++ '"' :: ':' :: (jsonStringify v ++ rbrace :: rest)) := by
              rw [List.map_cons, List.map_nil, interc_one]
              simp [fieldStr, jsonQuote, List.append_assoc]
            rw [hshape]
            rw [jpSkipWs_noop _ _ (by decide)]
            simp only []
            rw [jpStringBody_enc k (':' :: (jsonStringify v ++ rbrace :: rest))]
            simp only []
            rw [jpSkipWs_noop _ _ (by decide)]
            simp only []
            rw [ih1 v (rbrace :: rest) (hall (k, v) (by simp)) rfl
              (by rw [fcost_cons] at hfc; simp at hfc; omega)]
            simp only []
            rw [jpSkipWs_noop _ _ (by decide)]
            split
            · rename_i heq
              exfalso
              injection heq with h1 _
              exact absurd h1.symm (by decide)
            · rename_i c4 r4 hnm heq
              injection heq with h1 h2
              subst h1
              subst h2
              rw [if_pos rfl]
            · rename_i heq
              exact absurd heq (by simp)
          · have hshape : List.intercalate [',']
                ((((k, v) : Str × JsVal) :: g :: gs).map fieldStr) ++ rbrace :: rest
                = '"' :: (k.flatMap jsonEscapeChar
                    ++ '"' :: ':' :: (jsonStringify v
                      ++ ',' :: (List.intercalate [','] ((g :: gs).map fieldStr)
                        ++ rbrace :: rest))) := by
              rw [List.map_cons, List.map_cons, interc_cons]
              simp [fieldStr, jsonQuote, List.append_assoc]
            rw [hshape]
            rw [jpSkipWs_noop _ _ (by decide)]
            simp only []
            rw [jpStringBody_enc k (':' :: (jsonStringify v
              ++ ',' :: (List.intercalate [','] ((g :: gs).map fieldStr)
                ++ rbrace :: rest)))]
            simp only []
            rw [jpSkipWs_noop _ _ (by decide)]
            simp only []
            rw [ih1 v (',' :: (List.intercalate [','] ((g :: gs).map fieldStr)
              ++ rbrace :: rest)) (hall (k, v) (by simp)) rfl
              (by rw [fcost_cons] at hfc; simp at hfc; omega)]
            simp only []
            rw [jpSkipWs_noop _ _ (by decide)]
            simp only []
            have hsplit := List.nodup_cons.mp
              (show ((k : Str) :: (g :: gs).map (fun f => f.1)).Nodup from hnodup)
            have hknotin : ∀ z ∈ g :: gs, ¬ z.1 = k := by
              intro z hz hzk
              exact hsplit.1 (by
                simpa [hzk] using List.mem_map_of_mem (fun f => f.1) hz)
            rw [ih3 (g :: gs) rest (by simp) hsplit.2
              (fun z hz => hall z (List.mem_cons_of_mem _ hz)) hrest
              (by rw [fcost_cons] at hfc; simp at hfc; omega)]
            simp [jpInsertField_notmem k v (g :: gs) hknotin]

theorem jsonQuote_len (s : Str) : (jsonQuote s).length = (s.flatMap jsonEscapeChar).length + 2 := by
  simp [jsonQuote]

theorem fieldStr_len (g : Str × JsVal) :
    (fieldStr g).length = (jsonQuote g.1).length + 1 + (jsonStringify g.2).length := by
  simp [fieldStr]
  omega

theorem jcost_le_aux : ∀ n v, sizeOf v ≤ n → parseSafeB v = true →
    jcost v ≤ (jsonStringify v).length := by
  intro n
  induction n with
  | zero =>
      intro v h _
      exact absurd h (by cases v <;> simp)
  | succ N ihN =>
      intro v hsz hv
      cases v with
      | jnull => rw [stringify_null]; simp [jcost, strOf]
      | jbool b =>
          cases b with
          | true => rw [stringify_true]; simp [jcost, strOf]
          | false => rw [stringify_false]; simp [jcost, strOf]
      | jstr s => rw [stringify_str]; simp [jcost, jsonQuote]
      | jbig i => exact absurd hv (by simp [parseSafeB])
      | jundef => exact absurd hv (by simp [parseSafeB])
      | jnum m =>
          cases m with
          | fin r =>
              have hr : jpNumber r = some (r, []) := by
                have h2 : numTokB r = true := by
                  rw [parseSafeB] at hv
                  exact hv
                rw [numTokB, decide_eq_true_eq] at h2
                exact h2
              obtain ⟨c, t, hct, _⟩ := numTok_head r hr
              rw [stringify_numfin, hct]
              simp [jcost]
          | nan => exact absurd hv (by simp [parseSafeB, numTokB])
          | inf => exact absurd hv (by simp [parseSafeB, numTokB])
          | ninf => exact absurd hv (by simp [parseSafeB, numTokB])
      | jarr xs =>
          have hx := (parseSafe_arr xs).mp hv
          have hmem : ∀ x ∈ xs, jcost x ≤ (jsonStringify x).length := by
            intro x hmx
            refine ihN x ?_ (hx x hmx)
            have := List.sizeOf_lt_of_mem hmx
            simp at hsz
            omega
          have key : ∀ (l : List JsVal), (∀ x ∈ l, jcost x ≤ (jsonStringify x).length) →
              ecost l ≤ (List.intercalate [','] (l.map jsonStringify)).length + 1 := by
            intro l
            induction l with
            | nil => intro _; simp [ecost_nil, interc_nil]
            | cons a l2 ihl =>
                intro hm
                rcases l2 with _ | ⟨b, l3⟩
                · rw [ecost_cons, ecost_nil, List.map_cons, List.map_nil, interc_one]
                  have := hm a (by simp)
                  omega
                · rw [ecost_cons, List.map_cons, List.map_cons, interc_cons]
                  have h1 := hm a (by simp)
                  have h2 := ihl (fun x hmx => hm x (List.mem_cons_of_mem _ hmx))
                  rw [List.map_cons] at h2
                  rw [List.length_append, List.length_cons]
                  omega
          have hk := key xs hmem
          rw [jcost_arr, stringify_arr]
          simp only [List.cons_append, List.length_cons, List.length_append]
          simp
          omega
      | jobj fs =>
          have hsafe := (parseSafe_obj fs).mp hv
          have hmem : ∀ g ∈ fs, jcost g.2 ≤ (jsonStringify g.2).length := by
            intro g hmg
            refine ihN g.2 ?_ (hsafe.2 g hmg)
            have := List.sizeOf_lt_of_mem hmg
            rcases g with ⟨gk, gv⟩
            simp at hsz this ⊢
            omega
          have key : ∀ (l : List (Str × JsVal)),
              (∀ g ∈ l, jcost g.2 ≤ (jsonStringify g.2).length) →
              fcost l ≤ (List.intercalate [','] (l.map fieldStr)).length + 1 := by
            intro l
            induction l with
            | nil => intro _; simp [fcost_nil, interc_nil]
            | cons a l2 ihl =>
                intro hm
                have hfa : (jsonStringify a.2).length + 3 ≤ (fieldStr a).length := by
                  have h1 := fieldStr_len a
                  have h2 := jsonQuote_len a.1
                  omega
                rcases l2 with _ | ⟨b, l3⟩
                · rw [fcost_cons, fcost_nil, List.map_cons, List.map_nil, interc_one]
                  have := hm a (by simp)
                  omega
                · rw [fcost_cons, List.map_cons, List.map_cons, interc_cons]
                  have h1 := hm a (by simp)
                  have h2 := ihl (fun g hmg => hm g (List.mem_cons_of_mem _ hmg))
                  rw [List.map_cons] at h2
                  rw [List.length_append, List.length_cons]
                  omega
          have hk := key fs hmem
          rw [jcost_obj, stringify_obj]
          simp only [List.cons_append, List.length_cons, List.length_append]
          simp
          omega

theorem jcost_le (v : JsVal) (hv : parseSafeB v = true) :
    jcost v ≤ (jsonStringify v).length :=
  jcost_le_aux (sizeOf v) v le_rfl hv

theorem jsonParse_stringify (v : JsVal) (hv : parseSafeB v = true) :
    jsonParse (jsonStringify v) = some v := by
  unfold jsonParse
  have h := (jp_roundtrip ((jsonStringify v).length + 1)).1 v [] hv rfl
    (by have := jcost_le v hv; omega)
  rw [List.append_nil] at h
  rw [h]
  simp [jpSkipWs]

theorem deepSort_arr (xs : List JsVal) :
    deepSortForJson (.jarr xs) = .jarr (xs.map deepSortForJson) := by
  rw [deepSortForJson]
  rw [List.attach_map_val xs deepSortForJson]

theorem deepSort_obj (fs : List (Str × JsVal)) :
    deepSortForJson (.jobj fs)
      = .jobj ((fs.mergeSort fieldLe).map fun f => (f.1, deepSortForJson f.2)) := by
  rw [deepSortForJson]
  rw [List.attach_map_val (fs.mergeSort fieldLe) (fun f => (f.1, deepSortForJson f.2))]

theorem parseSafe_deepSort_aux : ∀ n v, sizeOf v ≤ n → wfInputB v = true →
    parseSafeB (deepSortForJson v) = true := by
  intro n
  induction n with
  | zero =>
      intro v h _
      exact absurd h (by cases v <;> simp)
  | succ N ihN =>
      intro v hsz hv
      cases v with
      | jnull => simp [deepSortForJson, parseSafeB]
      | jbool b => simp [deepSortForJson, parseSafeB]
      | jstr s => simp [deepSortForJson, parseSafeB]
      | jbig i => simp [deepSortForJson, parseSafeB]
      | jundef => simp [deepSortForJson, parseSafeB]
      | jnum m =>
          cases m with
          | fin r =>
              have h2 : numTokB r = true := by
                rw [wfInputB] at hv
                exact hv
              simp [deepSortForJson, parseSafeB, h2]
          | nan => simp [deepSortForJson, parseSafeB]
          | inf => simp [deepSortForJson, parseSafeB]
          | ninf => simp [deepSortForJson, parseSafeB]
      | jarr xs =>
          have hx := (wf_arr xs).mp hv
          rw [deepSort_arr]
          rw [parseSafe_arr]
          intro y hy
          obtain ⟨x, hmx, rfl⟩ := List.mem_map.mp hy
          refine ihN x ?_ (hx x hmx)
          have := List.sizeOf_lt_of_mem hmx
          simp at hsz
          omega
      | jobj fs =>
          have hsafe := (wf_obj fs).mp hv
          rw [deepSort_obj]
          rw [parseSafe_obj]
          constructor
          · have hperm : List.Perm (fs.mergeSort fieldLe) fs := List.mergeSort_perm fs fieldLe
            have hpk : List.Perm ((fs.mergeSort fieldLe).map fun f => f.1)
                (fs.map fun f => f.1) := hperm.map _
            have : (((fs.mergeSort fieldLe).map fun f => (f.1, deepSortForJson f.2)).map
                fun f => f.1) = (fs.mergeSort fieldLe).map fun f => f.1 := by
              rw [List.map_map]
              rfl
            rw [this]
            exact hpk.nodup_iff.mpr hsafe.1
          · intro g hg
            obtain ⟨f0, hmf, rfl⟩ := List.mem_map.mp hg
            have hmf2 : f0 ∈ fs := (List.mergeSort_perm fs fieldLe).mem_iff.mp hmf
            refine ihN f0.2 ?_ (hsafe.2 f0 hmf2)
            have := List.sizeOf_lt_of_mem hmf2
            rcases f0 with ⟨gk, gv⟩
            simp at hsz this ⊢
            omega

theorem parseSafe_deepSort (v : JsVal) (hv : wfInputB v = true) :
    parseSafeB (deepSortForJson v) = true :=
  parseSafe_deepSort_aux (sizeOf v) v le_rfl hv

/-- Token characters by code point. -/
theorem isTokChar_iff (c : Char) : isTokChar c = true ↔
    (65 ≤ c.toNat ∧ c.toNat ≤ 90) ∨ (97 ≤ c.toNat ∧ c.toNat ≤ 122)
      ∨ (48 ≤ c.toNat ∧ c.toNat ≤ 57) ∨ c.toNat = 95 ∨ c.toNat = 45 := by
  simp only [isTokChar, isDigitCh, Char.le_def, decide_eq_true_eq]
  constructor
  · rintro (⟨h1, h2⟩ | ⟨h1, h2⟩ | ⟨h1, h2⟩ | rfl | rfl)
    · exact Or.inl ⟨by exact_mod_cast h1, by exact_mod_cast h2⟩
    · exact Or.inr (Or.inl ⟨by exact_mod_cast h1, by exact_mod_cast h2⟩)
    · exact Or.inr (Or.inr (Or.inl ⟨by exact_mod_cast h1, by exact_mod_cast h2⟩))
    · exact Or.inr (Or.inr (Or.inr (Or.inl rfl)))
    · exact Or.inr (Or.inr (Or.inr (Or.inr rfl)))
  · have hofn := Char.ofNat_toNat c
    rintro (⟨h1, h2⟩ | ⟨h1, h2⟩ | ⟨h1, h2⟩ | h | h)
    · exact Or.inl ⟨by exact_mod_cast h1, by exact_mod_cast h2⟩
    · exact Or.inr (Or.inl ⟨by exact_mod_cast h1, by exact_mod_cast h2⟩)
    · exact Or.inr (Or.inr (Or.inl ⟨by exact_mod_cast h1, by exact_mod_cast h2⟩))
    · refine Or.inr (Or.inr (Or.inr (Or.inl ?_)))
      rw [h] at hofn
      exact hofn.symm
    · refine Or.inr (Or.inr (Or.inr (Or.inr ?_)))
      rw [h] at hofn
      exact hofn.symm

/-- Token characters are not JS whitespace. -/
theorem tokChar_not_space (c : Char) (h : isTokChar c = true) : isJsSpace c = false := by
  rw [isTokChar_iff] at h
  simp only [isJsSpace, decide_eq_false_iff_not, not_or]
  refine ⟨?_, ?_, ?_, ?_, ?_, ?_, ?_, ?_⟩
  all_goals first
    | (rintro rfl; revert h; decide)
    | (intro hh; omega)

/-- Token characters are not trailing punctuation. -/
theorem tokChar_not_trail (c : Char) (h : isTokChar c = true) : isTrailPunct c = false := by
  simp only [isTrailPunct, decide_eq_false_iff_not, not_or]
  refine ⟨?_, ?_, ?_, ?_, ?_, ?_, ?_, ?_⟩
  all_goals (rintro rfl; revert h; decide)

/-- Generic no-op `dropWhile` on a head the predicate rejects. -/
theorem dropWhile_cons_noop (p : Char → Bool) (c : Char) (t : Str) (h : p c = false) :
    (c :: t).dropWhile p = c :: t := by
  simp [List.dropWhile, h]

/-- `stripEdgePunct` leaves a `"j:" + token` reference unchanged. -/
theorem stripEdgePunct_jtoken (w : Str) (hw : ¬ w = []) (htok : ∀ c ∈ w, isTokChar c = true) :
    stripEdgePunct ('j' :: ':' :: w) = 'j' :: ':' :: w := by
  obtain ⟨lst, w', hlw⟩ : ∃ lst w', w.reverse = lst :: w' := by
    rcases hr : w.reverse with _ | ⟨a, b⟩
    · exact absurd (List.reverse_eq_nil_iff.mp hr) hw
    · exact ⟨a, b, rfl⟩
  have hlmem : lst ∈ w := by
    have h0 : lst ∈ w.reverse := by rw [hlw]; simp
    simpa using h0
  have hrev : ('j' :: ':' :: w).reverse = lst :: (w' ++ [':', 'j']) := by
    simp [hlw]
  have htrim : jsTrim ('j' :: ':' :: w) = 'j' :: ':' :: w := by
    unfold jsTrim
    rw [dropWhile_cons_noop _ _ _ (by decide), hrev,
      dropWhile_cons_noop _ _ _ (tokChar_not_space lst (htok lst hlmem)), ← hrev,
      List.reverse_reverse]
  show jsTrim ((((jsTrim ('j' :: ':' :: w)).reverse.dropWhile
      isTrailPunct).reverse).dropWhile isLeadPunct) = 'j' :: ':' :: w
  rw [htrim, hrev,
    dropWhile_cons_noop _ _ _ (tokChar_not_trail lst (htok lst hlmem)), ← hrev,
    List.reverse_reverse,
    dropWhile_cons_noop _ _ _ (show isLeadPunct 'j' = false by decide), htrim]

/-- `decodePayloadRef` inverts `encodePayloadRef` onto the canonical
form, whenever the base64url token reaches the 16-character minimum. -/
theorem decode_encode_payloadRef (p : JsVal) (hwf : wfInputB p = true)
    (hlen : 16 ≤ (toBase64UrlFromUtf8 (jsonStringify (deepSortForJson p))).length) :
    decodePayloadRef (encodePayloadRef p) = some (deepSortForJson p) := by
  have htokc : ∀ c ∈ toBase64UrlFromUtf8 (jsonStringify (deepSortForJson p)),
      isTokChar c = true := toBase64UrlFromUtf8_tokChars _
  have hwne : ¬ toBase64UrlFromUtf8 (jsonStringify (deepSortForJson p)) = [] := by
    intro h
    rw [h] at hlen
    simp at hlen
  have henc : encodePayloadRef p
      = 'j' :: ':' :: toBase64UrlFromUtf8 (jsonStringify (deepSortForJson p)) := rfl
  unfold decodePayloadRef
  rw [henc, stripEdgePunct_jtoken _ hwne htokc]
  simp only []
  rw [show PAYLOAD_PFX.isPrefixOf
      ('j' :: ':' :: toBase64UrlFromUtf8 (jsonStringify (deepSortForJson p))) = true from by
    simp [PAYLOAD_PFX, strOf, List.isPrefixOf]]
  simp only [if_true]
  rw [show ('j' :: ':' :: toBase64UrlFromUtf8 (jsonStringify
      (deepSortForJson p))).drop PAYLOAD_PFX.length
    = toBase64UrlFromUtf8 (jsonStringify (deepSortForJson p)) from rfl]
  rw [show isLikelyToken (toBase64UrlFromUtf8 (jsonStringify (deepSortForJson p))) = true from by
    simp [isLikelyToken, hlen, List.all_eq_true]
    exact htokc]
  simp only [if_true]
  rw [fromBase64Url_roundtrip]
  exact jsonParse_stringify _ (parseSafe_deepSort p hwf)

theorem noBad_arr (xs : List JsVal) :
    noBadLeaves (.jarr xs) = true ↔ ∀ x ∈ xs, noBadLeaves x = true := by
  rw [noBadLeaves]
  simp [List.all_eq_true]

theorem noBad_obj (fs : List (Str × JsVal)) :
    noBadLeaves (.jobj fs) = true ↔ ∀ f ∈ fs, noBadLeaves f.2 = true := by
  rw [noBadLeaves]
  simp [List.all_eq_true]

theorem noBadLeaves_deepSort_aux : ∀ n v, sizeOf v ≤ n →
    noBadLeaves (deepSortForJson v) = true := by
  intro n
  induction n with
  | zero =>
      intro v h
      exact absurd h (by cases v <;> simp)
  | succ N ihN =>
      intro v hsz
      cases v with
      | jnull => simp [deepSortForJson, noBadLeaves]
      | jbool b => simp [deepSortForJson, noBadLeaves]
      | jstr s => simp [deepSortForJson, noBadLeaves]
      | jbig i => simp [deepSortForJson, noBadLeaves]
      | jundef => simp [deepSortForJson, noBadLeaves]
      | jnum m => cases m <;> simp [deepSortForJson, noBadLeaves]
      | jarr xs =>
          rw [deepSort_arr, noBad_arr]
          intro y hy
          obtain ⟨x, hmx, rfl⟩ := List.mem_map.mp hy
          refine ihN x ?_
          have := List.sizeOf_lt_of_mem hmx
          simp at hsz
          omega
      | jobj fs =>
          rw [deepSort_obj, noBad_obj]
          intro g hg
          obtain ⟨f0, hmf, rfl⟩ := List.mem_map.mp hg
          have hmf2 : f0 ∈ fs := (List.mergeSort_perm fs fieldLe).mem_iff.mp hmf
          refine ihN f0.2 ?_
          have := List.sizeOf_lt_of_mem hmf2
          rcases f0 with ⟨gk, gv⟩
          simp at hsz this ⊢
          omega

/-- **C1** (corrected).  `decodePayloadRef` inverts `encodePayloadRef`
onto the canonical (`deepSortForJson`) form of the payload whenever the
encoded base64url token reaches the 16-character minimum imposed by the
decoder's `^[A-Za-z0-9_-]{16,}$` test; and any reference whose candidate
token (with or without the `"j:"` marker stripped) fails that test —
in particular every token shorter than 16 characters or containing a
character outside the base64url alphabet — decodes to `none` rather
than throwing.  The original claim is false without the length
hypothesis: see the counterexample at `null`. -/
theorem c1_payload_ref_roundtrip (p : JsVal) (t : Str)
    (hwf : wfInputB p = true)
    (hlen : 16 ≤ (toBase64UrlFromUtf8 (jsonStringify (deepSortForJson p))).length)
    (hbad1 : isLikelyToken (stripEdgePunct t) = false)
    (hbad2 : isLikelyToken ((stripEdgePunct t).drop 2) = false) :
    decodePayloadRef (encodePayloadRef p) = some (deepSortForJson p)
      ∧ decodePayloadRef t = none := by
  refine ⟨decode_encode_payloadRef p hwf hlen, ?_⟩
  unfold decodePayloadRef
  simp only []
  by_cases hp : List.isPrefixOf PAYLOAD_PFX (stripEdgePunct t) = true
  · rw [if_pos hp, show List.length PAYLOAD_PFX = 2 from rfl, hbad2]
    simp
  · rw [if_neg hp, hbad1]
    simp

/-- **C1** witness: a value whose canonical JSON is long enough round
trips, and a short or ill-formed reference decodes to `none`. -/
theorem c1_payload_ref_roundtrip_witness :
    decodePayloadRef (encodePayloadRef (JsVal.jstr (strOf "hello world")))
        = some (deepSortForJson (JsVal.jstr (strOf "hello world")))
      ∧ decodePayloadRef (strOf "j:short") = none := by
  refine c1_payload_ref_roundtrip (JsVal.jstr (strOf "hello world")) (strOf "j:short")
    (by simp [wfInputB]) ?_ (by decide) (by decide)
  rw [show deepSortForJson (JsVal.jstr (strOf "hello world"))
      = JsVal.jstr (strOf "hello world") from by simp [deepSortForJson],
    stringify_str]
  decide

/-- **C1** counterexample to the original universally-quantified claim:
`null` canonicalizes to the 4-byte JSON `null`, whose base64url token
`bnVsbA` has only 6 characters, so the decoder's minimum-length test
rejects the encoded reference and the round trip returns `none`. -/
theorem c1_counterexample :
    decodePayloadRef (encodePayloadRef JsVal.jnull) = none := by
  have h1 : encodePayloadRef JsVal.jnull = strOf "j:bnVsbA" := by
    unfold encodePayloadRef
    rw [show deepSortForJson JsVal.jnull = JsVal.jnull from by simp [deepSortForJson],
      stringify_null]
    rfl
  rw [h1]
  rfl

/-- **C9** (corrected).  Canonicalization eliminates every non-finite
number (and every bigint and `undefined`) from the output at any depth:
NaN and the two infinities map to `null`, bigints map to their decimal
strings, and array order is preserved.  The original claim's other half
— that every *number* holding an integer outside the safe-integer range
is stringified — is false: only `bigint` values are stringified, a
finite unsafe-integer `number` passes through unchanged (see the
counterexample). -/
theorem c9_number_normalization :
    (∀ v, noBadLeaves (deepSortForJson v) = true)
    ∧ deepSortForJson (.jnum .nan) = .jnull
    ∧ deepSortForJson (.jnum .inf) = .jnull
    ∧ deepSortForJson (.jnum .ninf) = .jnull
    ∧ (∀ i, deepSortForJson (.jbig i) = .jstr (intToDec i))
    ∧ (∀ xs, deepSortForJson (.jarr xs) = .jarr (xs.map deepSortForJson)) := by
  refine ⟨fun v => noBadLeaves_deepSort_aux (sizeOf v) v le_rfl, ?_, ?_, ?_, ?_, ?_⟩
  · simp [deepSortForJson]
  · simp [deepSortForJson]
  · simp [deepSortForJson]
  · intro i
    simp [deepSortForJson]
  · exact deepSort_arr

/-- **C9** counterexample to the original claim's stringification half:
the finite JS number `1e21` (`String(1e21) = "1e+21"`), an integer
outside the safe range, canonicalizes to itself — a number, not a
string. -/
theorem c9_counterexample :
    deepSortForJson (JsVal.jnum (JNum.fin (strOf "1e+21")))
        = JsVal.jnum (JNum.fin (strOf "1e+21"))
      ∧ (match deepSortForJson (JsVal.jnum (JNum.fin (strOf "1e+21"))) with
          | JsVal.jstr _ => true
          | _ => false) = false := by
  constructor
  · simp [deepSortForJson]
  · rw [show deepSortForJson (JsVal.jnum (JNum.fin (strOf "1e+21")))
        = JsVal.jnum (JNum.fin (strOf "1e+21")) from by simp [deepSortForJson]]

/-- **C10** (confirmed).  `decodeFeedPayload` is total — it returns
`none` or a value passing the strict v=1 schema guard, and in
particular returns `none` for the empty token, for tokens longer than
1,000,000 characters, for tokens whose base64url decoding yields zero
bytes or fails, for undecodable JSON, and for any JSON value the guard
rejects.  (Absence of thrown exceptions is the totality of the model:
every failure path is the explicit `none`.) -/
theorem c10_decode_feed_total :
    (∀ t, decodeFeedPayload t = none
        ∨ ∃ v, decodeFeedPayload t = some v ∧ isFeedPostPayload v = true)
    ∧ decodeFeedPayload [] = none
    ∧ (∀ t, 1000000 < t.length → decodeFeedPayload t = none)
    ∧ (∀ t, fromBase64UrlFeed t = none → decodeFeedPayload t = none)
    ∧ (∀ t, fromBase64UrlFeed t = some [] → decodeFeedPayload t = none)
    ∧ (∀ t bs, fromBase64UrlFeed t = some bs →
        jsonParse (utf8DecodeLenient bs) = none → decodeFeedPayload t = none)
    ∧ (∀ t bs v, fromBase64UrlFeed t = some bs →
        jsonParse (utf8DecodeLenient bs) = some v → isFeedPostPayload v = false →
        decodeFeedPayload t = none) := by
  have hbranch : ∀ t, decodeFeedPayload t = none
      ∨ ∃ v, decodeFeedPayload t = some v ∧ isFeedPostPayload v = true := by
    intro t
    unfold decodeFeedPayload
    by_cases h1 : t = [] ∨ t.length > 1000000
    · rw [if_pos h1]
      exact Or.inl rfl
    · rw [if_neg h1]
      cases hfb : fromBase64UrlFeed t with
      | none => exact Or.inl rfl
      | some bytes =>
          simp only []
          by_cases h2 : bytes.length = 0
          · rw [if_pos h2]
            exact Or.inl rfl
          · rw [if_neg h2]
            cases hjp : jsonParse (utf8DecodeLenient bytes) with
            | none => exact Or.inl rfl
            | some parsed =>
                simp only []
                by_cases h3 : isFeedPostPayload parsed = true
                · rw [if_pos h3]
                  exact Or.inr ⟨parsed, rfl, h3⟩
                · rw [if_neg h3]
                  exact Or.inl rfl
  refine ⟨hbranch, by rfl, ?_, ?_, ?_, ?_, ?_⟩
  · intro t h
    unfold decodeFeedPayload
    rw [if_pos (Or.inr h)]
  · intro t hfb
    unfold decodeFeedPayload
    by_cases h1 : t = [] ∨ t.length > 1000000
    · rw [if_pos h1]
    · rw [if_neg h1, hfb]
  · intro t hfb
    unfold decodeFeedPayload
    by_cases h1 : t = [] ∨ t.length > 1000000
    · rw [if_pos h1]
    · rw [if_neg h1, hfb]
      simp only []
      rw [if_pos (show List.length ([] : List Nat) = 0 from rfl)]
  · intro t bs hfb hjp
    unfold decodeFeedPayload
    by_cases h1 : t = [] ∨ t.length > 1000000
    · rw [if_pos h1]
    · rw [if_neg h1, hfb]
      simp only []
      by_cases h2 : bs.length = 0
      · rw [if_pos h2]
      · rw [if_neg h2, hjp]
  · intro t bs v hfb hjp hguard
    unfold decodeFeedPayload
    by_cases h1 : t = [] ∨ t.length > 1000000
    · rw [if_pos h1]
    · rw [if_neg h1, hfb]
      simp only []
      by_cases h2 : bs.length = 0
      · rw [if_pos h2]
      · rw [if_neg h2, hjp]
        simp [hguard]

/-- **C10** witness: the empty token, an over-long token, a token
decoding to non-JSON bytes, and a token decoding to JSON that fails the
schema guard all return `none`. -/
theorem c10_decode_feed_total_witness :
    decodeFeedPayload [] = none
      ∧ decodeFeedPayload (List.replicate 1000001 'A') = none
      ∧ decodeFeedPayload (strOf "YQ") = none
      ∧ decodeFeedPayload (strOf "e30") = none := by
  have h97 : utf8DecodeLenient [97] = [Char.ofNat 97] := by decide
  have hobj : utf8DecodeLenient [123, 125] = [Char.ofNat 123, Char.ofNat 125] := by decide
  exact ⟨c10_decode_feed_total.2.1,
    c10_decode_feed_total.2.2.1 _ (by rw [List.length_replicate]; omega),
    c10_decode_feed_total.2.2.2.2.2.1 (strOf "YQ") [97] (by rfl) (by rw [h97]; rfl),
    c10_decode_feed_total.2.2.2.2.2.2 (strOf "e30") [123, 125] (JsVal.jobj [])
      (by rfl) (by rw [hobj]; rfl) (by rfl)⟩

theorem lcmp_refl (a : Str) : localeCompareModel a a = 0 := by
  induction a with
  | nil => rfl
  | cons c t ih => simp [localeCompareModel, ih]

theorem lcmp_eq_zero_iff : ∀ a b : Str, localeCompareModel a b = 0 ↔ a = b := by
  intro a
  induction a with
  | nil =>
      intro b
      cases b <;> simp [localeCompareModel]
  | cons c t ih =>
      intro b
      cases b with
      | nil => simp [localeCompareModel]
      | cons d u =>
          simp only [localeCompareModel]
          split_ifs with h1 h2
          · constructor
            · intro h
              exact absurd h (by decide)
            · rintro heq
              injection heq with hc _
              subst hc
              exact absurd h1 (lt_irrefl _)
          · constructor
            · intro h
              exact absurd h (by decide)
            · rintro heq
              injection heq with hc _
              subst hc
              exact absurd h2 (lt_irrefl _)
          · have hcd : c = d := le_antisymm (le_of_not_lt h2) (le_of_not_lt h1)
            subst hcd
            rw [ih u]
            constructor
            · rintro rfl
              rfl
            · rintro heq
              injection heq

theorem lcmp_swap : ∀ a b : Str, localeCompareModel b a = -(localeCompareModel a b) := by
  intro a
  induction a with
  | nil =>
      intro b
      cases b <;> simp [localeCompareModel]
  | cons c t ih =>
      intro b
      cases b with
      | nil => simp [localeCompareModel]
      | cons d u =>
          simp only [localeCompareModel]
          rcases lt_trichotomy c d with h | h | h
          · rw [if_neg (lt_asymm h), if_pos h, if_pos h]
            decide
          · subst h
            rw [if_neg (lt_irrefl c), if_neg (lt_irrefl c), if_neg (lt_irrefl c),
              if_neg (lt_irrefl c)]
            exact ih u
          · rw [if_pos h, if_neg (lt_asymm h), if_pos h]

theorem lcmp_trans : ∀ a b c : Str, localeCompareModel a b ≤ 0 →
    localeCompareModel b c ≤ 0 → localeCompareModel a c ≤ 0 := by
  intro a
  induction a with
  | nil =>
      intro b c _ _
      cases c <;> simp [localeCompareModel]
  | cons x as ih =>
      intro b c h1 h2
      cases b with
      | nil => exact absurd h1 (by simp [localeCompareModel])
      | cons y bs =>
          cases c with
          | nil => exact absurd h2 (by simp [localeCompareModel])
          | cons z cs =>
              simp only [localeCompareModel] at h1 h2 ⊢
              by_cases hxy : x < y
              · rw [if_pos hxy] at h1
                by_cases hyz : y < z
                · rw [if_pos (lt_trans hxy hyz)]
                  decide
                · rw [if_neg hyz] at h2
                  by_cases hzy : z < y
                  · rw [if_pos hzy] at h2
                    exact absurd h2 (by decide)
                  · have hyz' : y = z := le_antisymm (le_of_not_lt hzy) (le_of_not_lt hyz)
                    rw [if_pos (hyz' ▸ hxy)]
                    decide
              · rw [if_neg hxy] at h1
                by_cases hyx : y < x
                · rw [if_pos hyx] at h1
                  exact absurd h1 (by decide)
                · rw [if_neg hyx] at h1
                  have hxy' : x = y := le_antisymm (le_of_not_lt hyx) (le_of_not_lt hxy)
                  subst hxy'
                  by_cases hyz : x < z
                  · rw [if_pos hyz] at h2 ⊢
                    decide
                  · rw [if_neg hyz] at h2 ⊢
                    by_cases hzy : z < x
                    · rw [if_pos hzy] at h2
                      exact absurd h2 (by decide)
                    · rw [if_neg hzy] at h2 ⊢
                      exact ih bs cs h1 h2

theorem fieldLe_eq_true (a b : Str × JsVal) :
    fieldLe a b = true ↔ localeCompareModel a.1 b.1 ≤ 0 := by
  simp [fieldLe]

theorem fieldLe_trans (a b c : Str × JsVal) (h1 : fieldLe a b = true)
    (h2 : fieldLe b c = true) : fieldLe a c = true := by
  rw [fieldLe_eq_true] at *
  exact lcmp_trans _ _ _ h1 h2

theorem fieldLe_total (a b : Str × JsVal) : (fieldLe a b || fieldLe b a) = true := by
  rcases le_or_lt (localeCompareModel a.1 b.1) 0 with h | h
  · rw [(fieldLe_eq_true a b).mpr h]
    rfl
  · have h2 : localeCompareModel b.1 a.1 ≤ 0 := by
      rw [lcmp_swap]
      omega
    rw [(fieldLe_eq_true b a).mpr h2, Bool.or_true]

theorem fieldStrictLe_antisymm :
    ∀ a b : Str × JsVal, fieldStrictLe a b → fieldStrictLe b a → a = b := by
  intro a b h1 h2
  rcases h1 with h1 | rfl
  · rcases h2 with h2 | h2
    · exfalso
      rw [lcmp_swap] at h2
      omega
    · exact h2.symm
  · rfl

/-- On a member list with pairwise-distinct keys, `mergeSort` by
`fieldLe` is strictly sorted by key. -/
theorem mergeSort_pairwise_strict (fs : List (Str × JsVal))
    (hnd : (fs.map (fun f => f.1)).Nodup) :
    List.Pairwise (fun a b => localeCompareModel a.1 b.1 < 0) (fs.mergeSort fieldLe) := by
  have hs : List.Pairwise (fun a b => fieldLe a b = true) (fs.mergeSort fieldLe) :=
    List.sorted_mergeSort fieldLe_trans fieldLe_total fs
  have hndm : ((fs.mergeSort fieldLe).map (fun f => f.1)).Nodup :=
    (((List.mergeSort_perm fs fieldLe).map (fun f => f.1)).nodup_iff).mpr hnd
  have hne : List.Pairwise (fun a b : Str × JsVal => ¬ a.1 = b.1) (fs.mergeSort fieldLe) :=
    List.pairwise_map.mp hndm
  refine (hs.and hne).imp ?_
  rintro a b ⟨hle, hnekey⟩
  rw [fieldLe_eq_true] at hle
  rcases lt_or_eq_of_le hle with h | h
  · exact h
  · exact absurd ((lcmp_eq_zero_iff a.1 b.1).mp h) hnekey

/-- `JFldEq` preserves the key list. -/
theorem jfldEq_keys : ∀ fs gs, JFldEq fs gs →
    fs.map (fun f => f.1) = gs.map (fun f => f.1) := by
  intro fs
  induction fs with
  | nil =>
      intro gs h
      cases h
      rfl
  | cons f fs ih =>
      intro gs h
      cases h with
      | cons k v w fs2 gs2 hvw hrest =>
          simp [ih gs2 hrest]

/-- Canonicalization is a congruence for key-order equivalence: two
values deep-equal up to object-key order canonicalize identically. -/
theorem deepSort_keyEq_aux : ∀ n v w, sizeOf v ≤ n → wfInputB v = true →
    JKeyEq v w → deepSortForJson v = deepSortForJson w := by
  intro n
  induction n with
  | zero =>
      intro v w h _ _
      exact absurd h (by cases v <;> simp)
  | succ N ihN =>
      intro v w hsz hwf hkeq
      cases hkeq with
      | jnull => rfl
      | jbool b => rfl
      | jnum m => rfl
      | jstr s => rfl
      | jbig i => rfl
      | jundef => rfl
      | jarr xs ys harr =>
          rw [deepSort_arr, deepSort_arr]
          have hx := (wf_arr xs).mp hwf
          have hszx : ∀ x ∈ xs, sizeOf x ≤ N := by
            intro x hmx
            have := List.sizeOf_lt_of_mem hmx
            simp at hsz
            omega
          have key : ∀ (l1 l2 : List JsVal), JArrEq l1 l2 →
              (∀ x ∈ l1, sizeOf x ≤ N ∧ wfInputB x = true) →
              l1.map deepSortForJson = l2.map deepSortForJson := by
            intro l1
            induction l1 with
            | nil =>
                intro l2 h _
                cases h
                rfl
            | cons x l1t ihl =>
                intro l2 h hmem
                cases h with
                | cons _ y _ ys hxy hrest =>
                    have hm := hmem x (by simp)
                    rw [List.map_cons, List.map_cons,
                      ihN x y hm.1 hm.2 hxy,
                      ihl ys hrest (fun z hz => hmem z (List.mem_cons_of_mem _ hz))]
          rw [key xs ys harr (fun x hmx => ⟨hszx x hmx, hx x hmx⟩)]
      | jobj fs fs2 gs hperm hfld =>
          rw [deepSort_obj, deepSort_obj]
          have hsafe := (wf_obj fs).mp hwf
          have hszf : ∀ f ∈ fs, sizeOf f.2 ≤ N := by
            intro f hmf
            have := List.sizeOf_lt_of_mem hmf
            rcases f with ⟨fk, fv⟩
            simp at hsz this ⊢
            omega
          -- the two mapped, sorted member lists are permutations of each other
          have hmapeq : ∀ (l1 l2 : List (Str × JsVal)), JFldEq l1 l2 →
              (∀ f ∈ l1, sizeOf f.2 ≤ N ∧ wfInputB f.2 = true) →
              l1.map (fun f => (f.1, deepSortForJson f.2))
                = l2.map (fun f => (f.1, deepSortForJson f.2)) := by
            intro l1
            induction l1 with
            | nil =>
                intro l2 h _
                cases h
                rfl
            | cons f l1t ihl =>
                intro l2 h hmem
                cases h with
                | cons k fv gv fs3 gs3 hvw hrest =>
                    have hm := hmem (k, fv) (by simp)
                    rw [List.map_cons, List.map_cons]
                    rw [ihl gs3 hrest (fun z hz => hmem z (List.mem_cons_of_mem _ hz))]
                    rw [show deepSortForJson fv = deepSortForJson gv from
                      ihN fv gv hm.1 hm.2 hvw]
          have hmemfs2 : ∀ f ∈ fs2, sizeOf f.2 ≤ N ∧ wfInputB f.2 = true := by
            intro f hmf
            have hmf' : f ∈ fs := hperm.symm.subset hmf
            exact ⟨hszf f hmf', hsafe.2 f hmf'⟩
          have hndgs : (gs.map (fun f => f.1)).Nodup := by
            rw [← jfldEq_keys fs2 gs hfld]
            exact ((hperm.map (fun f => f.1)).nodup_iff).mp hsafe.1
          have hpermF : List.Perm
              ((fs.mergeSort fieldLe).map (fun f => (f.1, deepSortForJson f.2)))
              ((gs.mergeSort fieldLe).map (fun f => (f.1, deepSortForJson f.2))) := by
            refine List.Perm.trans ((List.mergeSort_perm fs fieldLe).map _) ?_
            refine List.Perm.trans (hperm.map _) ?_
            rw [hmapeq fs2 gs hfld hmemfs2]
            exact ((List.mergeSort_perm gs fieldLe).map _).symm
          have hsortA : List.Pairwise fieldStrictLe
              ((fs.mergeSort fieldLe).map (fun f => (f.1, deepSortForJson f.2))) := by
            refine List.pairwise_map.mpr ?_
            exact (mergeSort_pairwise_strict fs hsafe.1).imp (fun h => Or.inl h)
          have hsortB : List.Pairwise fieldStrictLe
              ((gs.mergeSort fieldLe).map (fun f => (f.1, deepSortForJson f.2))) := by
            refine List.pairwise_map.mpr ?_
            exact (mergeSort_pairwise_strict gs hndgs).imp (fun h => Or.inl h)
          haveI : IsAntisymm (Str × JsVal) fieldStrictLe :=
            ⟨fieldStrictLe_antisymm⟩
          rw [List.eq_of_perm_of_sorted hpermF hsortA hsortB]

/-- **C5** (confirmed).  Canonicalization is insensitive to object-key
insertion order: any two values deep-equal up to the order of object
members (at any nesting depth, per `JKeyEq`) produce identical canonical
JSON strings, while array element order is preserved verbatim. -/
theorem c5_canonicalize_key_order (v w : JsVal) (hwf : wfInputB v = true)
    (h : JKeyEq v w) :
    jsonStringify (deepSortForJson v) = jsonStringify (deepSortForJson w)
      ∧ ∀ xs, deepSortForJson (.jarr xs) = .jarr (xs.map deepSortForJson) := by
  refine ⟨?_, deepSort_arr⟩
  rw [deepSort_keyEq_aux (sizeOf v) v w le_rfl hwf h]

/-- **C5** witness: the spec's own instance — `{a:1, b:2}` and
`{b:2, a:1}` canonicalize to the same string. -/
theorem c5_canonicalize_key_order_witness :
    jsonStringify (deepSortForJson (JsVal.jobj
        [(strOf "a", JsVal.jnum (JNum.fin (strOf "1"))),
         (strOf "b", JsVal.jnum (JNum.fin (strOf "2")))]))
      = jsonStringify (deepSortForJson (JsVal.jobj
        [(strOf "b", JsVal.jnum (JNum.fin (strOf "2"))),
         (strOf "a", JsVal.jnum (JNum.fin (strOf "1")))])) := by
  have h1 : wfInputB (JsVal.jnum (JNum.fin (strOf "1"))) = true := by
    rw [wfInputB]
    decide
  have h2 : wfInputB (JsVal.jnum (JNum.fin (strOf "2"))) = true := by
    rw [wfInputB]
    decide
  refine (c5_canonicalize_key_order _ _ ?_ ?_).1
  · rw [wf_obj]
    refine ⟨by decide, ?_⟩
    intro f hf
    simp only [List.mem_cons, List.mem_singleton] at hf
    rcases hf with rfl | rfl | hf
    · exact h1
    · exact h2
    · exact absurd hf (List.not_mem_nil f)
  · refine JKeyEq.jobj _
      [(strOf "b", JsVal.jnum (JNum.fin (strOf "2"))),
       (strOf "a", JsVal.jnum (JNum.fin (strOf "1")))] _ ?_ ?_
    · exact List.Perm.swap _ _ []
    · exact JFldEq.cons _ _ _ _ _ (JKeyEq.jnum _)
        (JFldEq.cons _ _ _ _ _ (JKeyEq.jnum _) JFldEq.nil)

theorem formEncChar_len_ge (c : Char) : 1 ≤ (formEncChar c).length := by
  unfold formEncChar
  split_ifs with h1 h2
  · simp
  · simp
  · have hb : 1 ≤ (utf8Bytes c).length := by
      have h0 : utf8Bytes c = (if c.toNat < 128 then [c.toNat]
          else if c.toNat < 2048 then [192 + c.toNat / 64, 128 + c.toNat % 64]
          else if c.toNat < 65536 then
            [224 + c.toNat / 4096, 128 + c.toNat / 64 % 64, 128 + c.toNat % 64]
          else [240 + c.toNat / 262144, 128 + c.toNat / 4096 % 64,
            128 + c.toNat / 64 % 64, 128 + c.toNat % 64]) := rfl
      rw [h0]
      split_ifs <;> simp
    have : ((utf8Bytes c).flatMap pctByte).length = 3 * (utf8Bytes c).length := by
      induction utf8Bytes c with
      | nil => simp
      | cons b t ih => simp [pctByte, ih]; ring
    omega

theorem formEnc_len_ge (s : Str) : s.length ≤ (formEnc s).length := by
  induction s with
  | nil => simp [formEnc]
  | cons c t ih =>
      have h1 := formEncChar_len_ge c
      simp only [formEnc, List.flatMap_cons, List.length_append, List.length_cons]
      simp only [formEnc] at ih
      omega

theorem intercg_one (sep a : Str) : List.intercalate sep [a] = a := by
  simp [List.intercalate]

theorem intercg_cons (sep a b : Str) (l : List Str) :
    List.intercalate sep (a :: b :: l) = a ++ sep ++ List.intercalate sep (b :: l) := by
  simp [List.intercalate, List.intersperse]

theorem interc_mem_len_le (l : List Str) (y : Str) (hy : y ∈ l) :
    y.length ≤ (List.intercalate ['&'] l).length := by
  induction l with
  | nil => cases hy
  | cons a rest ih =>
      rcases rest with _ | ⟨b, t⟩
      · rcases List.mem_singleton.mp hy with rfl
        rw [intercg_one]
      · rw [intercg_cons]
        rcases List.mem_cons.mp hy with rfl | h
        · simp
        · have := ih h
          simp
          omega

theorem serialize_mem_val_le (ps : List (Str × Str)) (x : Str × Str) (hx : x ∈ ps) :
    (formEnc x.2).length ≤ (serializeParams ps).length := by
  have h1 : serializePair x ∈ ps.map serializePair := List.mem_map_of_mem _ hx
  have h2 := interc_mem_len_le _ _ h1
  unfold serializeParams
  have h3 : (formEnc x.2).length ≤ (serializePair x).length := by
    simp [serializePair]
    omega
  omega

theorem bmsu_url_len_ge_root (root : Str) (adds : List Str) :
    root.length ≤ (buildMemoryStreamUrl root adds).url.length := by
  have hmem : ((strOf "root", root) : Str × Str) ∈
      (strOf "v", MEM_V) :: (strOf "root", root)
        :: (strOf "seg", encodeSegMeta (segMetaObj root adds))
        :: adds.map (fun a => (strOf "add", a)) := by simp
  have h1 := serialize_mem_val_le _ _ hmem
  dsimp only at h1
  have h2 := formEnc_len_ge root
  show root.length ≤ (strOf "https://x.invalid/stream#" ++ serializeParams _).length
  rw [List.length_append]
  omega

theorem bmsu_url_len_ge_add (root : Str) (adds : List Str) (a : Str) (ha : a ∈ adds) :
    a.length ≤ (buildMemoryStreamUrl root adds).url.length := by
  have hmem : ((strOf "add", a) : Str × Str) ∈
      (strOf "v", MEM_V) :: (strOf "root", root)
        :: (strOf "seg", encodeSegMeta (segMetaObj root adds))
        :: adds.map (fun a => (strOf "add", a)) := by
    simp only [List.mem_cons]
    refine Or.inr (Or.inr (Or.inr ?_))
    exact List.mem_map_of_mem _ ha
  have h1 := serialize_mem_val_le _ _ hmem
  dsimp only at h1
  have h2 := formEnc_len_ge a
  show a.length ≤ (strOf "https://x.invalid/stream#" ++ serializeParams _).length
  rw [List.length_append]
  omega

theorem bmsu_adds (root : Str) (adds : List Str) :
    (buildMemoryStreamUrl root adds).adds = adds := rfl

theorem stf_nil (root : Str) : segmentTailToFit root [] = (0, []) := rfl

theorem stf_single (root a : Str)
    (hbig : URL_HARD_CAP < (buildMemoryStreamUrl root [a]).url.length) :
    segmentTailToFit root [a] = (1, []) := by
  unfold segmentTailToFit
  have hs : segSearchGo ([a].length + 1) root [a] 0 [a].length = 1 := by
    show segSearchGo 2 root [a] 0 1 = 1
    unfold segSearchGo
    rw [if_pos (by omega : (0 : Nat) < 1)]
    simp only []
    rw [if_neg (by simpa using (by omega : ¬ (buildMemoryStreamUrl root [a]).url.length ≤ URL_HARD_CAP))]
    unfold segSearchGo
    rw [if_neg (by omega : ¬ (1 : Nat) < 1)]
  rw [hs]
  simp [fibFloor]

theorem stf_spec (root : Str) (adds : List Str) :
    (segmentTailToFit root adds).1 ≤ adds.length
      ∧ (segmentTailToFit root adds).2 = adds.drop (segmentTailToFit root adds).1 := by
  unfold segmentTailToFit
  simp only []
  constructor
  · omega
  · trivial

theorem bsp_single_big (root a : Str)
    (hbig : URL_HARD_CAP < (buildMemoryStreamUrl root [a]).url.length) :
    buildSegmentedPack root [a] 0 = ⟨buildMemoryStreamUrl root [], []⟩ := by
  unfold buildSegmentedPack
  rw [dif_neg (by omega : ¬ (0 : Nat) > 64)]
  simp only []
  rw [if_neg (by omega : ¬ (buildMemoryStreamUrl root [a]).url.length ≤ URL_HARD_CAP)]
  rw [stf_single root a hbig]
  simp only []
  by_cases hp : (buildMemoryStreamUrl root []).url.length > URL_HARD_CAP
  · rw [if_pos hp]
  · rw [if_neg hp]
    rw [if_neg (by omega : ¬ (1 : Nat) = 0)]

theorem bsp_nil_big (root : Str)
    (hbig : URL_HARD_CAP < (buildMemoryStreamUrl root []).url.length) :
    buildSegmentedPack root [] 0 = ⟨buildMemoryStreamUrl root [], []⟩ := by
  unfold buildSegmentedPack
  rw [dif_neg (by omega : ¬ (0 : Nat) > 64)]
  simp only []
  rw [if_neg (by omega : ¬ (buildMemoryStreamUrl root []).url.length ≤ URL_HARD_CAP)]
  rw [stf_nil root]
  simp only []
  rw [if_pos (by omega : (buildMemoryStreamUrl root []).url.length > URL_HARD_CAP)]

/-- **C2** (corrected).  The primary segment of `buildSegmentedPack` is
either within the 120,000-character hard cap or is exactly the root-only
fallback segment; and a single pathologically huge ancestor degrades the
pack to the zero-adds, root-only primary.  The original claim's
unconditional cap is false: the root-only fallback itself exceeds the
cap when the rootRef is oversized (see the counterexample). -/
theorem c2_segmented_pack_cap (rootRef a : Str) (adds : List Str)
    (hbig : URL_HARD_CAP < (buildMemoryStreamUrl rootRef [a]).url.length) :
    ((buildSegmentedPack rootRef adds 0).primary.url.length ≤ URL_HARD_CAP
      ∨ (buildSegmentedPack rootRef adds 0).primary = buildMemoryStreamUrl rootRef [])
    ∧ (buildSegmentedPack rootRef [a] 0).primary = buildMemoryStreamUrl rootRef []
    ∧ (buildSegmentedPack rootRef [a] 0).primary.adds = [] := by
  refine ⟨?_, ?_, ?_⟩
  · unfold buildSegmentedPack
    rw [dif_neg (by omega : ¬ (0 : Nat) > 64)]
    simp only []
    by_cases h1 : (buildMemoryStreamUrl rootRef adds).url.length ≤ URL_HARD_CAP
    · rw [if_pos h1]
      exact Or.inl h1
    · rw [if_neg h1]
      by_cases h2 : (buildMemoryStreamUrl rootRef
          (segmentTailToFit rootRef adds).2).url.length > URL_HARD_CAP
      · rw [if_pos h2]
        exact Or.inr rfl
      · rw [if_neg h2]
        by_cases h3 : (segmentTailToFit rootRef adds).1 = 0
        · rw [if_pos h3]
          refine Or.inl ?_
          simp only []
          omega
        · rw [if_neg h3]
          rcases hk : (segmentTailToFit rootRef adds).2 with _ | ⟨b, t⟩
          · refine Or.inl ?_
            rw [hk] at h2
            simp only []
            omega
          · rw [hk] at h2
            simp only []
            by_cases h4 : b = []
            · rw [if_pos h4]
              refine Or.inl ?_
              simp only []
              omega
            · rw [if_neg h4]
              refine Or.inl ?_
              simp only []
              omega
  · rw [bsp_single_big rootRef a hbig]
  · rw [bsp_single_big rootRef a hbig]
    rfl

/-- **C2** witness: with the one-character root `"r"` and a single
120,001-character ancestor (whose URL necessarily exceeds the cap), the
pack degrades to the zero-adds root-only primary. -/
theorem c2_segmented_pack_cap_witness :
    ((buildSegmentedPack (strOf "r") [] 0).primary.url.length ≤ URL_HARD_CAP
      ∨ (buildSegmentedPack (strOf "r") [] 0).primary
          = buildMemoryStreamUrl (strOf "r") [])
    ∧ (buildSegmentedPack (strOf "r") [List.replicate 120001 'b'] 0).primary
        = buildMemoryStreamUrl (strOf "r") []
    ∧ (buildSegmentedPack (strOf "r") [List.replicate 120001 'b'] 0).primary.adds
        = [] := by
  refine c2_segmented_pack_cap (strOf "r") (List.replicate 120001 'b') [] ?_
  have h1 := bmsu_url_len_ge_add (strOf "r") [List.replicate 120001 'b']
    (List.replicate 120001 'b') (List.mem_singleton.mpr rfl)
  rw [List.length_replicate] at h1
  unfold URL_HARD_CAP
  omega

/-- **C2** counterexample to the original unconditional cap: a
120,001-character rootRef makes even the root-only fallback URL — and
hence the pack's primary — exceed the 120,000-character hard cap. -/
theorem c2_counterexample :
    URL_HARD_CAP
      < (buildSegmentedPack (List.replicate 120001 'a') [] 0).primary.url.length := by
  have h1 := bmsu_url_len_ge_root (List.replicate 120001 'a') ([] : List Str)
  rw [List.length_replicate] at h1
  have hbig : URL_HARD_CAP
      < (buildMemoryStreamUrl (List.replicate 120001 'a') []).url.length := by
    unfold URL_HARD_CAP
    omega
  rw [bsp_nil_big (List.replicate 120001 'a') hbig]
  exact hbig

theorem take_drop_splice (l : List Str) (j k : Nat) (hjk : j ≤ k) :
    (l.take k).drop j ++ l.drop k = l.drop j := by
  have h1 : (l.take k).drop j = (l.drop j).take (k - j) := List.drop_take ..
  have h2 : l.drop k = (l.drop j).drop (k - j) := by
    rw [List.drop_drop]
    congr 1
    omega
  rw [h1, h2, List.take_append_drop]

/-- **C3** (corrected).  What `buildSegmentedPack` actually
reconstructs: flattening the archive chain in *reverse* order and
appending the primary's adds yields a *suffix* of the original ancestor
list — order is preserved within that suffix, but the fallback and
guard paths may drop a prefix of the ancestors entirely, and the
archives come newest-first, not oldest-first as the original claim's
forward flattening asserts (see the counterexample, where a surviving
ancestor list loses its only element). -/
theorem c3_pack_reconstruction : ∀ n rootRef adds guard, 65 - guard ≤ n →
    ∃ k ≤ List.length adds,
      (((buildSegmentedPack rootRef adds guard).archives.reverse.flatMap
          fun s => s.adds)
        ++ (buildSegmentedPack rootRef adds guard).primary.adds) = adds.drop k := by
  intro n
  induction n with
  | zero =>
      intro rootRef adds guard hg
      refine ⟨adds.length, le_rfl, ?_⟩
      have hg64 : guard > 64 := by omega
      unfold buildSegmentedPack
      rw [dif_pos hg64]
      simp [bmsu_adds]
  | succ N ih =>
      intro rootRef adds guard hg
      by_cases hg64 : guard > 64
      · refine ⟨adds.length, le_rfl, ?_⟩
        unfold buildSegmentedPack
        rw [dif_pos hg64]
        simp [bmsu_adds]
      · have hspec := stf_spec rootRef adds
        unfold buildSegmentedPack
        rw [dif_neg hg64]
        simp only []
        by_cases h1 : (buildMemoryStreamUrl rootRef adds).url.length ≤ URL_HARD_CAP
        · rw [if_pos h1]
          exact ⟨0, by omega, by simp [bmsu_adds]⟩
        · rw [if_neg h1]
          by_cases h2 : (buildMemoryStreamUrl rootRef
              (segmentTailToFit rootRef adds).2).url.length > URL_HARD_CAP
          · rw [if_pos h2]
            exact ⟨adds.length, le_rfl, by simp [bmsu_adds]⟩
          · rw [if_neg h2]
            by_cases h3 : (segmentTailToFit rootRef adds).1 = 0
            · rw [if_pos h3]
              refine ⟨0, by omega, ?_⟩
              simp only [List.reverse_nil, List.flatMap_nil, List.nil_append]
              rw [bmsu_adds, hspec.2, h3]
            · rw [if_neg h3]
              rcases hk : (segmentTailToFit rootRef adds).2 with _ | ⟨b, t⟩
              · simp only []
                refine ⟨(segmentTailToFit rootRef adds).1, hspec.1, ?_⟩
                simp only [List.reverse_nil, List.flatMap_nil, List.nil_append]
                rw [bmsu_adds, ← hk, hspec.2]
              · simp only []
                by_cases h4 : b = []
                · rw [if_pos h4]
                  refine ⟨(segmentTailToFit rootRef adds).1, hspec.1, ?_⟩
                  simp only [List.reverse_nil, List.flatMap_nil, List.nil_append]
                  rw [bmsu_adds, ← hk, hspec.2]
                · rw [if_neg h4]
                  obtain ⟨j, hj, hrec⟩ := ih b (adds.take (segmentTailToFit rootRef adds).1)
                    (guard + 1) (by omega)
                  have hjle : j ≤ (segmentTailToFit rootRef adds).1 := by
                    have := List.length_take_le (segmentTailToFit rootRef adds).1 adds
                    omega
                  refine ⟨j, by omega, ?_⟩
                  simp only [List.reverse_cons, List.flatMap_append, List.flatMap_cons,
                    List.flatMap_nil, List.append_nil, List.append_assoc]
                  rw [bmsu_adds]
                  have hassoc : ((buildSegmentedPack b
                        (adds.take (segmentTailToFit rootRef adds).1)
                        (guard + 1)).archives.reverse.flatMap fun s => s.adds)
                      ++ ((buildSegmentedPack b
                        (adds.take (segmentTailToFit rootRef adds).1)
                        (guard + 1)).primary.adds
                      ++ (b :: t))
                      = (adds.take (segmentTailToFit rootRef adds).1).drop j
                        ++ (b :: t) := by
                    rw [← List.append_assoc, hrec]
                  rw [hassoc, ← hk, hspec.2]
                  exact take_drop_splice adds j (segmentTailToFit rootRef adds).1 hjle

/-- **C3** witness: at fuel 65, root `"r"`, one short ancestor and
guard 0, the reverse-archive concatenation is a suffix of the
ancestor list. -/
theorem c3_pack_reconstruction_witness :
    65 - 0 ≤ 65 ∧
    ∃ k ≤ List.length [strOf "x"],
      (((buildSegmentedPack (strOf "r") [strOf "x"] 0).archives.reverse.flatMap
          fun s => s.adds)
        ++ (buildSegmentedPack (strOf "r") [strOf "x"] 0).primary.adds)
        = [strOf "x"].drop k :=
  ⟨by omega, c3_pack_reconstruction 65 (strOf "r") [strOf "x"] 0 (by omega)⟩

/-- **C3** counterexample to the original reconstruction claim: with
root `"r"` and the single 120,001-character ancestor, the pack's
archives are empty and the primary keeps no adds, so the concatenation
of the archive chain with `primary.adds` is empty and the original
one-element ancestor sequence is *not* reconstructed. -/
theorem c3_counterexample :
    ((buildSegmentedPack (strOf "r") [List.replicate 120001 'b'] 0).archives = []
      ∧ (buildSegmentedPack (strOf "r") [List.replicate 120001 'b'] 0).primary.adds = [])
    ∧ ¬ (List.replicate 120001 'b' = ([] : Str)) := by
  have hbig : URL_HARD_CAP
      < (buildMemoryStreamUrl (strOf "r") [List.replicate 120001 'b']).url.length := by
    have h1 := bmsu_url_len_ge_add (strOf "r") [List.replicate 120001 'b']
      (List.replicate 120001 'b') (List.mem_singleton.mpr rfl)
    rw [List.length_replicate] at h1
    unfold URL_HARD_CAP
    omega
  refine ⟨⟨?_, ?_⟩, ?_⟩
  · rw [bsp_single_big _ _ hbig]
  · rw [bsp_single_big _ _ hbig]
    rfl
  · intro h
    have := congrArg List.length h
    rw [List.length_replicate] at this
    simp at this


theorem splitPSH_noQH (s : Str) (h : ∀ c ∈ s, ¬(c = '?' ∨ c = '#')) :
    splitPathSearchHash s = (s, [], []) := by
  unfold splitPathSearchHash
  have ht : s.takeWhile (fun c => ¬(c = '?' ∨ c = '#')) = s :=
    List.takeWhile_eq_self_iff.mpr (by simpa using h)
  simp only [ht, List.drop_length]

theorem dropWhile_replicate_neg (p : Char → Bool) (n : Nat) (c : Char) (h : p c = false) :
    (List.replicate n c).dropWhile p = List.replicate n c := by
  induction n with
  | zero => simp
  | succ m ih =>
      rw [List.replicate_succ, dropWhile_cons_noop _ _ _ h]

theorem takeWhile_replicate_pos (p : Char → Bool) (n : Nat) (c : Char) (h : p c = true) :
    (List.replicate n c).takeWhile p = List.replicate n c := by
  refine List.takeWhile_eq_self_iff.mpr ?_
  intro x hx
  rw [List.eq_of_mem_replicate hx]
  exact h

theorem jsTrim_replicate (n : Nat) (c : Char) (h : isJsSpace c = false) :
    jsTrim (List.replicate n c) = List.replicate n c := by
  unfold jsTrim
  rw [dropWhile_replicate_neg _ _ _ h, List.reverse_replicate,
    dropWhile_replicate_neg _ _ _ h, List.reverse_replicate]

theorem parseAbs_replicate_a (n : Nat) :
    parseAbsUrl (List.replicate (n + 1) 'a') = none := by
  unfold parseAbsUrl
  rw [takeWhile_replicate_pos _ _ _ (by decide), List.replicate_succ]
  simp only []
  rw [if_neg (by simp [isAlphaCh])]
  rw [show ('a' :: List.replicate n 'a').length = n + 1 by simp]
  rw [show List.drop (n + 1) ('a' :: List.replicate n 'a') = [] by
    rw [← List.replicate_succ, List.drop_replicate]
    simp]

theorem countAdds_replicate_a (n : Nat) :
    countAddsInUrl (List.replicate (n + 1) 'a') = 0 := by
  unfold countAddsInUrl tryParseUrl
  rw [jsTrim_replicate _ _ (by decide)]
  simp only []
  rw [parseAbs_replicate_a n]
  simp only []
  unfold parseWithBase
  rw [parseAbs_replicate_a n]
  simp only []
  show (spGetAll (parseParams (splitPathSearchHash
        ('/' :: List.replicate (n + 1) 'a')).2.2) (strOf "add")).length
      + (spGetAll (parseParams (splitPathSearchHash
        ('/' :: List.replicate (n + 1) 'a')).2.1) (strOf "add")).length = 0
  rw [splitPSH_noQH ('/' :: List.replicate (n + 1) 'a') (by
    intro x hx
    rcases List.mem_cons.mp hx with rfl | hx2
    · decide
    · rw [List.eq_of_mem_replicate hx2]
      decide)]
  simp only []
  rfl

/-- **C8** (corrected).  The registry score ranks witness depth (add
count) first only among URLs shorter than the 100,000-character weight:
a strictly larger add count wins whenever the lower-count URL is shorter
than 100,000 characters, and among URLs with equal add counts the score
order is exactly the length order.  The original unconditional claim is
false: an addless URL longer than 100,000 characters outscores a short
URL carrying one add (see the counterexample). -/
theorem c8_registry_score (u1 u2 : Str)
    (hadds : countAddsInUrl u2 < countAddsInUrl u1)
    (hlen : u2.length < 100000) :
    registryScore u2 < registryScore u1
      ∧ (∀ v1 v2 : Str, countAddsInUrl v1 = countAddsInUrl v2 →
          (registryScore v1 < registryScore v2 ↔ v1.length < v2.length)) := by
  constructor
  · unfold registryScore
    omega
  · intro v1 v2 h
    unfold registryScore
    rw [h]
    omega

/-- **C8** witness: a one-add stream URL outscores a short addless
origin URL. -/
theorem c8_registry_score_witness :
    registryScore (strOf "https://x.invalid/") 
        < registryScore (strOf "https://x.invalid/stream#add=z")
      ∧ (∀ v1 v2 : Str, countAddsInUrl v1 = countAddsInUrl v2 →
          (registryScore v1 < registryScore v2 ↔ v1.length < v2.length)) :=
  c8_registry_score (strOf "https://x.invalid/stream#add=z") (strOf "https://x.invalid/")
    (by decide) (by decide)

theorem registryScore_eq (raw : Str) :
    registryScore raw = countAddsInUrl raw * 100000 + raw.length := rfl

/-- **C8** counterexample to the original claim: the one-add URL
`https://x.invalid/stream#add=z` is outscored by a 200,000-character
addless string, because length alone can dominate the 100,000-per-add
weight. -/
theorem c8_counterexample :
    countAddsInUrl (List.replicate 200000 'a')
        < countAddsInUrl (strOf "https://x.invalid/stream#add=z")
      ∧ registryScore (strOf "https://x.invalid/stream#add=z")
        < registryScore (List.replicate 200000 'a') := by
  have h0 : countAddsInUrl (List.replicate 200000 'a') = 0 :=
    countAdds_replicate_a 199999
  have h1 : countAddsInUrl (strOf "https://x.invalid/stream#add=z") = 1 := by rfl
  have h2 : (strOf "https://x.invalid/stream#add=z").length = 30 := rfl
  constructor
  · rw [h0, h1]
    omega
  · rw [registryScore_eq, registryScore_eq, h0, h1, List.length_replicate, h2]
    omega

theorem pairFst {A B : Type} (a : A) (b : B) : (Prod.mk a b).1 = a := rfl

theorem pairSnd {A B : Type} (a : A) (b : B) : (Prod.mk a b).2 = b := rfl

theorem regEntry_def (u : Str) :
    regEntry u = (keyForRegistryUrl u, u, registryScore u) := by
  unfold regEntry
  rfl

theorem regEntry_key (u : Str) : (regEntry u).1 = keyForRegistryUrl u := by
  simp only [regEntry_def, pairFst, pairSnd]

theorem regEntry_val (u : Str) : (regEntry u).2.1 = u := by
  simp only [regEntry_def, pairFst, pairSnd]

theorem regEntry_score (u : Str) : (regEntry u).2.2 = registryScore u := by
  simp only [regEntry_def, pairFst, pairSnd]

theorem upsertScan_cons (acc : List (Str × Str × Nat)) (v : Str) (rest : List Str) :
    upsertScan acc (v :: rest)
      = (if canonicalizeForStorage v = [] then upsertScan acc rest
        else
          match acc.find? (fun e => e.1 = keyForRegistryUrl (canonicalizeForStorage v)) with
          | none => upsertScan (acc ++ [regEntry (canonicalizeForStorage v)]) rest
          | some e =>
            if registryScore (canonicalizeForStorage v) > e.2.2 then
              upsertScan (acc.map (fun e2 =>
                if e2.1 = keyForRegistryUrl (canonicalizeForStorage v)
                then regEntry (canonicalizeForStorage v)
                else e2)) rest
            else upsertScan acc rest) := rfl

theorem regEntry_val_map (S : List Str) :
    (S.map regEntry).map (fun e => e.2.1) = S := by
  induction S with
  | nil => rfl
  | cons v rest ih => simp [regEntry, ih]

theorem upsertScan_nf (S : List Str) :
    ∀ acc : List (Str × Str × Nat),
    (∀ u ∈ S, canonicalizeForStorage u = u ∧ u ≠ []) →
    (∀ u ∈ S, acc.find? (fun e => e.1 = keyForRegistryUrl u) = none) →
    (S.map keyForRegistryUrl).Nodup →
    upsertScan acc S = acc ++ S.map regEntry := by
  induction S with
  | nil =>
      intro acc _ _ _
      simp [upsertScan]
  | cons v rest ih =>
      intro acc hnf hfr hnd
      have hv := hnf v (List.mem_cons_self _ _)
      rw [upsertScan_cons, hv.1, if_neg hv.2, hfr v (List.mem_cons_self _ _)]
      simp only []
      rw [List.map_cons] at hnd
      have hknd := List.nodup_cons.mp hnd
      rw [ih (acc ++ [regEntry v])
        (fun u hu => hnf u (List.mem_cons_of_mem _ hu))
        (fun u hu => by
          rw [List.find?_append, hfr u (List.mem_cons_of_mem _ hu), Option.none_or]
          have hne : ¬ ((regEntry v).1 = keyForRegistryUrl u) := by
            rw [regEntry_key]
            intro heq2
            have hmem : keyForRegistryUrl u ∈ rest.map keyForRegistryUrl :=
              List.mem_map_of_mem _ hu
            rw [← heq2] at hmem
            exact hknd.1 hmem
          rw [List.find?_cons_of_neg _ (by simp only [decide_eq_true_eq]; exact hne),
            List.find?_nil])
        hknd.2]
      rw [List.map_cons, List.append_assoc]
      rfl

theorem find?_map_key_none (S : List Str) (k : Str)
    (h : ∀ u ∈ S, keyForRegistryUrl u ≠ k) :
    (S.map regEntry).find? (fun e => e.1 = k) = none := by
  rw [List.find?_eq_none]
  intro x hx
  obtain ⟨u, hu, rfl⟩ := List.mem_map.mp hx
  simp only [decide_eq_true_eq, regEntry_key]
  exact h u hu

theorem find?_map_key_found (S1 S2 : List Str) (u : Str) (k : Str)
    (hk : keyForRegistryUrl u = k)
    (h1 : ∀ w ∈ S1, keyForRegistryUrl w ≠ k) :
    ((S1 ++ u :: S2).map regEntry).find? (fun e => e.1 = k) = some (regEntry u) := by
  rw [List.map_append, List.find?_append, find?_map_key_none S1 _ h1, Option.none_or,
    List.map_cons]
  exact List.find?_cons_of_pos _ (by simp only [decide_eq_true_eq, regEntry_key]; exact hk)

theorem map_replace_none (L : List Str) (k : Str) (ev : Str × Str × Nat)
    (h : ∀ w ∈ L, keyForRegistryUrl w ≠ k) :
    (L.map regEntry).map (fun e2 => if e2.1 = k then ev else e2) = L.map regEntry := by
  induction L with
  | nil => rfl
  | cons w rest ih =>
      simp only [List.map_cons]
      rw [regEntry_key, if_neg (h w (List.mem_cons_self _ _)),
        ih (fun x hx => h x (List.mem_cons_of_mem _ hx))]

theorem uStep_eq (existing : List Str) (rawUrl : Str) :
    uStep existing rawUrl
      = (match (upsertScan [] existing).find?
            (fun e => e.1 = keyForRegistryUrl (canonicalizeForStorage rawUrl)) with
        | none => ((upsertScan [] existing)
            ++ [regEntry (canonicalizeForStorage rawUrl)], true, false)
        | some e =>
          if registryScore (canonicalizeForStorage rawUrl) > e.2.2 then
            ((upsertScan [] existing).map (fun e2 =>
              if e2.1 = keyForRegistryUrl (canonicalizeForStorage rawUrl)
              then regEntry (canonicalizeForStorage rawUrl) else e2), false, true)
          else (upsertScan [] existing, false, false)) := rfl

theorem upsertUrlList_eq (existing : List Str) (rawUrl : Str) :
    upsertUrlList existing rawUrl
      = (if canonicalizeForStorage rawUrl = [] then (⟨false, false, false, rawUrl⟩, existing)
        else
          (⟨decide (¬ ((uStep existing rawUrl).1.map (fun e => e.2.1)) = existing),
            (uStep existing rawUrl).2.1, (uStep existing rawUrl).2.2,
            canonicalizeForStorage rawUrl⟩,
            (uStep existing rawUrl).1.map (fun e => e.2.1))) := rfl

/-- **C6**.  On a normal-form store (every entry a non-empty fixed point
of `canonicalizeForStorage` with pairwise distinct registry keys),
`upsertUrlList` appends the canonical URL when its key is fresh, replaces
the stored entry in place exactly when the new score is strictly higher,
otherwise leaves the store untouched, and re-registering a stored URL is
a no-op. -/
theorem c6_registry_upsert (S : List Str) (raw : Str)
    (hnf : ∀ u ∈ S, canonicalizeForStorage u = u ∧ u ≠ [])
    (hnd : (S.map keyForRegistryUrl).Nodup) :
    ((canonicalizeForStorage raw ≠ [] →
      (∀ u ∈ S, keyForRegistryUrl u ≠ keyForRegistryUrl (canonicalizeForStorage raw)) →
      upsertUrlList S raw
        = (⟨true, true, false, canonicalizeForStorage raw⟩,
            S ++ [canonicalizeForStorage raw])))
    ∧ (∀ S1 u S2, S = S1 ++ u :: S2 →
        canonicalizeForStorage raw ≠ [] →
        keyForRegistryUrl u = keyForRegistryUrl (canonicalizeForStorage raw) →
        (registryScore u < registryScore (canonicalizeForStorage raw) →
          upsertUrlList S raw
            = (⟨true, false, true, canonicalizeForStorage raw⟩,
                S1 ++ canonicalizeForStorage raw :: S2))
        ∧ (registryScore (canonicalizeForStorage raw) ≤ registryScore u →
          upsertUrlList S raw
            = (⟨false, false, false, canonicalizeForStorage raw⟩, S1 ++ u :: S2)))
    ∧ (∀ u ∈ S, upsertUrlList S u = (⟨false, false, false, u⟩, S)) := by
  have hscan : upsertScan [] S = S.map regEntry :=
    upsertScan_nf S [] hnf (fun u _ => rfl) hnd
  have main2 : ∀ (r : Str) (S1 : List Str) (u : Str) (S2 : List Str), S = S1 ++ u :: S2 →
      canonicalizeForStorage r ≠ [] →
      keyForRegistryUrl u = keyForRegistryUrl (canonicalizeForStorage r) →
      (registryScore u < registryScore (canonicalizeForStorage r) →
        upsertUrlList S r
          = (⟨true, false, true, canonicalizeForStorage r⟩,
              S1 ++ canonicalizeForStorage r :: S2))
      ∧ (registryScore (canonicalizeForStorage r) ≤ registryScore u →
        upsertUrlList S r
          = (⟨false, false, false, canonicalizeForStorage r⟩, S1 ++ u :: S2)) := by
    intro r S1 u S2 hS hc hkey
    have hnd2 : ((S1 ++ u :: S2).map keyForRegistryUrl).Nodup := hS ▸ hnd
    rw [List.map_append, List.map_cons] at hnd2
    obtain ⟨hnd1, hndc, hdisj⟩ := List.nodup_append.mp hnd2
    have h1 : ∀ w ∈ S1, keyForRegistryUrl w
        ≠ keyForRegistryUrl (canonicalizeForStorage r) := by
      intro w hw heq
      refine hdisj (List.mem_map_of_mem _ hw) ?_
      rw [heq, ← hkey]
      exact List.mem_cons_self _ _
    have h2 : ∀ w ∈ S2, keyForRegistryUrl w
        ≠ keyForRegistryUrl (canonicalizeForStorage r) := by
      intro w hw heq
      refine (List.nodup_cons.mp hndc).1 ?_
      rw [hkey, ← heq]
      exact List.mem_map_of_mem _ hw
    have hfind : ((S1 ++ u :: S2).map regEntry).find?
        (fun e => e.1 = keyForRegistryUrl (canonicalizeForStorage r))
        = some (regEntry u) :=
      find?_map_key_found S1 S2 u _ hkey h1
    constructor
    · intro hlt
      have hstep : uStep S r
          = (((S1 ++ u :: S2).map regEntry).map (fun e2 =>
              if e2.1 = keyForRegistryUrl (canonicalizeForStorage r)
              then regEntry (canonicalizeForStorage r) else e2), false, true) := by
        rw [uStep_eq, hscan, hS, hfind]
        simp only []
        rw [regEntry_score, if_pos hlt]
      have hmap : (((S1 ++ u :: S2).map regEntry).map (fun e2 =>
          if e2.1 = keyForRegistryUrl (canonicalizeForStorage r)
          then regEntry (canonicalizeForStorage r) else e2)).map (fun e => e.2.1)
          = S1 ++ canonicalizeForStorage r :: S2 := by
        rw [List.map_append, List.map_cons, List.map_append, List.map_cons,
          map_replace_none S1 _ _ h1, map_replace_none S2 _ _ h2]
        rw [regEntry_key, if_pos hkey, List.map_append, List.map_cons,
          regEntry_val_map, regEntry_val_map]
        rw [regEntry_val]
      have hne : ¬ (S1 ++ canonicalizeForStorage r :: S2 = S1 ++ u :: S2) := by
        intro h
        have h3 := List.append_cancel_left h
        injection h3 with hcu2 _
        rw [hcu2] at hlt
        exact lt_irrefl _ hlt
      rw [upsertUrlList_eq, if_neg hc, hstep]
      simp only []
      rw [hmap, hS, decide_eq_true hne]
    · intro hle
      have hstep : uStep S r = ((S1 ++ u :: S2).map regEntry, false, false) := by
        rw [uStep_eq, hscan, hS, hfind]
        simp only []
        rw [regEntry_score, if_neg (not_lt.mpr hle)]
      rw [upsertUrlList_eq, if_neg hc, hstep]
      simp only []
      rw [regEntry_val_map, ← hS, decide_eq_false (not_not_intro rfl)]
  refine ⟨?_, main2 raw, ?_⟩
  · intro hc hfresh
    have hfind : (S.map regEntry).find?
        (fun e => e.1 = keyForRegistryUrl (canonicalizeForStorage raw)) = none :=
      find?_map_key_none S _ hfresh
    have hstep : uStep S raw
        = (S.map regEntry ++ [regEntry (canonicalizeForStorage raw)], true, false) := by
      rw [uStep_eq, hscan, hfind]
    have hnext : ((S.map regEntry ++ [regEntry (canonicalizeForStorage raw)]).map
        (fun e => e.2.1)) = S ++ [canonicalizeForStorage raw] := by
      rw [List.map_append, regEntry_val_map, List.map_cons]
      rw [regEntry_val, List.map_nil]
    have hne : ¬ (S ++ [canonicalizeForStorage raw] = S) := by
      intro h
      have := congrArg List.length h
      simp at this
    rw [upsertUrlList_eq, if_neg hc, hstep]
    simp only []
    rw [hnext, decide_eq_true hne]
  · intro u hu
    obtain ⟨S1, S2, hS⟩ := List.append_of_mem hu
    have hcu := (hnf u hu).1
    have hres := (main2 u S1 u S2 hS
      (by rw [hcu]; exact (hnf u hu).2)
      (by rw [hcu])).2 (by rw [hcu])
    rw [hcu] at hres
    rw [hres, hS]

/-- **C6** witness: a singleton normal-form store containing one
token-keyed stream URL satisfies the normal-form hypotheses, and the
upsert contract holds for it. -/
theorem c6_registry_upsert_witness :
    ((∀ u ∈ [strOf "https://x.invalid/stream#t=abcdefghijklmnop"],
        canonicalizeForStorage u = u ∧ u ≠ [])
      ∧ ([strOf "https://x.invalid/stream#t=abcdefghijklmnop"].map
          keyForRegistryUrl).Nodup)
    ∧ (((canonicalizeForStorage (strOf "https://x.invalid/stream#t=abcdefghijklmnop") ≠ [] →
      (∀ u ∈ [strOf "https://x.invalid/stream#t=abcdefghijklmnop"], keyForRegistryUrl u
        ≠ keyForRegistryUrl (canonicalizeForStorage
            (strOf "https://x.invalid/stream#t=abcdefghijklmnop"))) →
      upsertUrlList [strOf "https://x.invalid/stream#t=abcdefghijklmnop"]
          (strOf "https://x.invalid/stream#t=abcdefghijklmnop")
        = (⟨true, true, false, canonicalizeForStorage
              (strOf "https://x.invalid/stream#t=abcdefghijklmnop")⟩,
            [strOf "https://x.invalid/stream#t=abcdefghijklmnop"]
              ++ [canonicalizeForStorage
                (strOf "https://x.invalid/stream#t=abcdefghijklmnop")])))
    ∧ (∀ S1 u S2, [strOf "https://x.invalid/stream#t=abcdefghijklmnop"] = S1 ++ u :: S2 →
        canonicalizeForStorage (strOf "https://x.invalid/stream#t=abcdefghijklmnop") ≠ [] →
        keyForRegistryUrl u = keyForRegistryUrl (canonicalizeForStorage
          (strOf "https://x.invalid/stream#t=abcdefghijklmnop")) →
        (registryScore u < registryScore (canonicalizeForStorage
            (strOf "https://x.invalid/stream#t=abcdefghijklmnop")) →
          upsertUrlList [strOf "https://x.invalid/stream#t=abcdefghijklmnop"]
              (strOf "https://x.invalid/stream#t=abcdefghijklmnop")
            = (⟨true, false, true, canonicalizeForStorage
                  (strOf "https://x.invalid/stream#t=abcdefghijklmnop")⟩,
                S1 ++ canonicalizeForStorage
                  (strOf "https://x.invalid/stream#t=abcdefghijklmnop") :: S2))
        ∧ (registryScore (canonicalizeForStorage
              (strOf "https://x.invalid/stream#t=abcdefghijklmnop"))
            ≤ registryScore u →
          upsertUrlList [strOf "https://x.invalid/stream#t=abcdefghijklmnop"]
              (strOf "https://x.invalid/stream#t=abcdefghijklmnop")
            = (⟨false, false, false, canonicalizeForStorage
                  (strOf "https://x.invalid/stream#t=abcdefghijklmnop")⟩,
                S1 ++ u :: S2)))
    ∧ (∀ u ∈ [strOf "https://x.invalid/stream#t=abcdefghijklmnop"],
        upsertUrlList [strOf "https://x.invalid/stream#t=abcdefghijklmnop"] u
          = (⟨false, false, false, u⟩,
              [strOf "https://x.invalid/stream#t=abcdefghijklmnop"]))) :=
  ⟨⟨by decide, by decide⟩,
    c6_registry_upsert [strOf "https://x.invalid/stream#t=abcdefghijklmnop"]
      (strOf "https://x.invalid/stream#t=abcdefghijklmnop") (by decide) (by decide)⟩

theorem threadWalk_succ (fuel : Nat) (seen : List Str) (curRef : Str)
    (payload : Option JsVal) :
    threadWalk (fuel + 1) seen curRef payload
      = (if threadSeenKey curRef payload ∈ seen then curRef
        else
          match walkPrev payload with
          | none => curRef
          | some prevRef =>
            threadWalk fuel (seen ++ [threadSeenKey curRef payload]) prevRef
              (loadPayloadFromRef prevRef)) := rfl

set_option maxRecDepth 100000 in
/-- **C7**.  The bounded previous-pointer walk: it stops at the fuel
bound, at a repeated content-key, or when no further pointer resolves,
and otherwise follows the pointer with the key recorded; a URL carrying
a witness chain short-circuits to the chain head; and a constructed
key-cycle A -> B -> A terminates, returning the reference at which the
repeated key was detected. -/
theorem c7_thread_walk :
    (∀ seen curRef payload, threadWalk 0 seen curRef payload = curRef)
    ∧ (∀ fuel seen curRef payload, threadSeenKey curRef payload ∈ seen →
        threadWalk (fuel + 1) seen curRef payload = curRef)
    ∧ (∀ fuel seen curRef payload, walkPrev payload = none →
        threadWalk (fuel + 1) seen curRef payload = curRef)
    ∧ (∀ fuel seen curRef payload prevRef,
        threadSeenKey curRef payload ∉ seen → walkPrev payload = some prevRef →
        threadWalk (fuel + 1) seen curRef payload
          = threadWalk fuel (seen ++ [threadSeenKey curRef payload]) prevRef
              (loadPayloadFromRef prevRef))
    ∧ (∀ rawUrl startPayload c0 rest,
        dedupPreserveOrder (extractAddChain (stripEdgePunct rawUrl)) = c0 :: rest →
        stripEdgePunct rawUrl ≠ [] →
        threadRootRefFromUrlLike rawUrl startPayload = c0)
    ∧ threadRootRefFromUrlLike (strOf "j:eyJpZCI6ImFhYWFhYWFhYWFhYWFhYWFhYWFhYWFhYWFhYWFhYWFhYWFhYWFhYWFhYWFhYWFhYWFhYWFhYWFhYWFhYWFhYWEiLCJwcmV2IjoiajpleUpwWkNJNkltSmlZbUppWW1KaVltSmlZbUppWW1KaVltSmlZbUppWW1KaVltSmlZbUppWW1KaVltSmlZbUppWW1KaVltSmlZbUppWW1KaVltSmlZbUppWW1KaVltSWlMQ0p3Y21WMklqb2lhanBsZVVwd1drTkpOa2x0Um1oWlYwWm9XVmRHYUZsWFJtaFpWMFpvV1ZkR2FGbFhSbWhaVjBab1dWZEdhRmxYUm1oWlYwWm9XVmRHYUZsWFJtaFpWMFpvV1ZkR2FGbFhSbWhaVjBab1dWZEdhRmxYUm1oWlYwWm9XVmRHYUZsWFJXbG1VU0o5In0")
        (loadPayloadFromRef (strOf "j:eyJpZCI6ImFhYWFhYWFhYWFhYWFhYWFhYWFhYWFhYWFhYWFhYWFhYWFhYWFhYWFhYWFhYWFhYWFhYWFhYWFhYWFhYWFhYWEiLCJwcmV2IjoiajpleUpwWkNJNkltSmlZbUppWW1KaVltSmlZbUppWW1KaVltSmlZbUppWW1KaVltSmlZbUppWW1KaVltSmlZbUppWW1KaVltSmlZbUppWW1KaVltSmlZbUppWW1KaVltSWlMQ0p3Y21WMklqb2lhanBsZVVwd1drTkpOa2x0Um1oWlYwWm9XVmRHYUZsWFJtaFpWMFpvV1ZkR2FGbFhSbWhaVjBab1dWZEdhRmxYUm1oWlYwWm9XVmRHYUZsWFJtaFpWMFpvV1ZkR2FGbFhSbWhaVjBab1dWZEdhRmxYUm1oWlYwWm9XVmRHYUZsWFJXbG1VU0o5In0"))
        = strOf "j:eyJpZCI6ImFhYWFhYWFhYWFhYWFhYWFhYWFhYWFhYWFhYWFhYWFhYWFhYWFhYWFhYWFhYWFhYWFhYWFhYWFhYWFhYWFhYWEifQ" := by
  refine ⟨fun _ _ _ => rfl, ?_, ?_, ?_, ?_, ?_⟩
  · intro fuel seen curRef payload h
    rw [threadWalk_succ, if_pos h]
  · intro fuel seen curRef payload h
    rw [threadWalk_succ]
    by_cases hk : threadSeenKey curRef payload ∈ seen
    · rw [if_pos hk]
    · rw [if_neg hk, h]
  · intro fuel seen curRef payload prevRef h1 h2
    rw [threadWalk_succ, if_neg h1, h2]
  · intro rawUrl startPayload c0 rest h1 h2
    unfold threadRootRefFromUrlLike
    rw [if_neg h2, h1]
  · rfl

set_option maxRecDepth 100000 in
/-- **C7** witness: each stop and step rule fired on concrete inputs,
including one step of the constructed key cycle and a chain-head
short-circuit. -/
theorem c7_thread_walk_witness :
    threadWalk 0 [] (strOf "x") none = strOf "x"
    ∧ (threadSeenKey (strOf "x") none ∈ [threadSeenKey (strOf "x") none]
      ∧ threadWalk 1 [threadSeenKey (strOf "x") none] (strOf "x") none = strOf "x")
    ∧ (walkPrev none = none ∧ threadWalk 3 [] (strOf "x") none = strOf "x")
    ∧ (threadSeenKey (strOf "j:eyJpZCI6ImFhYWFhYWFhYWFhYWFhYWFhYWFhYWFhYWFhYWFhYWFhYWFhYWFhYWFhYWFhYWFhYWFhYWFhYWFhYWFhYWFhYWEiLCJwcmV2IjoiajpleUpwWkNJNkltSmlZbUppWW1KaVltSmlZbUppWW1KaVltSmlZbUppWW1KaVltSmlZbUppWW1KaVltSmlZbUppWW1KaVltSmlZbUppWW1KaVltSmlZbUppWW1KaVltSWlMQ0p3Y21WMklqb2lhanBsZVVwd1drTkpOa2x0Um1oWlYwWm9XVmRHYUZsWFJtaFpWMFpvV1ZkR2FGbFhSbWhaVjBab1dWZEdhRmxYUm1oWlYwWm9XVmRHYUZsWFJtaFpWMFpvV1ZkR2FGbFhSbWhaVjBab1dWZEdhRmxYUm1oWlYwWm9XVmRHYUZsWFJXbG1VU0o5In0") (loadPayloadFromRef (strOf "j:eyJpZCI6ImFhYWFhYWFhYWFhYWFhYWFhYWFhYWFhYWFhYWFhYWFhYWFhYWFhYWFhYWFhYWFhYWFhYWFhYWFhYWFhYWFhYWEiLCJwcmV2IjoiajpleUpwWkNJNkltSmlZbUppWW1KaVltSmlZbUppWW1KaVltSmlZbUppWW1KaVltSmlZbUppWW1KaVltSmlZbUppWW1KaVltSmlZbUppWW1KaVltSmlZbUppWW1KaVltSWlMQ0p3Y21WMklqb2lhanBsZVVwd1drTkpOa2x0Um1oWlYwWm9XVmRHYUZsWFJtaFpWMFpvV1ZkR2FGbFhSbWhaVjBab1dWZEdhRmxYUm1oWlYwWm9XVmRHYUZsWFJtaFpWMFpvV1ZkR2FGbFhSbWhaVjBab1dWZEdhRmxYUm1oWlYwWm9XVmRHYUZsWFJXbG1VU0o5In0")) ∉ ([] : List Str)
      ∧ walkPrev (loadPayloadFromRef (strOf "j:eyJpZCI6ImFhYWFhYWFhYWFhYWFhYWFhYWFhYWFhYWFhYWFhYWFhYWFhYWFhYWFhYWFhYWFhYWFhYWFhYWFhYWFhYWFhYWEiLCJwcmV2IjoiajpleUpwWkNJNkltSmlZbUppWW1KaVltSmlZbUppWW1KaVltSmlZbUppWW1KaVltSmlZbUppWW1KaVltSmlZbUppWW1KaVltSmlZbUppWW1KaVltSmlZbUppWW1KaVltSWlMQ0p3Y21WMklqb2lhanBsZVVwd1drTkpOa2x0Um1oWlYwWm9XVmRHYUZsWFJtaFpWMFpvV1ZkR2FGbFhSbWhaVjBab1dWZEdhRmxYUm1oWlYwWm9XVmRHYUZsWFJtaFpWMFpvV1ZkR2FGbFhSbWhaVjBab1dWZEdhRmxYUm1oWlYwWm9XVmRHYUZsWFJXbG1VU0o5In0")) = some (strOf "j:eyJpZCI6ImJiYmJiYmJiYmJiYmJiYmJiYmJiYmJiYmJiYmJiYmJiYmJiYmJiYmJiYmJiYmJiYmJiYmJiYmJiYmJiYmJiYmIiLCJwcmV2IjoiajpleUpwWkNJNkltRmhZV0ZoWVdGaFlXRmhZV0ZoWVdGaFlXRmhZV0ZoWVdGaFlXRmhZV0ZoWVdGaFlXRmhZV0ZoWVdGaFlXRmhZV0ZoWVdGaFlXRmhZV0ZoWVdGaFlXRWlmUSJ9")
      ∧ threadWalk 1 [] (strOf "j:eyJpZCI6ImFhYWFhYWFhYWFhYWFhYWFhYWFhYWFhYWFhYWFhYWFhYWFhYWFhYWFhYWFhYWFhYWFhYWFhYWFhYWFhYWFhYWEiLCJwcmV2IjoiajpleUpwWkNJNkltSmlZbUppWW1KaVltSmlZbUppWW1KaVltSmlZbUppWW1KaVltSmlZbUppWW1KaVltSmlZbUppWW1KaVltSmlZbUppWW1KaVltSmlZbUppWW1KaVltSWlMQ0p3Y21WMklqb2lhanBsZVVwd1drTkpOa2x0Um1oWlYwWm9XVmRHYUZsWFJtaFpWMFpvV1ZkR2FGbFhSbWhaVjBab1dWZEdhRmxYUm1oWlYwWm9XVmRHYUZsWFJtaFpWMFpvV1ZkR2FGbFhSbWhaVjBab1dWZEdhRmxYUm1oWlYwWm9XVmRHYUZsWFJXbG1VU0o5In0") (loadPayloadFromRef (strOf "j:eyJpZCI6ImFhYWFhYWFhYWFhYWFhYWFhYWFhYWFhYWFhYWFhYWFhYWFhYWFhYWFhYWFhYWFhYWFhYWFhYWFhYWFhYWFhYWEiLCJwcmV2IjoiajpleUpwWkNJNkltSmlZbUppWW1KaVltSmlZbUppWW1KaVltSmlZbUppWW1KaVltSmlZbUppWW1KaVltSmlZbUppWW1KaVltSmlZbUppWW1KaVltSmlZbUppWW1KaVltSWlMQ0p3Y21WMklqb2lhanBsZVVwd1drTkpOa2x0Um1oWlYwWm9XVmRHYUZsWFJtaFpWMFpvV1ZkR2FGbFhSbWhaVjBab1dWZEdhRmxYUm1oWlYwWm9XVmRHYUZsWFJtaFpWMFpvV1ZkR2FGbFhSbWhaVjBab1dWZEdhRmxYUm1oWlYwWm9XVmRHYUZsWFJXbG1VU0o5In0"))
          = threadWalk 0
              ([] ++ [threadSeenKey (strOf "j:eyJpZCI6ImFhYWFhYWFhYWFhYWFhYWFhYWFhYWFhYWFhYWFhYWFhYWFhYWFhYWFhYWFhYWFhYWFhYWFhYWFhYWFhYWFhYWEiLCJwcmV2IjoiajpleUpwWkNJNkltSmlZbUppWW1KaVltSmlZbUppWW1KaVltSmlZbUppWW1KaVltSmlZbUppWW1KaVltSmlZbUppWW1KaVltSmlZbUppWW1KaVltSmlZbUppWW1KaVltSWlMQ0p3Y21WMklqb2lhanBsZVVwd1drTkpOa2x0Um1oWlYwWm9XVmRHYUZsWFJtaFpWMFpvV1ZkR2FGbFhSbWhaVjBab1dWZEdhRmxYUm1oWlYwWm9XVmRHYUZsWFJtaFpWMFpvV1ZkR2FGbFhSbWhaVjBab1dWZEdhRmxYUm1oWlYwWm9XVmRHYUZsWFJXbG1VU0o5In0") (loadPayloadFromRef (strOf "j:eyJpZCI6ImFhYWFhYWFhYWFhYWFhYWFhYWFhYWFhYWFhYWFhYWFhYWFhYWFhYWFhYWFhYWFhYWFhYWFhYWFhYWFhYWFhYWEiLCJwcmV2IjoiajpleUpwWkNJNkltSmlZbUppWW1KaVltSmlZbUppWW1KaVltSmlZbUppWW1KaVltSmlZbUppWW1KaVltSmlZbUppWW1KaVltSmlZbUppWW1KaVltSmlZbUppWW1KaVltSWlMQ0p3Y21WMklqb2lhanBsZVVwd1drTkpOa2x0Um1oWlYwWm9XVmRHYUZsWFJtaFpWMFpvV1ZkR2FGbFhSbWhaVjBab1dWZEdhRmxYUm1oWlYwWm9XVmRHYUZsWFJtaFpWMFpvV1ZkR2FGbFhSbWhaVjBab1dWZEdhRmxYUm1oWlYwWm9XVmRHYUZsWFJXbG1VU0o5In0"))])
              (strOf "j:eyJpZCI6ImJiYmJiYmJiYmJiYmJiYmJiYmJiYmJiYmJiYmJiYmJiYmJiYmJiYmJiYmJiYmJiYmJiYmJiYmJiYmJiYmJiYmIiLCJwcmV2IjoiajpleUpwWkNJNkltRmhZV0ZoWVdGaFlXRmhZV0ZoWVdGaFlXRmhZV0ZoWVdGaFlXRmhZV0ZoWVdGaFlXRmhZV0ZoWVdGaFlXRmhZV0ZoWVdGaFlXRmhZV0ZoWVdGaFlXRWlmUSJ9") (loadPayloadFromRef (strOf "j:eyJpZCI6ImJiYmJiYmJiYmJiYmJiYmJiYmJiYmJiYmJiYmJiYmJiYmJiYmJiYmJiYmJiYmJiYmJiYmJiYmJiYmJiYmJiYmIiLCJwcmV2IjoiajpleUpwWkNJNkltRmhZV0ZoWVdGaFlXRmhZV0ZoWVdGaFlXRmhZV0ZoWVdGaFlXRmhZV0ZoWVdGaFlXRmhZV0ZoWVdGaFlXRmhZV0ZoWVdGaFlXRmhZV0ZoWVdGaFlXRWlmUSJ9")))
    ∧ (dedupPreserveOrder (extractAddChain (stripEdgePunct (strOf "https://x.invalid/stream#add=j:eyJpZCI6ImFhYWFhYWFhYWFhYWFhYWFhYWFhYWFhYWFhYWFhYWFhYWFhYWFhYWFhYWFhYWFhYWFhYWFhYWFhYWFhYWFhYWEifQ")))
        = strOf "j:eyJpZCI6ImFhYWFhYWFhYWFhYWFhYWFhYWFhYWFhYWFhYWFhYWFhYWFhYWFhYWFhYWFhYWFhYWFhYWFhYWFhYWFhYWFhYWEifQ" :: []
      ∧ stripEdgePunct (strOf "https://x.invalid/stream#add=j:eyJpZCI6ImFhYWFhYWFhYWFhYWFhYWFhYWFhYWFhYWFhYWFhYWFhYWFhYWFhYWFhYWFhYWFhYWFhYWFhYWFhYWFhYWFhYWEifQ") ≠ []
      ∧ threadRootRefFromUrlLike (strOf "https://x.invalid/stream#add=j:eyJpZCI6ImFhYWFhYWFhYWFhYWFhYWFhYWFhYWFhYWFhYWFhYWFhYWFhYWFhYWFhYWFhYWFhYWFhYWFhYWFhYWFhYWFhYWEifQ") none = strOf "j:eyJpZCI6ImFhYWFhYWFhYWFhYWFhYWFhYWFhYWFhYWFhYWFhYWFhYWFhYWFhYWFhYWFhYWFhYWFhYWFhYWFhYWFhYWFhYWEifQ") :=
  ⟨c7_thread_walk.1 [] (strOf "x") none,
    ⟨List.mem_cons_self _ _, c7_thread_walk.2.1 0 _ _ _ (List.mem_cons_self _ _)⟩,
    ⟨rfl, c7_thread_walk.2.2.1 2 [] (strOf "x") none rfl⟩,
    ⟨List.not_mem_nil _, by rfl,
      c7_thread_walk.2.2.2.1 0 [] (strOf "j:eyJpZCI6ImFhYWFhYWFhYWFhYWFhYWFhYWFhYWFhYWFhYWFhYWFhYWFhYWFhYWFhYWFhYWFhYWFhYWFhYWFhYWFhYWFhYWEiLCJwcmV2IjoiajpleUpwWkNJNkltSmlZbUppWW1KaVltSmlZbUppWW1KaVltSmlZbUppWW1KaVltSmlZbUppWW1KaVltSmlZbUppWW1KaVltSmlZbUppWW1KaVltSmlZbUppWW1KaVltSWlMQ0p3Y21WMklqb2lhanBsZVVwd1drTkpOa2x0Um1oWlYwWm9XVmRHYUZsWFJtaFpWMFpvV1ZkR2FGbFhSbWhaVjBab1dWZEdhRmxYUm1oWlYwWm9XVmRHYUZsWFJtaFpWMFpvV1ZkR2FGbFhSbWhaVjBab1dWZEdhRmxYUm1oWlYwWm9XVmRHYUZsWFJXbG1VU0o5In0")
        (loadPayloadFromRef (strOf "j:eyJpZCI6ImFhYWFhYWFhYWFhYWFhYWFhYWFhYWFhYWFhYWFhYWFhYWFhYWFhYWFhYWFhYWFhYWFhYWFhYWFhYWFhYWFhYWEiLCJwcmV2IjoiajpleUpwWkNJNkltSmlZbUppWW1KaVltSmlZbUppWW1KaVltSmlZbUppWW1KaVltSmlZbUppWW1KaVltSmlZbUppWW1KaVltSmlZbUppWW1KaVltSmlZbUppWW1KaVltSWlMQ0p3Y21WMklqb2lhanBsZVVwd1drTkpOa2x0Um1oWlYwWm9XVmRHYUZsWFJtaFpWMFpvV1ZkR2FGbFhSbWhaVjBab1dWZEdhRmxYUm1oWlYwWm9XVmRHYUZsWFJtaFpWMFpvV1ZkR2FGbFhSbWhaVjBab1dWZEdhRmxYUm1oWlYwWm9XVmRHYUZsWFJXbG1VU0o5In0")) (strOf "j:eyJpZCI6ImJiYmJiYmJiYmJiYmJiYmJiYmJiYmJiYmJiYmJiYmJiYmJiYmJiYmJiYmJiYmJiYmJiYmJiYmJiYmJiYmJiYmIiLCJwcmV2IjoiajpleUpwWkNJNkltRmhZV0ZoWVdGaFlXRmhZV0ZoWVdGaFlXRmhZV0ZoWVdGaFlXRmhZV0ZoWVdGaFlXRmhZV0ZoWVdGaFlXRmhZV0ZoWVdGaFlXRmhZV0ZoWVdGaFlXRWlmUSJ9")
        (List.not_mem_nil _) (by rfl)⟩,
    ⟨by rfl, by decide,
      c7_thread_walk.2.2.2.2.1 (strOf "https://x.invalid/stream#add=j:eyJpZCI6ImFhYWFhYWFhYWFhYWFhYWFhYWFhYWFhYWFhYWFhYWFhYWFhYWFhYWFhYWFhYWFhYWFhYWFhYWFhYWFhYWFhYWEifQ") none (strOf "j:eyJpZCI6ImFhYWFhYWFhYWFhYWFhYWFhYWFhYWFhYWFhYWFhYWFhYWFhYWFhYWFhYWFhYWFhYWFhYWFhYWFhYWFhYWFhYWEifQ") [] (by rfl)
        (by decide)⟩⟩
